import Mathlib

/-!
jit_lang: a shallow embedding of `value.cpp`, of `parser.cpp` and of `main.cpp`.

The definitions follow the C++ sources function by function.

* A `uint64_t` is a natural number below `2 ^ 64`; the bit operations of the tagged
  value encoding are taken modulo `2 ^ 64`.
* A `Type *` is `Option Nat`: `none` is `nullptr`, `some i` is the address of the `i`-th
  object created by `new Type`.  The objects live in `Globals.heap`.
* A `std::unordered_map` is an association list read with `umap_find` and written with
  `umap_set` (the C++ `m[k] = v`).
* Storage obtained with `new T[n]` is a list of length `n`; a slot that was never written
  holds `default`.
* The counters keep their machine range.  The members `capacity` and `size` of a list
  are `unsigned int`: a result is taken modulo `2 ^ 32`.  The members `count` and
  `capacity` of a method table are `int`: a result of `2 ^ 31` or more is an overflow,
  which has no defined behaviour.  A function of the runtime that has no defined
  behaviour on its arguments (such an overflow, an access outside an array of a list)
  returns `none`.
* The `X86Compiler` is the list of the nodes it was asked to emit, with counters for the
  virtual registers and labels it handed out.
* A compilation that stops early is an `Abort`: either the message of a C++ `throw`, or
  `undefined` where the C++ has no defined behaviour and throws nothing.
* A `std::string` of program text is a list of characters.  The parsers call each other
  recursively and loop; they take a number `fuel` that bounds the depth of the calls and
  return `none` when it runs out.  A parser returns with more fuel what it returns with
  less (`more_fuel`).
-/

namespace JitLang

/-! ## `std::unordered_map` -/

/-- The C++ `m.find(k)`: `none` stands for `m.end()`. -/
def umap_find {K V : Type} [DecidableEq K] : List (K × V) → K → Option V
  | [], _ => none
  | (k', v) :: m, k => if k' = k then some v else umap_find m k

/-- The C++ `m[k] = v`: overwrites the entry of `k` or adds one. -/
def umap_set {K V : Type} [DecidableEq K] : List (K × V) → K → V → List (K × V)
  | [], k, v => [(k, v)]
  | (k', v') :: m, k, v => if k' = k then (k, v) :: m else (k', v') :: umap_set m k v

/-! ## `value.cpp`: tagged values -/

/-- Number of values of a `uint64_t`. -/
def WORD : Nat := 2 ^ 64

/-- The macro `SIGN_BIT`, `(uint64_t)1 << 63`. -/
def SIGN_BIT : Nat := 2 ^ 63

/-- The macro `NUM_BIT`, `(uint64_t)1 << 62`. -/
def NUM_BIT : Nat := 2 ^ 62

/-- The C++ `~x` on a `uint64_t`. -/
def not64 (x : Nat) : Nat := (WORD - 1) ^^^ (x % WORD)

/-- The function `valueToNum`: the cast `(int64_t)value`. -/
def valueToNum (value : Nat) : Int :=
  if value % WORD < SIGN_BIT then ((value % WORD : Nat) : Int)
  else ((value % WORD : Nat) : Int) - (WORD : Int)

/-- The function `valueToObj`: `value & ~NUM_BIT`, read as an address. -/
def valueToObj (value : Nat) : Nat := value &&& not64 NUM_BIT

/-- The function `objToValue`: `NUM_BIT | (uint64_t)obj`. -/
def objToValue (obj : Nat) : Nat := (NUM_BIT ||| obj) % WORD

/-- The function `valueToFunc`: a cast. -/
def valueToFunc (value : Nat) : Nat := value

/-- The function `funcToValue`: a cast. -/
def funcToValue (func : Nat) : Nat := func

/-- The function `isNum`: `(value & NUM_BIT) == 0`. -/
def isNum (value : Nat) : Bool := (value &&& NUM_BIT) == 0

/-! ## `value.cpp`: the type registry -/

/-- A `Type *`. -/
abbrev TypePtr := Option Nat

/-- The struct `FunctionTable`. -/
structure FunctionTable where
  is_method : List Bool
  func : List Nat
  type : List TypePtr
  count : Nat
  capacity : Nat
deriving DecidableEq, Repr

/-- The struct `Type`. -/
structure TypeObj where
  type_number : Nat
  name : String
  functions : FunctionTable
  return_type : TypePtr
  function_lookup : List (String × Nat)
deriving DecidableEq, Repr

/-- The file-scope variables of `value.cpp` together with the `Type` objects on the heap. -/
structure Globals where
  heap : List TypeObj
  type_count : Nat
  types : List (String × TypePtr)
  list_type : TypePtr
  function_type : TypePtr
  return_types : List (TypePtr × TypePtr)
deriving DecidableEq, Repr

/-- The state of the globals at program start. -/
def Globals.init : Globals :=
  { heap := [], type_count := 0, types := [], list_type := none, function_type := none,
    return_types := [] }

/-- The object a `Type *` points to, if it points to one. -/
def Globals.deref (g : Globals) (t : TypePtr) : Option TypeObj :=
  match t with
  | none => none
  | some i => g.heap[i]?

/-- A write through a `Type *`: the object at `t` becomes `f` of it. -/
def Globals.update (g : Globals) (t : TypePtr) (f : TypeObj → TypeObj) : Globals :=
  match t with
  | none => g
  | some i =>
    match g.heap[i]? with
    | none => g
    | some o => { g with heap := g.heap.set i (f o) }

/-- A call that works on the object a `Type *` points to: the object at `t` becomes what
`f` returns for it; `none` when `f` has no defined behaviour on it. -/
def Globals.update_checked (g : Globals) (t : TypePtr) (f : TypeObj → Option TypeObj) :
    Option Globals :=
  match t with
  | none => some g
  | some i =>
    match g.heap[i]? with
    | none => some g
    | some o =>
      match f o with
      | none => none
      | some o' => some { g with heap := g.heap.set i o' }

/-- The loop `for (i = 0; i < n; i++) dst[i] = src[i];`. -/
def copy_elems {α : Type} [Inhabited α] : Nat → List α → List α → List α
  | 0, dst, _ => dst
  | n + 1, dst, src => (copy_elems n dst src).set n (src.getD n default)

/-- The branch of `add_function` taken when `count == capacity`: the capacity doubles and
the three arrays are replaced by new ones holding the old entries.  The member `capacity`
is an `int`: `none` when `capacity *= 2` overflows it, that is when the double is
`2 ^ 31` or more. -/
def grow_functions (fs : FunctionTable) : Option FunctionTable :=
  let capacity := fs.capacity * 2
  if capacity < 2 ^ 31 then
    some
      { is_method := copy_elems fs.count (List.replicate capacity default) fs.is_method
        func := copy_elems fs.count (List.replicate capacity default) fs.func
        type := copy_elems fs.count (List.replicate capacity default) fs.type
        count := fs.count
        capacity := capacity }
  else none

/-- The function `add_function`, on the object `*t`; `none` when the `int` member
`capacity` overflows in the doubling or the `int` member `count` overflows in
`count++`. -/
def add_function (t : TypeObj) (name : String) (is_method : Bool) (func : Nat)
    (function_type : TypePtr) : Option TypeObj :=
  (if t.functions.count = t.functions.capacity then grow_functions t.functions
    else some t.functions).bind fun fs =>
    if fs.count + 1 < 2 ^ 31 then
      some
        { t with
          functions :=
            { is_method := fs.is_method.set fs.count is_method
              func := fs.func.set fs.count func
              type := fs.type.set fs.count function_type
              count := fs.count + 1
              capacity := fs.capacity }
          function_lookup := umap_set t.function_lookup name fs.count }
    else none

/-- The function `register_type`: returns the new `Type *`. -/
def register_type (g : Globals) (name : String) : TypePtr × Globals :=
  let t : TypeObj :=
    { type_number := g.type_count
      name := name
      functions :=
        { is_method := List.replicate 8 default
          func := List.replicate 8 default
          type := List.replicate 8 default
          count := 0
          capacity := 8 }
      return_type := none
      function_lookup := [] }
  let p : TypePtr := some g.heap.length
  (p, { g with heap := g.heap ++ [t], type_count := g.type_count + 1,
               types := umap_set g.types name p })

/-- The function `get_return_type`. -/
def get_return_type (g : Globals) (t : TypePtr) : TypePtr × Globals :=
  match umap_find g.return_types t with
  | some r => (r, g)
  | none =>
    let (ret, g1) := register_type g ""
    let g2 := g1.update ret (fun o => { o with return_type := t })
    (ret, { g2 with return_types := umap_set g2.return_types t ret })

/-! ## `value.cpp`: heap objects and the runtime library -/

/-- The struct `List` with its `Obj` header; `funcs` is the type whose `functions.func`
the header points to. -/
structure ListObj where
  type : Nat
  funcs : TypePtr
  elements : List Nat
  capacity : Nat
  size : Nat
deriving DecidableEq, Repr

/-- The objects created by `new List()`, by address. -/
abbrev ObjHeap := List ListObj

/-- The function `setup_object`, given the object `*t`. -/
def setup_object (o : ListObj) (tp : TypePtr) (t : TypeObj) : ListObj :=
  { o with type := t.type_number, funcs := tp }

/-- The function `make_list`; `none` when `list_type` does not point to a type. -/
def make_list (g : Globals) (h : ObjHeap) : Option (Nat × ObjHeap) :=
  match g.deref g.list_type with
  | none => none
  | some t =>
    let l := setup_object { type := 0, funcs := none, elements := [], capacity := 0, size := 0 }
      g.list_type t
    let l := { l with capacity := 8, size := 0 }
    let l := { l with elements := List.replicate l.capacity default }
    some (objToValue h.length, h ++ [l])

/-- The branch of `list_add_element` taken when `size >= capacity`.  The member
`capacity` is an `unsigned int`: the double is taken modulo `2 ^ 32`, so the double of
`2 ^ 31` is 0.  The loop `for (int i = 0; i < l->size; i++) elems[i] = l->elements[i]`
writes the first `size` slots of the new array and reads the first `size` slots of the old
one, and its counter is an `int`: `none` when the new array or the old one has fewer than
`size` slots, or when `size` is `2 ^ 31` or more (the counter overflows). -/
def ListObj.grow (l : ListObj) : Option ListObj :=
  let capacity := l.capacity * 2 % 2 ^ 32
  if l.size ≤ capacity ∧ l.size ≤ l.elements.length ∧ l.size < 2 ^ 31 then
    some { l with capacity := capacity
                  elements := copy_elems l.size (List.replicate capacity default) l.elements }
  else none

/-- The body of `list_add_element` on the object `*l`: the array grows when
`size >= capacity`, then `l->elements[l->size++] = elm`.  The member `size` is an
`unsigned int`: `size++` is taken modulo `2 ^ 32`.  `none` when the growth has no defined
behaviour or the slot `size` is outside the array. -/
def ListObj.add_element (l : ListObj) (elm : Nat) : Option ListObj :=
  (if l.size ≥ l.capacity then l.grow else some l).bind fun l =>
    if l.size < l.elements.length then
      some { l with elements := l.elements.set l.size elm, size := (l.size + 1) % 2 ^ 32 }
    else none

/-- The function `list_add_element`; `none` when `list` does not point to a list or the
call has no defined behaviour on the list. -/
def list_add_element (h : ObjHeap) (list elm : Nat) : Option (Nat × ObjHeap) :=
  match h[valueToObj list]? with
  | none => none
  | some l =>
    match l.add_element elm with
    | none => none
    | some l' => some (list, h.set (valueToObj list) l')

/-- The function `list_count`; `none` when `list` does not point to a list. -/
def list_count (h : ObjHeap) (list : Nat) : Option Nat :=
  match h[valueToObj list]? with
  | none => none
  | some l => some l.size

/-- The enum `ProgramType`. -/
inductive ProgramType where
  | TYPE_INTEGER | TYPE_BOOLEAN | TYPE_STR | TYPE_IDENTIFIER | TYPE_INDEX | TYPE_FUNCTION
  | TYPE_FUNCTION_DEF
  | TYPE_ASSIGNMENT | TYPE_RETURN | TYPE_BLOCK | TYPE_IF | TYPE_WHILE
  | TYPE_EQUALITY | TYPE_NOTEQUALITY | TYPE_LT
  | TYPE_MULT | TYPE_DIV | TYPE_ADD | TYPE_SUB
deriving DecidableEq, Repr

open ProgramType

/-- The numeric value of an enumerator of `ProgramType`. -/
def ProgramType.toNat : ProgramType → Nat
  | TYPE_INTEGER => 0 | TYPE_BOOLEAN => 1 | TYPE_STR => 2 | TYPE_IDENTIFIER => 3
  | TYPE_INDEX => 4 | TYPE_FUNCTION => 5 | TYPE_FUNCTION_DEF => 6
  | TYPE_ASSIGNMENT => 7 | TYPE_RETURN => 8 | TYPE_BLOCK => 9 | TYPE_IF => 10
  | TYPE_WHILE => 11
  | TYPE_EQUALITY => 12 | TYPE_NOTEQUALITY => 13 | TYPE_LT => 14
  | TYPE_MULT => 15 | TYPE_DIV => 16 | TYPE_ADD => 17 | TYPE_SUB => 18

/-- A `std::unique_ptr<ProgramData>`: the struct `ProgramData` with the member of the union
`ProgramValue` that is in use, or the empty pointer.  `integer` is a node of type
`TYPE_INTEGER`; `str` carries the type (`TYPE_STR` from `match`, `TYPE_IDENTIFIER` from
`identifier`); `children` is every node that owns a vector of children. -/
inductive ProgramData where
  | nullptr
  | integer (integer : Int)
  | str (type : ProgramType) (str : String)
  | children (type : ProgramType) (children : List ProgramData)
deriving Repr

mutual
/-- Decidable equality of syntax trees. -/
def ProgramData.decEq : (x y : ProgramData) → Decidable (x = y)
  | .nullptr, .nullptr => isTrue rfl
  | .integer v, .integer w =>
    if h : v = w then isTrue (by rw [h]) else isFalse (by intro h2; cases h2; exact h rfl)
  | .str t s, .str t2 s2 =>
    if h : t = t2 ∧ s = s2 then isTrue (by rw [h.1, h.2])
    else isFalse (by intro h2; cases h2; exact h ⟨rfl, rfl⟩)
  | .children t c, .children t2 c2 =>
    if h : t = t2 then
      match ProgramData.decEqList c c2 with
      | isTrue h2 => isTrue (by rw [h, h2])
      | isFalse h2 => isFalse (by intro h3; cases h3; exact h2 rfl)
    else isFalse (by intro h2; cases h2; exact h rfl)
  | .nullptr, .integer _ => isFalse (by intro h; cases h)
  | .nullptr, .str _ _ => isFalse (by intro h; cases h)
  | .nullptr, .children _ _ => isFalse (by intro h; cases h)
  | .integer _, .nullptr => isFalse (by intro h; cases h)
  | .integer _, .str _ _ => isFalse (by intro h; cases h)
  | .integer _, .children _ _ => isFalse (by intro h; cases h)
  | .str _ _, .nullptr => isFalse (by intro h; cases h)
  | .str _ _, .integer _ => isFalse (by intro h; cases h)
  | .str _ _, .children _ _ => isFalse (by intro h; cases h)
  | .children _ _, .nullptr => isFalse (by intro h; cases h)
  | .children _ _, .integer _ => isFalse (by intro h; cases h)
  | .children _ _, .str _ _ => isFalse (by intro h; cases h)
/-- Decidable equality of lists of syntax trees. -/
def ProgramData.decEqList : (x y : List ProgramData) → Decidable (x = y)
  | [], [] => isTrue rfl
  | x :: xs, y :: ys =>
    match ProgramData.decEq x y, ProgramData.decEqList xs ys with
    | isTrue h1, isTrue h2 => isTrue (by rw [h1, h2])
    | isFalse h1, _ => isFalse (by intro h; cases h; exact h1 rfl)
    | _, isFalse h2 => isFalse (by intro h; cases h; exact h2 rfl)
  | [], _ :: _ => isFalse (by intro h; cases h)
  | _ :: _, [] => isFalse (by intro h; cases h)
end

instance : DecidableEq ProgramData := ProgramData.decEq

/-! ## The code emitter (`asmjit::X86Compiler`), as far as `main.cpp` uses it -/

/-- An `X86Gp`: a virtual register, or the default-constructed operand. -/
inductive X86Gp where
  | invalid
  | virt (id : Nat)
deriving DecidableEq, Repr

instance : Inhabited X86Gp := ⟨X86Gp.invalid⟩

/-- The scope argument of `newInt64Const`. -/
inductive ConstScope where
  | kConstScopeLocal
  | kConstScopeGlobal
deriving DecidableEq, Repr

/-- An `X86Mem`: a constant from `newInt64Const`, a stack area from `newStack` with the
offset and size last set on it, `x86::ptr(label)`, or `x86::ptr(reg, offset)` with its
size. -/
inductive X86Mem where
  | const (scope : ConstScope) (value : Int)
  | stack (id : Nat) (offset : Nat) (size : Nat)
  | label (l : Nat)
  | base (reg : X86Gp) (offset : Nat) (size : Nat)
deriving DecidableEq, Repr

/-- The method `setSize`. -/
def X86Mem.setSize : X86Mem → Nat → X86Mem
  | .stack id offset _, size => .stack id offset size
  | .base reg offset _, size => .base reg offset size
  | m, _ => m

/-- The method `setOffset`. -/
def X86Mem.setOffset : X86Mem → Nat → X86Mem
  | .stack id _ size, offset => .stack id offset size
  | .base reg _ size, offset => .base reg offset size
  | m, _ => m

/-- A `CCFuncCall` node after its `setArg` and `setRet` calls: the called register, the
number of arguments of the `FuncSignatureN` it was created with, the argument slots and the
return slot. -/
structure CCFuncCall where
  target : X86Gp
  signature : Nat
  args : List X86Gp
  ret : X86Gp
deriving DecidableEq, Repr

/-- The method `setArg`: slot `i` of the node becomes `reg`. -/
def CCFuncCall.setArg (node : CCFuncCall) (i : Nat) (reg : X86Gp) : CCFuncCall :=
  { node with args := node.args.set i reg }

/-- The method `setRet`. -/
def CCFuncCall.setRet (node : CCFuncCall) (reg : X86Gp) : CCFuncCall :=
  { node with ret := reg }

/-- The nodes the compiler is asked to emit. -/
inductive Inst where
  | mov_rm (dst : X86Gp) (src : X86Mem)
  | mov_mr (dst : X86Mem) (src : X86Gp)
  | mov_rr (dst src : X86Gp)
  | mov_ri (dst : X86Gp) (imm : Int)
  | lea (dst : X86Gp) (src : X86Mem)
  | and_rm (dst : X86Gp) (src : X86Mem)
  | sub (dst src : X86Gp)
  | add (dst src : X86Gp)
  | imul (dst src : X86Gp)
  | idiv (hi lo src : X86Gp)
  | setne (dst : X86Gp)
  | sete (dst : X86Gp)
  | setl (dst : X86Gp)
  | cmp_ri (reg : X86Gp) (imm : Int)
  | je (l : Nat)
  | jmp (l : Nat)
  | bind (l : Nat)
  | ret (reg : X86Gp)
  | call (node : CCFuncCall)
  | func (f : Nat)
  | endFunc
deriving DecidableEq, Repr

/-- The `X86Compiler`: the nodes emitted so far, in order, the numbers of virtual registers
and labels created so far, and the size and alignment of every stack area created with
`newStack` (an area is named by its position in `frames`).  A `CCFunc` is named by its
label. -/
structure X86Compiler where
  code : List Inst
  gps : Nat
  labels : Nat
  frames : List (Nat × Nat)
deriving DecidableEq, Repr

/-- A compiler on a fresh `CodeHolder`. -/
def X86Compiler.init : X86Compiler := { code := [], gps := 0, labels := 0, frames := [] }

/-- Adds a node at the end of the code. -/
def X86Compiler.emit (a : X86Compiler) (i : Inst) : X86Compiler :=
  { a with code := a.code ++ [i] }

/-- The methods `newGpq` and `newIntPtr`: a fresh virtual register. -/
def X86Compiler.newGpq (a : X86Compiler) : X86Gp × X86Compiler :=
  (.virt a.gps, { a with gps := a.gps + 1 })

/-- The method `newLabel`. -/
def X86Compiler.newLabel (a : X86Compiler) : Nat × X86Compiler :=
  (a.labels, { a with labels := a.labels + 1 })

/-- The method `newFunc`: a function node that is not yet part of the code. -/
def X86Compiler.newFunc (a : X86Compiler) : Nat × X86Compiler :=
  (a.labels, { a with labels := a.labels + 1 })

/-- The method `newStack(size, alignment)`; the operand has offset and size still unset. -/
def X86Compiler.newStack (a : X86Compiler) (size alignment : Nat) : X86Mem × X86Compiler :=
  (.stack a.frames.length 0 0, { a with frames := a.frames ++ [(size, alignment)] })

/-! ## `value.cpp` and `main.cpp`: the compilation state -/

/-- The struct `StackVar`. -/
structure StackVar where
  type : TypePtr
  stack_offset : Nat
deriving DecidableEq, Repr

/-- The struct `GlobalVar`. -/
structure GlobalVar where
  type : TypePtr
  value : Nat
deriving DecidableEq, Repr

/-- The struct `FunctionRemainder`. -/
structure FunctionRemainder where
  func : Nat
  data : ProgramData
deriving DecidableEq, Repr

/-- The struct `JitState`. -/
structure JitState where
  offset : Nat
  vars : List (String × StackVar)
  funcs : List (String × Int)
  globals : List (String × GlobalVar)
  mem : X86Mem
  stack_offset : X86Gp
  remainders : List FunctionRemainder
deriving DecidableEq, Repr

/-- The struct `Expression`. -/
structure Expression where
  reg : X86Gp
  type : TypePtr
  is_method : Bool
  object : X86Gp
deriving DecidableEq, Repr

/-- How a compilation stops early: a C++ `throw` of a message, or a step the C++ leaves
undefined (a null or uninitialised pointer is dereferenced, a vector is read past its end,
the wrong member of the union is read); nothing is thrown in the second case. -/
inductive Abort where
  | thrown (what : String)
  | undefined
deriving DecidableEq, Repr

/-- Everything `jit_expression` and `jit_statement` read and write: the compiler `a`, the
`JitState` and the globals of `value.cpp`. -/
structure Env where
  a : X86Compiler
  state : JitState
  g : Globals
deriving DecidableEq, Repr

/-- Emits a node into the compiler of the environment. -/
def Env.emit (e : Env) (i : Inst) : Env := { e with a := e.a.emit i }

/-- A fresh virtual register from the compiler of the environment. -/
def Env.newGpq (e : Env) : X86Gp × Env := ((e.a.newGpq).1, { e with a := (e.a.newGpq).2 })

/-- A fresh label from the compiler of the environment. -/
def Env.newLabel (e : Env) : Nat × Env :=
  ((e.a.newLabel).1, { e with a := (e.a.newLabel).2 })

/-- The C++ `offsetof(Obj, funcs)` on x86-64. -/
def offsetof_Obj_funcs : Nat := 8

/-- The C++ `sizeof(generic_fp)` on x86-64. -/
def sizeof_generic_fp : Nat := 8

/-! ## `main.cpp`: `jit_expression` -/

/-- The `Expression` of `return {reg, type};`: the other members are value-initialised. -/
def Expression.plain (reg : X86Gp) (type : TypePtr) : Expression :=
  { reg := reg, type := type, is_method := false, object := .invalid }

/-- The branch `TYPE_INTEGER` of `jit_expression`. -/
def jit_integer (integer : Int) (e : Env) : Expression × Env :=
  let (v_reg, e) := e.newGpq
  let c0 := X86Mem.const .kConstScopeLocal integer
  let e := e.emit (.mov_rm v_reg c0)
  (Expression.plain v_reg none, e)

/-- The branch `TYPE_FUNCTION_DEF` of `jit_expression`, given `vec[0]`. -/
def jit_function_def (body : ProgramData) (e : Env) : Expression × Env :=
  let (func, a) := e.a.newFunc
  let e := { e with a := a, state := { e.state with
    remainders := e.state.remainders ++ [(⟨func, body⟩ : FunctionRemainder)] } }
  let (v_reg, e) := e.newGpq
  let e := e.emit (.lea v_reg (.label func))
  let (t, g) := get_return_type e.g none
  ({ reg := v_reg, type := t, is_method := false, object := .invalid }, { e with g := g })

/-- The branch `TYPE_INDEX` of `jit_expression` after `vec[0]` was compiled to `exp`, given
the string `property` of `vec[1]`. -/
def jit_index (exp : Expression) (property : String) (e : Env) :
    Except Abort (Expression × Env) :=
  match exp.type with
  | none => .error (.thrown "TYPE WAS NULL")
  | some ti =>
    match e.g.deref (some ti) with
    | none => .error .undefined
    | some t =>
      match umap_find t.function_lookup property with
      | none => .error (.thrown ("TYPE DOES NOT HAVE " ++ property))
      | some function_number =>
        let c0 := X86Mem.const .kConstScopeLocal (valueToNum (not64 NUM_BIT))
        let (copy, e) := e.newGpq
        let e := e.emit (.mov_rr copy exp.reg)
        let e := e.emit (.and_rm exp.reg c0)
        let m := X86Mem.base exp.reg offsetof_Obj_funcs 0
        let (obj, e) := e.newGpq
        let m := m.setSize 8
        let e := e.emit (.mov_rm obj m)
        let e := e.emit (.mov_rm obj (.base obj 0 0))
        let e := e.emit (.mov_rm obj (.base obj (function_number * sizeof_generic_fp) 0))
        .ok ({ reg := obj
               type := t.functions.type.getD function_number default
               is_method := t.functions.is_method.getD function_number default
               object := copy }, e)

/-- The branch `TYPE_IDENTIFIER` of `jit_expression`. -/
def jit_identifier (str : String) (e : Env) : Except Abort (Expression × Env) :=
  match umap_find e.state.vars str with
  | some var =>
    let (v_reg, e) := e.newGpq
    let mem := (e.state.mem.setSize 8).setOffset var.stack_offset
    let e := { e with state := { e.state with mem := mem } }
    let e := e.emit (.mov_rm v_reg mem)
    .ok ({ reg := v_reg, type := var.type, is_method := false, object := .invalid }, e)
  | none =>
    match umap_find e.state.globals str with
    | some var =>
      let (v_reg, e) := e.newGpq
      let c0 := X86Mem.const .kConstScopeGlobal (valueToNum var.value)
      let e := e.emit (.mov_rm v_reg c0)
      .ok ({ reg := v_reg, type := var.type, is_method := false, object := .invalid }, e)
    | none => .error (.thrown ("USING " ++ str ++ " BEFORE DEFINED"))

/-- The `switch (vec.size() + off)` of the branch `TYPE_FUNCTION`: the number of arguments
of the `FuncSignatureN` of the matching `case`, `none` when no `case` matches and `node`
stays uninitialised. -/
def call_signature (n : Nat) : Option Nat :=
  match n with
  | 0 => some 0
  | 1 => some 1
  | 2 => some 2
  | 3 => some 3
  | 4 => some 4
  | _ => none

/-- The loop `for (i = 0; i < n; i++) node->setArg(i + off, args[i]);`. -/
def set_args (off : Nat) (args : List X86Gp) : Nat → CCFuncCall → CCFuncCall
  | 0, node => node
  | n + 1, node => (set_args off args n node).setArg (n + off) (args.getD n default)

/-- The branch `TYPE_FUNCTION` of `jit_expression` after the callee `vec[0]` was compiled
to `exp` and the `size - 1` other children to the registers `regs`; `size` is
`vec.size()`. -/
def jit_call (exp : Expression) (regs : List X86Gp) (size : Nat) (e : Env) :
    Except Abort (Expression × Env) :=
  let func := exp.reg
  let type := exp.type
  let args : List X86Gp := regs ++ List.replicate (size - regs.length) default
  let off := if exp.is_method then 1 else 0
  let (ret, e) := e.newGpq
  match call_signature (size + off) with
  | none => .error .undefined
  | some n =>
    let node : CCFuncCall :=
      { target := func, signature := n, args := List.replicate n default, ret := .invalid }
    let node := if exp.is_method then node.setArg 0 exp.object else node
    let node := set_args off args size node
    let node := node.setRet ret
    let e := e.emit (.call node)
    match e.g.deref type with
    | none => .error .undefined
    | some t => .ok (Expression.plain ret t.return_type, e)

/-- The instructions the branches `TYPE_SUB`, `TYPE_ADD`, `TYPE_MULT`, `TYPE_DIV`,
`TYPE_NOTEQUALITY`, `TYPE_EQUALITY` and `TYPE_LT` emit after both operands were compiled
to `reg_a` and `reg_b`; `none` for every other node type. -/
def jit_binary (type : ProgramType) (reg_a reg_b : X86Gp) (e : Env) : Option Env :=
  match type with
  | TYPE_SUB => some (e.emit (.sub reg_a reg_b))
  | TYPE_ADD => some (e.emit (.add reg_a reg_b))
  | TYPE_MULT => some (e.emit (.imul reg_a reg_b))
  | TYPE_DIV =>
    let (reg_c, e) := e.newGpq
    let e := e.emit (.mov_ri reg_c 0)
    some (e.emit (.idiv reg_c reg_a reg_b))
  | TYPE_NOTEQUALITY => some ((e.emit (.sub reg_a reg_b)).emit (.setne reg_a))
  | TYPE_EQUALITY => some ((e.emit (.sub reg_a reg_b)).emit (.sete reg_a))
  | TYPE_LT => some ((e.emit (.sub reg_a reg_b)).emit (.setl reg_a))
  | _ => none

/-- Whether `jit_expression` has a branch for two operands for this node type. -/
def is_binary (type : ProgramType) : Bool :=
  match type with
  | TYPE_SUB | TYPE_ADD | TYPE_MULT | TYPE_DIV | TYPE_NOTEQUALITY | TYPE_EQUALITY
  | TYPE_LT => true
  | _ => false

/-- The final `throw` of `jit_expression`. -/
def unknown_expression (type : ProgramType) : Abort :=
  .thrown ("UNKOWN EXPRESSION " ++ toString type.toNat)

mutual
/-- The function `jit_expression`. -/
def jit_expression : ProgramData → Env → Except Abort (Expression × Env)
  | .nullptr, _ => .error .undefined
  | .integer integer, e => .ok (jit_integer integer e)
  | .str type str, e =>
    match type with
    | TYPE_IDENTIFIER => jit_identifier str e
    | TYPE_INTEGER | TYPE_FUNCTION_DEF | TYPE_INDEX | TYPE_FUNCTION | TYPE_SUB | TYPE_ADD
    | TYPE_MULT | TYPE_DIV | TYPE_NOTEQUALITY | TYPE_EQUALITY | TYPE_LT => .error .undefined
    | _ => .error (unknown_expression type)
  | .children TYPE_FUNCTION_DEF vec, e =>
    match vec with
    | body :: _ => .ok (jit_function_def body e)
    | [] => .error .undefined
  | .children TYPE_INDEX vec, e =>
    match vec with
    | x :: p :: _ =>
      match jit_expression x e with
      | .error err => .error err
      | .ok (exp, e) =>
        match p with
        | .str _ property => jit_index exp property e
        | _ => .error .undefined
    | [x] =>
      match jit_expression x e with
      | .error err => .error err
      | .ok _ => .error .undefined
    | [] => .error .undefined
  | .children TYPE_FUNCTION vec, e =>
    match vec with
    | callee :: rest =>
      match jit_expression callee e with
      | .error err => .error err
      | .ok (exp, e) =>
        match jit_arguments rest e with
        | .error err => .error err
        | .ok (regs, e) => jit_call exp regs (rest.length + 1) e
    | [] => .error .undefined
  | .children type vec, e =>
    if is_binary type then
      match vec with
      | x :: y :: _ =>
        match jit_expression x e with
        | .error err => .error err
        | .ok (exp_a, e) =>
          match jit_expression y e with
          | .error err => .error err
          | .ok (exp_b, e) =>
            match jit_binary type exp_a.reg exp_b.reg e with
            | some e => .ok (Expression.plain exp_a.reg none, e)
            | none => .error .undefined
      | [x] =>
        match jit_expression x e with
        | .error err => .error err
        | .ok _ => .error .undefined
      | [] => .error .undefined
    else
      match type with
      | TYPE_INTEGER | TYPE_IDENTIFIER => .error .undefined
      | _ => .error (unknown_expression type)
/-- The loop of the branch `TYPE_FUNCTION` that compiles the arguments in order and keeps
their registers. -/
def jit_arguments : List ProgramData → Env → Except Abort (List X86Gp × Env)
  | [], e => .ok ([], e)
  | x :: rest, e =>
    match jit_expression x e with
    | .error err => .error err
    | .ok (exp, e) =>
      match jit_arguments rest e with
      | .error err => .error err
      | .ok (regs, e) => .ok (exp.reg :: regs, e)
end

/-! ## `main.cpp`: `jit_statement` -/

/-- The branch `TYPE_ASSIGNMENT` of `jit_statement` after the right-hand side was compiled
to `exp`, given the string `var` of `vec[0]`. -/
def jit_assignment (exp : Expression) (var : String) (e : Env) : Env :=
  let state := e.state
  let state :=
    match umap_find state.vars var with
    | none =>
      { state with
        vars := umap_set state.vars var { type := exp.type, stack_offset := state.offset }
        offset := state.offset + 8 }
    | some _ => state
  let slot : StackVar := (umap_find state.vars var).getD { type := none, stack_offset := 0 }
  let mem := (state.mem.setSize 8).setOffset slot.stack_offset
  let e := { e with state := { state with mem := mem } }
  e.emit (.mov_mr mem exp.reg)

mutual
/-- The function `jit_statement`. -/
def jit_statement : ProgramData → Env → Except Abort Env
  | .children TYPE_ASSIGNMENT vec, e =>
    match vec with
    | target :: rhs :: _ =>
      match jit_expression rhs e with
      | .error err => .error err
      | .ok (exp, e) =>
        match target with
        | .str _ var => .ok (jit_assignment exp var e)
        | _ => .error .undefined
    | _ => .error .undefined
  | .children TYPE_RETURN vec, e =>
    match vec with
    | x :: _ =>
      match jit_expression x e with
      | .error err => .error err
      | .ok (exp, e) => .ok (e.emit (.ret exp.reg))
    | [] => .error .undefined
  | .children TYPE_BLOCK vec, e => jit_block vec e
  | .children TYPE_IF vec, e =>
    match vec with
    | cond :: thenb :: elseb :: _ =>
      let (L1, e) := e.newLabel
      let (L2, e) := e.newLabel
      match jit_expression cond e with
      | .error err => .error err
      | .ok (exp, e) =>
        let e := e.emit (.cmp_ri exp.reg 0)
        let e := e.emit (.je L1)
        match jit_statement thenb e with
        | .error err => .error err
        | .ok e =>
          let e := e.emit (.jmp L2)
          let e := e.emit (.bind L1)
          match elseb with
          | .nullptr => .ok (e.emit (.bind L2))
          | _ =>
            match jit_statement elseb e with
            | .error err => .error err
            | .ok e => .ok (e.emit (.bind L2))
    | [cond, thenb] =>
      let (L1, e) := e.newLabel
      let (_, e) := e.newLabel
      match jit_expression cond e with
      | .error err => .error err
      | .ok (exp, e) =>
        let e := e.emit (.cmp_ri exp.reg 0)
        let e := e.emit (.je L1)
        match jit_statement thenb e with
        | .error err => .error err
        | .ok _ => .error .undefined
    | [cond] =>
      let (_, e) := e.newLabel
      let (_, e) := e.newLabel
      match jit_expression cond e with
      | .error err => .error err
      | .ok _ => .error .undefined
    | [] => .error .undefined
  | .children TYPE_WHILE vec, e =>
    match vec with
    | cond :: body :: _ =>
      let (L1, e) := e.newLabel
      let (L2, e) := e.newLabel
      let e := e.emit (.bind L1)
      match jit_expression cond e with
      | .error err => .error err
      | .ok (exp, e) =>
        let e := e.emit (.cmp_ri exp.reg 0)
        let e := e.emit (.je L2)
        match jit_statement body e with
        | .error err => .error err
        | .ok e =>
          let e := e.emit (.jmp L1)
          .ok (e.emit (.bind L2))
    | [cond] =>
      let (L1, e) := e.newLabel
      let (_, e) := e.newLabel
      let e := e.emit (.bind L1)
      match jit_expression cond e with
      | .error err => .error err
      | .ok _ => .error .undefined
    | [] => .error .undefined
  | statement, e =>
    match jit_expression statement e with
    | .error err => .error err
    | .ok (_, e) => .ok e
/-- The loop of the branch `TYPE_BLOCK`. -/
def jit_block : List ProgramData → Env → Except Abort Env
  | [], e => .ok e
  | x :: rest, e =>
    match jit_statement x e with
    | .error err => .error err
    | .ok e => jit_block rest e
end

/-! ## `value.cpp`: `register_types` -/

/-- The addresses of the four native functions of the runtime library. -/
structure NativeFunctions where
  make_list : Nat
  list_add_element : Nat
  list_count : Nat
  print : Nat
deriving DecidableEq, Repr

/-- The constant `list_type_number`. -/
def list_type_number : Nat := 0

/-- The function `register_types`; `none` when its `assert` fails or a call of
`add_function` has no defined behaviour. -/
def register_types (fp : NativeFunctions) (g : Globals) (s : JitState) :
    Option (Globals × JitState) :=
  let (list_type, g) := register_type g "list"
  let g := { g with list_type := list_type }
  match g.deref g.list_type with
  | none => none
  | some t =>
    if t.type_number ≠ list_type_number then none
    else
      let (rt, g) := get_return_type g g.list_type
      match g.update_checked g.list_type
        (fun t => add_function t "add" true fp.list_add_element rt) with
      | none => none
      | some g =>
        let (rt, g) := get_return_type g none
        match g.update_checked g.list_type
          (fun t => add_function t "count" true fp.list_count rt) with
        | none => none
        | some g =>
          let (rt, g) := get_return_type g g.list_type
          let make_list_var : GlobalVar := { type := rt, value := funcToValue fp.make_list }
          let s := { s with globals := umap_set s.globals "make_list" make_list_var }
          let (rt, g) := get_return_type g none
          let print_var : GlobalVar := { type := rt, value := funcToValue fp.print }
          let s := { s with globals := umap_set s.globals "print" print_var }
          some (g, s)

/-! ## `main.cpp`: the driver -/

/-- The part of `main` before its first loop: the compiler with the top-level function
opened, the first `JitState` and the registered types. -/
def main_init (fp : NativeFunctions) : Option Env :=
  let a := X86Compiler.init
  let (f, a) := a.newFunc
  let a := a.emit (.func f)
  let (mem, a) := a.newStack 256 8
  let (i, a) := a.newGpq
  let s : JitState :=
    { offset := 0, vars := [], funcs := [], globals := [], mem := mem, stack_offset := i,
      remainders := [] }
  match register_types fp Globals.init s with
  | none => none
  | some (g, s) => some { a := a, state := s, g := g }

/-- The `jit_statement` calls of the first loop of `main`, on the statements the parser
returns one after the other. -/
def compile_statements : List ProgramData → Env → Except Abort Env
  | [], e => .ok e
  | statement :: rest, e =>
    match jit_statement statement e with
    | .error err => .error err
    | .ok e => compile_statements rest e

/-- One turn of the second loop of `main`, entered with `s.remainders` not empty. -/
def drain_step (e : Env) : Except Abort Env :=
  match e.state.remainders with
  | [] => .error .undefined
  | frem :: rest =>
    let (mem, a) := e.a.newStack 256 8
    let (i, a) := a.newGpq
    let s : JitState :=
      { offset := 0, vars := [], funcs := [], globals := e.state.globals, mem := mem,
        stack_offset := i, remainders := rest }
    let a := a.emit (.func frem.func)
    match jit_statement frem.data { a := a, state := s, g := e.g } with
    | .error err => .error err
    | .ok e =>
      let (r, e) := e.newGpq
      let e := e.emit (.mov_ri r 0)
      let e := e.emit (.ret r)
      .ok (e.emit .endFunc)

/-- The second loop of `main`, `while (!s.remainders.empty())`, for at most `fuel` turns:
`.ok none` when the worklist is not empty after `fuel` turns. -/
def drain : Nat → Env → Except Abort (Option Env)
  | fuel, e =>
    match e.state.remainders with
    | [] => .ok (some e)
    | _ :: _ =>
      match fuel with
      | 0 => .ok none
      | fuel + 1 =>
        match drain_step e with
        | .error err => .error err
        | .ok e => drain fuel e

/-- The compilation done by `main` on the statements of a program: the first loop,
`a.endFunc()`, then the second loop (for at most `fuel` turns). -/
def main_compile (fp : NativeFunctions) (program : List ProgramData) (fuel : Nat) :
    Except Abort (Option Env) :=
  match main_init fp with
  | none => .error .undefined
  | some e =>
    match compile_statements program e with
    | .error err => .error err
    | .ok e => drain fuel (e.emit .endFunc)

/-! ## Sequences of calls, used to state properties of the runtime -/

/-- Every entry of the map `return_types` points to a type on the heap whose
`return_type` is the key of the entry. -/
def Globals.MemoOk (g : Globals) : Prop :=
  ∀ (k v : TypePtr), umap_find g.return_types k = some v →
    ∃ (i : Nat) (t : TypeObj), v = some i ∧ g.heap[i]? = some t ∧ t.return_type = k

/-- Four addresses standing for the native functions of the runtime library. -/
def demo_natives : NativeFunctions :=
  { make_list := 1000, list_add_element := 1001, list_count := 1002, print := 1003 }

/-- The node of an identifier, as `identifier` of `parser.cpp` builds it. -/
def ident (name : String) : ProgramData := .str TYPE_IDENTIFIER name

/-- The node of a call: the callee followed by the explicit arguments. -/
def call (callee : ProgramData) (args : List ProgramData) : ProgramData :=
  .children TYPE_FUNCTION (callee :: args)

/-- The node of a property access `object.property`. -/
def index (object : ProgramData) (property : String) : ProgramData :=
  .children TYPE_INDEX [object, ident property]

/-- The node of an assignment `name = value`. -/
def assign (name : String) (value : ProgramData) : ProgramData :=
  .children TYPE_ASSIGNMENT [ident name, value]

/-- The environment `main` has built when it reads the first statement, for the addresses
`demo_natives`: the top-level function is open, `list` is type 0 with the methods `add`
and `count`, type 1 is "function returning list" and type 2 is "function returning
untyped". -/
def demo_env : Env :=
  { a := { code := [.func 0], gps := 1, labels := 1, frames := [(256, 8)] }
    state :=
      { offset := 0
        vars := []
        funcs := []
        globals := [("make_list", { type := some 1, value := 1000 }),
                    ("print", { type := some 2, value := 1003 })]
        mem := .stack 0 0 0
        stack_offset := .virt 0
        remainders := [] }
    g :=
      { heap :=
          [{ type_number := 0
             name := "list"
             functions :=
               { is_method := [true, true, false, false, false, false, false, false]
                 func := [1001, 1002, 0, 0, 0, 0, 0, 0]
                 type := [some 1, some 2, none, none, none, none, none, none]
                 count := 2
                 capacity := 8 }
             return_type := none
             function_lookup := [("add", 0), ("count", 1)] },
           { type_number := 1
             name := ""
             functions :=
               { is_method := List.replicate 8 false
                 func := List.replicate 8 0
                 type := List.replicate 8 none
                 count := 0
                 capacity := 8 }
             return_type := some 0
             function_lookup := [] },
           { type_number := 2
             name := ""
             functions :=
               { is_method := List.replicate 8 false
                 func := List.replicate 8 0
                 type := List.replicate 8 none
                 count := 0
                 capacity := 8 }
             return_type := none
             function_lookup := [] }]
        type_count := 3
        types := [("list", some 0), ("", some 2)]
        list_type := some 0
        function_type := none
        return_types := [(some 0, some 1), (none, some 2)] } }

/-- The environment `demo_env` with a local named `print` of type `list` at offset 16. -/
def shadow_env : Env :=
  { demo_env with
    state := { demo_env.state with vars := [("print", { type := some 0, stack_offset := 16 })] } }

/-- What a successful compilation step from `e` to `e'` keeps: the global bindings, the
deferred functions already pending (new ones come behind them), the code already emitted
(new nodes come behind it) and, once "function returning untyped" is memoized, the
globals of `value.cpp`. -/
def Env.Frame (e e' : Env) : Prop :=
  e'.state.globals = e.state.globals ∧
  e.state.remainders <+: e'.state.remainders ∧
  e.a.code <+: e'.a.code ∧
  ((umap_find e.g.return_types none).isSome → e'.g = e.g)

/-- The environment still has the globals of `value.cpp` and the global bindings that
`main` set up with `register_types` before the first statement. -/
def Env.Registered (fp : NativeFunctions) (e : Env) : Prop :=
  ∃ e0 : Env, main_init fp = some e0 ∧ e.g = e0.g ∧ e.state.globals = e0.state.globals

/-- The expression `x.add(n1).add(n2)...` for the integer literals `ns`. -/
def add_chain (x : ProgramData) (ns : List Int) : ProgramData :=
  ns.foldl (fun acc n => call (index acc "add") [.integer n]) x

/-- The statements of
`l = make_list() l = l.add(1) l = l.add(2) print(l.count())`. -/
def list_program : List ProgramData :=
  [assign "l" (call (ident "make_list") []),
   assign "l" (call (index (ident "l") "add") [.integer 1]),
   assign "l" (call (index (ident "l") "add") [.integer 2]),
   call (ident "print") [call (index (ident "l") "count") []]]

/-- The statement `f = function() { g = function() { return 1 } return 2 }`. -/
def nested_program : List ProgramData :=
  [assign "f" (.children TYPE_FUNCTION_DEF [.children TYPE_BLOCK
    [assign "g" (.children TYPE_FUNCTION_DEF [.children TYPE_BLOCK
      [.children TYPE_RETURN [.integer 1]]]),
     .children TYPE_RETURN [.integer 2]]])]

/-- Whether a run of `main_compile` compiled every function without stopping early. -/
def compiled (r : Except Abort (Option Env)) : Bool :=
  match r with
  | .ok (some _) => true
  | _ => false

/-- The environment `demo_env` with two deferred functions pending, both with an empty
body. -/
def two_pending_env : Env :=
  { demo_env with
    state := { demo_env.state with
      remainders := [⟨5, .children TYPE_BLOCK []⟩, ⟨6, .children TYPE_BLOCK []⟩] } }

/-- The `uint64_t` with the bits of the `int64_t` value `i` (two's complement). -/
def int64_bits (i : Int) : Nat := (i % (WORD : Int)).toNat

/-- The `JitState` and compiler that the second loop of `main` builds for the body of the
deferred function `frem`, `rest` being the other pending entries, before it calls
`jit_statement` on the body. -/
def body_env (e : Env) (frem : FunctionRemainder) (rest : List FunctionRemainder) : Env :=
  { a := (((e.a.newStack 256 8).2.newGpq).2).emit (.func frem.func)
    state :=
      { offset := 0, vars := [], funcs := [], globals := e.state.globals,
        mem := (e.a.newStack 256 8).1
        stack_offset := ((e.a.newStack 256 8).2.newGpq).1
        remainders := rest }
    g := e.g }

/-- A compilation step from `e` to `e'` keeps the table of locals and the bump offset. -/
def Env.SameLocals (e e' : Env) : Prop :=
  e'.state.vars = e.state.vars ∧ e'.state.offset = e.state.offset

/-- The statement `f = function() { return f }`. -/
def self_reference_program : List ProgramData :=
  [assign "f" (.children TYPE_FUNCTION_DEF [.children TYPE_BLOCK
    [.children TYPE_RETURN [ident "f"]]])]

/-! ## `parser.cpp`: results and the parsers without recursion

A `std::string` of program text is a list of characters.  The parsers that call each
other recursively take a first argument `fuel` that bounds the depth of the calls and the
number of turns of the loops; they return `none` when the fuel runs out, so that `none`
never stands for a parse failure.  `(p program).bind fun result => ..` continues with the
result of the call `p program` and gives `none` when that call ran out of fuel. -/

/-- The struct `ParserResult`. -/
structure ParserResult where
  success : Bool
  remainder : List Char
  data : ProgramData
deriving DecidableEq, Repr

/-- The function `failure`. -/
def failure : ParserResult := { success := false, remainder := [], data := .nullptr }

/-- The function `is_letter`. -/
def is_letter (c : Char) : Bool :=
  (decide ('a' ≤ c) && decide (c ≤ 'z')) || (decide ('A' ≤ c) && decide (c ≤ 'Z'))

/-- The function `is_number`. -/
def is_number (c : Char) : Bool := decide ('0' ≤ c) && decide (c ≤ '9')

/-- The function `is_whitespace`. -/
def is_whitespace (c : Char) : Bool := c == ' ' || c == '\t' || c == '\r' || c == '\n'

/-- The function `eat_whitespace`. -/
def eat_whitespace : List Char → List Char
  | [] => []
  | c :: program => if is_whitespace c then eat_whitespace program else c :: program

/-- The function `success`. -/
def success (program : List Char) (data : ProgramData) : ParserResult :=
  { success := true, remainder := eat_whitespace program, data := data }

/-- The C++ `program.find(match_str) == 0`: `match_str` is at the start of `program`. -/
def starts_with : List Char → List Char → Bool
  | _, [] => true
  | [], _ :: _ => false
  | c :: program, m :: match_str => c == m && starts_with program match_str

/-- The parser `match(match_str)`. -/
def match_token (match_str : String) (program : List Char) : ParserResult :=
  if starts_with program match_str.toList then
    success (program.drop match_str.length) (.str TYPE_STR match_str)
  else failure

/-- The member `value.str` of a node, for the nodes that have one. -/
def ProgramData.value_str : ProgramData → String
  | .str _ s => s
  | _ => ""

/-- The parser `any(parsers)`. -/
def any : List (List Char → Option ParserResult) → List Char → Option ParserResult
  | [], _ => some failure
  | p :: parsers, program =>
    (p program).bind fun result =>
      if result.success then some result else any parsers program

/-- The parser `seq(parsers)`: the results in order, or the empty vector when one of the
parsers fails. -/
def seq : List (List Char → Option ParserResult) → List Char → Option (List ParserResult)
  | [], _ => some []
  | p :: parsers, program =>
    (p program).bind fun result =>
      if !result.success then some []
      else if parsers.isEmpty then some [result]
      else
        (seq parsers result.remainder).bind fun results =>
          if results.isEmpty then some [] else some (result :: results)

/-- A parser without recursion, as an element of the vectors given to `any` and `seq`. -/
def lift (p : List Char → ParserResult) : List Char → Option ParserResult :=
  fun program => some (p program)

/-- The value of a string of decimal digits. -/
def digits_value : List Char → Nat → Nat
  | [], acc => acc
  | c :: cs, acc => digits_value cs (acc * 10 + (c.toNat - '0'.toNat))

/-- The C++ `std::atoi` on an optional `-` followed by digits.  Within the range of `int`
the result is the number written; outside of it the C++ result is undefined, and the
value here is what `(int)strtol(..)` gives: the number is clamped to the range of `long`
and its low 32 bits are kept. -/
def atoi (id : List Char) : Int :=
  let v : Int :=
    match id with
    | '-' :: digits => -((digits_value digits 0 : Nat) : Int)
    | digits => ((digits_value digits 0 : Nat) : Int)
  let clamped : Int := max (-(2 : Int) ^ 63) (min v ((2 : Int) ^ 63 - 1))
  (clamped + 2 ^ 31) % 2 ^ 32 - 2 ^ 31

/-- The second loop of `number`: the digits at the start of the program and the rest. -/
def number_digits : List Char → List Char × List Char
  | [] => ([], [])
  | c :: program =>
    if is_number c then ((number_digits program).1.cons c, (number_digits program).2)
    else ([], c :: program)

/-- The parser `number`. -/
def number (program : List Char) : ParserResult :=
  let (sign, program) : List Char × List Char :=
    match program with
    | '-' :: rest => (['-'], rest)
    | _ => ([], program)
  let id := sign ++ (number_digits program).1
  let program := (number_digits program).2
  if id.isEmpty || id == ['-'] then failure
  else success program (.integer (atoi id))

/-- The loop of `identifier`: it moves characters from the program to `id` while the
first character is a letter, or an underscore when `id` is not empty. -/
def identifier_loop : List Char → List Char → List Char × List Char
  | id, [] => (id, [])
  | id, c :: program =>
    if is_letter c || (!id.isEmpty && c == '_') then identifier_loop (id ++ [c]) program
    else (id, c :: program)

mutual
/-- The parser `identifier`. -/
def identifier : Nat → List Char → Option ParserResult
  | 0, _ => none
  | fuel + 1, program =>
    let id := (identifier_loop [] program).1
    let program := (identifier_loop [] program).2
    if id.isEmpty then some failure
    else
      let s := success program (.str TYPE_IDENTIFIER (String.mk id))
      index_ fuel s.remainder s
/-- The function `index`. -/
def index_ : Nat → List Char → ParserResult → Option ParserResult
  | 0, _, _ => none
  | fuel + 1, program, result =>
    match program with
    | [] => some result
    | c :: program =>
      if c != '.' then some result
      else
        (identifier fuel program).bind fun iden =>
          if !iden.success then some result
          else some (success iden.remainder (.children TYPE_INDEX [result.data, iden.data]))
end

/-! ## `parser.cpp`: the recursive parsers

In `function(result.remainder, std::move(result))` and `index(s.remainder, std::move(s))`
the first argument is read before the second is moved from, as a compiler that evaluates
the arguments from left to right does.  In the strings `\x7b` and `\x7d` are the
opening and the closing brace. -/

mutual
/-- The function `function`: the call suffix after `caller`. -/
def function : Nat → List Char → ParserResult → Option ParserResult
  | 0, _, _ => none
  | fuel + 1, program, caller =>
    let res := match_token "(" program
    if !res.success then some caller
    else
      (expression fuel res.remainder).bind fun result =>
        (function_arguments fuel [] res.remainder result).bind fun arguments =>
          let children := arguments.1
          let program := arguments.2
          let res := match_token ")" program
          if !res.success then some caller
          else
            let s := success res.remainder (.children TYPE_FUNCTION (caller.data :: children))
            index_ fuel s.remainder s
/-- The `while (result.success)` loop of `function`: the arguments read so far and the
program after the last of them. -/
def function_arguments :
    Nat → List ProgramData → List Char → ParserResult →
      Option (List ProgramData × List Char)
  | 0, _, _, _ => none
  | fuel + 1, children, program, result =>
    if !result.success then some (children, program)
    else
      let children := children ++ [result.data]
      let program := result.remainder
      let comma := match_token "," program
      if !comma.success then some (children, program)
      else
        (expression fuel comma.remainder).bind fun result =>
          function_arguments fuel children program result
/-- The parser `atom`. -/
def atom : Nat → List Char → Option ParserResult
  | 0, _ => none
  | fuel + 1, program =>
    (any [lift number, identifier fuel] program).bind fun result =>
      if result.success then atom_calls fuel result
      else
        (seq [lift (match_token "("), addop fuel,
            lift (match_token ")")] program).bind fun results =>
          if results.isEmpty then some failure
          else
            let r1 : ParserResult :=
              { success := (results.getD 1 failure).success
                remainder := (results.getD 2 failure).remainder
                data := (results.getD 1 failure).data }
            function fuel r1.remainder r1
/-- The `while (true)` loop of `atom`: call suffixes until one consumes nothing. -/
def atom_calls : Nat → ParserResult → Option ParserResult
  | 0, _ => none
  | fuel + 1, result =>
    (function fuel result.remainder result).bind fun next =>
      if result.remainder.length == next.remainder.length then some next
      else atom_calls fuel next
/-- The parser `term`. -/
def term : Nat → List Char → Option ParserResult
  | 0, _ => none
  | fuel + 1, program =>
    (atom fuel program).bind fun result =>
      if !result.success then some failure else term_loop fuel result
/-- The `while (true)` loop of `term`. -/
def term_loop : Nat → ParserResult → Option ParserResult
  | 0, _ => none
  | fuel + 1, result =>
    (any [lift (match_token "*"), lift (match_token "/")] result.remainder).bind fun op =>
      if !op.success then some result
      else
        (atom fuel op.remainder).bind fun rh =>
          if !rh.success then some failure
          else
            term_loop fuel (success rh.remainder
              (.children (if op.data.value_str == "*" then TYPE_MULT else TYPE_DIV)
                [result.data, rh.data]))
/-- The parser `addop`. -/
def addop : Nat → List Char → Option ParserResult
  | 0, _ => none
  | fuel + 1, program =>
    (term fuel program).bind fun result =>
      if !result.success then some failure else addop_loop fuel result
/-- The `while (true)` loop of `addop`. -/
def addop_loop : Nat → ParserResult → Option ParserResult
  | 0, _ => none
  | fuel + 1, result =>
    (any [lift (match_token "+"), lift (match_token "-")] result.remainder).bind fun op =>
      if !op.success then some result
      else
        (term fuel op.remainder).bind fun rh =>
          if !rh.success then some failure
          else
            addop_loop fuel (success rh.remainder
              (.children (if op.data.value_str == "+" then TYPE_ADD else TYPE_SUB)
                [result.data, rh.data]))
/-- The parser `noncompare_expression`. -/
def noncompare_expression : Nat → List Char → Option ParserResult
  | 0, _ => none
  | fuel + 1, program => any [addop fuel] program
/-- The parser `equality`.  The variable `type` is assigned in each of the three tests on
`comp`, and `comp` is one of the three strings matched, so the last test holds whenever
the first two fail. -/
def equality : Nat → List Char → Option ParserResult
  | 0, _ => none
  | fuel + 1, program =>
    (seq [noncompare_expression fuel,
        any [lift (match_token "=="), lift (match_token "!="), lift (match_token "<")],
        noncompare_expression fuel] program).bind fun results =>
      if results.isEmpty then some failure
      else
        let comp := (results.getD 1 failure).data.value_str
        let type :=
          if comp == "==" then TYPE_EQUALITY
          else if comp == "!=" then TYPE_NOTEQUALITY
          else TYPE_LT
        some (success (results.getD 2 failure).remainder
          (.children type [(results.getD 0 failure).data, (results.getD 2 failure).data]))
/-- The parser `expression`. -/
def expression : Nat → List Char → Option ParserResult
  | 0, _ => none
  | fuel + 1, program =>
    any [function_definition fuel, equality fuel, noncompare_expression fuel] program
/-- The parser `assignment`. -/
def assignment : Nat → List Char → Option ParserResult
  | 0, _ => none
  | fuel + 1, program =>
    (seq [identifier fuel, lift (match_token "="), expression fuel] program).bind fun results =>
      if results.isEmpty then some failure
      else
        some (success (results.getD 2 failure).remainder
          (.children TYPE_ASSIGNMENT
            [(results.getD 0 failure).data, (results.getD 2 failure).data]))
/-- The parser `function_definition`. -/
def function_definition : Nat → List Char → Option ParserResult
  | 0, _ => none
  | fuel + 1, program =>
    (seq [lift (match_token "function"), lift (match_token "("),
        lift (match_token ")"), lift (match_token "\x7b"), block fuel,
        lift (match_token "\x7d")] program).bind fun results =>
      if results.isEmpty then some failure
      else
        some (success (results.getLastD failure).remainder
          (.children TYPE_FUNCTION_DEF [(results.getD 4 failure).data]))
/-- The parser `if_statement`. -/
def if_statement : Nat → List Char → Option ParserResult
  | 0, _ => none
  | fuel + 1, program =>
    (seq [lift (match_token "if"), lift (match_token "("), expression fuel,
        lift (match_token ")"), lift (match_token "\x7b"), block fuel,
        lift (match_token "\x7d")] program).bind fun results =>
      if results.isEmpty then some failure
      else
        let cond := (results.getD 2 failure).data
        let then_block := (results.getD 5 failure).data
        let program := (results.getLastD failure).remainder
        let res := match_token "else" program
        if res.success then
          let program := res.remainder
          let res := match_token "\x7b" program
          if res.success then
            (block fuel res.remainder).bind fun else_block =>
              if !else_block.success then some failure
              else
                let res := match_token "\x7d" else_block.remainder
                if !res.success then some failure
                else
                  some (success res.remainder
                    (.children TYPE_IF [cond, then_block, else_block.data]))
          else
            (if_statement fuel program).bind fun res =>
              if !res.success then some failure
              else some (success res.remainder (.children TYPE_IF [cond, then_block, res.data]))
        else some (success program (.children TYPE_IF [cond, then_block, .nullptr]))
/-- The parser `while_loop`. -/
def while_loop : Nat → List Char → Option ParserResult
  | 0, _ => none
  | fuel + 1, program =>
    (seq [lift (match_token "while"), lift (match_token "("), expression fuel,
        lift (match_token ")"), lift (match_token "\x7b"), block fuel,
        lift (match_token "\x7d")] program).bind fun results =>
      if results.isEmpty then some failure
      else
        some (success (results.getLastD failure).remainder
          (.children TYPE_WHILE [(results.getD 2 failure).data, (results.getD 5 failure).data]))
/-- The parser `return_statement`. -/
def return_statement : Nat → List Char → Option ParserResult
  | 0, _ => none
  | fuel + 1, program =>
    (seq [lift (match_token "return"), expression fuel] program).bind fun results =>
      if results.isEmpty then some failure
      else
        some (success (results.getLastD failure).remainder
          (.children TYPE_RETURN [(results.getD 1 failure).data]))
/-- The parser `statement`. -/
def statement : Nat → List Char → Option ParserResult
  | 0, _ => none
  | fuel + 1, program =>
    any [return_statement fuel, assignment fuel, if_statement fuel, while_loop fuel,
      expression fuel] program
/-- The parser `block`. -/
def block : Nat → List Char → Option ParserResult
  | 0, _ => none
  | fuel + 1, program => block_loop fuel [] program
/-- The `while (true)` loop of `block`. -/
def block_loop : Nat → List ProgramData → List Char → Option ParserResult
  | 0, _, _ => none
  | fuel + 1, children, program =>
    (statement fuel program).bind fun result =>
      if !result.success then some (success program (.children TYPE_BLOCK children))
      else block_loop fuel (children ++ [result.data]) result.remainder
end

/-! ## `value.cpp`: the runtime function `print` -/

/-- What a call of `print` does: it writes `out` to the standard output and returns
`ret`; or it reads through a pointer that points to no object (`undefined`); or the
model ran out of fuel. -/
inductive Printed where
  | out_of_fuel
  | undefined
  | done (out : String) (ret : Nat)
deriving DecidableEq, Repr

/-- The texts written by the calls of `print` on the elements of a list, in order. -/
def print_join : List Printed → Printed
  | [] => .done "" 0
  | .done out _ :: rest =>
    match print_join rest with
    | .done outs _ => .done (out ++ outs) 0
    | r => r
  | r :: _ => r

/-- The function `print`.  `fuel` bounds the depth of lists inside lists; a number is
printed without fuel. -/
def print : Nat → ObjHeap → Nat → Printed
  | fuel, h, a =>
    if isNum a then .done (toString (valueToNum a) ++ "\n") 0
    else
      match fuel with
      | 0 => .out_of_fuel
      | fuel + 1 =>
        match h.get? (valueToObj a) with
        | none => .undefined
        | some l =>
          if l.type = list_type_number then
            if l.size ≤ l.elements.length then
              match print_join ((l.elements.take l.size).map (fun elm => print fuel h elm)) with
              | .done out _ => .done ("[\n" ++ out ++ "]\n") 0
              | r => r
            else .undefined
          else .done "" 0

/-! ## The x86 meaning of the instructions emitted for a comparison -/

/-- The part of the processor the comparisons use: the 64-bit values of the virtual
registers and the flags ZF, SF and OF. -/
structure Machine where
  regs : Nat → Nat
  zero : Bool
  sign : Bool
  overflow : Bool

/-- All registers zero, all flags clear. -/
def Machine.start : Machine :=
  { regs := fun _ => 0, zero := false, sign := false, overflow := false }

/-- Writes a 64-bit register. -/
def Machine.write (m : Machine) (id value : Nat) : Machine :=
  { m with regs := fun i => if i = id then value else m.regs i }

/-- The 64-bit difference `a - b`. -/
def sub64 (a b : Nat) : Nat := (a % WORD + WORD - b % WORD) % WORD

/-- The flags after the 64-bit subtraction `a - b`: ZF when the difference is zero, SF its
bit 63, OF when the signs of `a` and `b` differ and the sign of the difference is not the
sign of `a`. -/
def Machine.sub_flags (m : Machine) (a b : Nat) : Machine :=
  { m with
    zero := sub64 a b == 0
    sign := decide (SIGN_BIT ≤ sub64 a b)
    overflow := (decide (SIGN_BIT ≤ a % WORD) != decide (SIGN_BIT ≤ b % WORD)) &&
      (decide (SIGN_BIT ≤ sub64 a b) != decide (SIGN_BIT ≤ a % WORD)) }

/-- The effect of `setcc` on a 64-bit register: the low byte becomes 0 or 1, the other 56
bits are kept. -/
def set_low_byte (value : Nat) (bit : Bool) : Nat :=
  value - value % 256 + (if bit then 1 else 0)

/-- One instruction: the load of a constant, `sub`, `setl`, `sete`, `setne` and `cmp` with
an immediate; `none` for the other nodes. -/
def exec_inst : Inst → Machine → Option Machine
  | .mov_rm (.virt d) (.const _ value), m => some (m.write d (int64_bits value))
  | .sub (.virt d) (.virt s), m =>
    some ((m.sub_flags (m.regs d) (m.regs s)).write d (sub64 (m.regs d) (m.regs s)))
  | .setl (.virt d), m => some (m.write d (set_low_byte (m.regs d) (m.sign != m.overflow)))
  | .sete (.virt d), m => some (m.write d (set_low_byte (m.regs d) m.zero))
  | .setne (.virt d), m => some (m.write d (set_low_byte (m.regs d) (!m.zero)))
  | .cmp_ri (.virt d) imm, m => some (m.sub_flags (m.regs d) (int64_bits imm))
  | _, _ => none

/-- The instructions of a list, in order. -/
def exec : List Inst → Machine → Option Machine
  | [], m => some m
  | i :: code, m =>
    match exec_inst i m with
    | none => none
    | some m => exec code m

/-- The value the code emitted for the expression `node` leaves in the register of the
expression, run from `Machine.start`, and whether the `je` after `cmp reg, 0` of an `if`
or `while` is then taken (the jump past the block). -/
def condition_value (node : ProgramData) : Option (Nat × Bool) :=
  match jit_expression node demo_env with
  | .error _ => none
  | .ok (exp, e) =>
    match exp.reg with
    | .invalid => none
    | .virt reg =>
      match exec (e.a.code.drop demo_env.a.code.length ++ [.cmp_ri exp.reg 0])
          Machine.start with
      | none => none
      | some m => some (m.regs reg, m.zero)

/-! ## `main.cpp`: the function `main` -/

/-- How a run of `main` ends: after printing `ERROR IN PARSING`; after catching a `throw`
and printing its message (`err` is the text the message had where it was thrown: two of
the `throw`s pass the `c_str()` of a temporary string, which no longer exists where it is
printed); in undefined behaviour of the compilation; after printing `wack`
(`rt.add` reported an error); after printing `RUNNING` and calling the entry point `fn` of
the generated code; or the model ran out of fuel. -/
inductive MainResult where
  | parsing_error
  | thrown (err : String)
  | undefined
  | wack
  | running (a : X86Compiler)
  | out_of_fuel
deriving DecidableEq, Repr

/-- The first loop of `main`, `while (!program.empty())`. -/
def main_statements : Nat → List Char → Env → Except MainResult Env
  | _, [], e => .ok e
  | 0, _ :: _, _ => .error .out_of_fuel
  | fuel + 1, c :: program, e =>
    match statement fuel (c :: program) with
    | none => .error .out_of_fuel
    | some res =>
      if !res.success then .error .parsing_error
      else
        match jit_statement res.data e with
        | .error (.thrown err) => .error (.thrown err)
        | .error .undefined => .error .undefined
        | .ok e => main_statements fuel res.remainder e

/-- The function `main` on the text of the file `argv[1]`; `rt_add_error` is whether
`rt.add` reports an error. -/
def main (fp : NativeFunctions) (rt_add_error : Bool) (fuel : Nat) (program : List Char) :
    MainResult :=
  match main_init fp with
  | none => .undefined
  | some e =>
    match main_statements fuel program e with
    | .error r => r
    | .ok e =>
      match drain fuel (e.emit .endFunc) with
      | .error (.thrown err) => .thrown err
      | .error .undefined => .undefined
      | .ok none => .out_of_fuel
      | .ok (some e) => if rt_add_error then .wack else .running e.a

/-- The statements of a whole program text, read one after the other as the first loop
of `main` reads them: `some none` when a statement does not parse. -/
def parse_program : Nat → List Char → Option (Option (List ProgramData))
  | _, [] => some (some [])
  | 0, _ :: _ => none
  | fuel + 1, c :: program =>
    match statement fuel (c :: program) with
    | none => none
    | some res =>
      if !res.success then some none
      else
        match parse_program fuel res.remainder with
        | none => none
        | some none => some none
        | some (some rest) => some (some (res.data :: rest))

/-- The characters of a name after the first: what the loop of `identifier` accepts once
`id` is not empty. -/
def name_char (c : Char) : Bool := is_letter c || c == '_'

/-! ## More fuel -/

/-- Whatever the run `o` returns, the run `o'` returns too. -/
structure Sub {α : Type} (o o' : Option α) : Prop where
  le : ∀ r, o = some r → o' = some r

/-- Every parser returns with fuel `n + 1` what it returns with fuel `n`. -/
structure MoreFuel (n : Nat) : Prop where
  identifier : ∀ p, Sub (identifier n p) (identifier (n + 1) p)
  index_ : ∀ p r, Sub (index_ n p r) (index_ (n + 1) p r)
  function : ∀ p c, Sub (function n p c) (function (n + 1) p c)
  function_arguments : ∀ ch p r,
    Sub (function_arguments n ch p r) (function_arguments (n + 1) ch p r)
  atom : ∀ p, Sub (atom n p) (atom (n + 1) p)
  atom_calls : ∀ r, Sub (atom_calls n r) (atom_calls (n + 1) r)
  term : ∀ p, Sub (term n p) (term (n + 1) p)
  term_loop : ∀ r, Sub (term_loop n r) (term_loop (n + 1) r)
  addop : ∀ p, Sub (addop n p) (addop (n + 1) p)
  addop_loop : ∀ r, Sub (addop_loop n r) (addop_loop (n + 1) r)
  noncompare_expression : ∀ p,
    Sub (noncompare_expression n p) (noncompare_expression (n + 1) p)
  equality : ∀ p, Sub (equality n p) (equality (n + 1) p)
  expression : ∀ p, Sub (expression n p) (expression (n + 1) p)
  assignment : ∀ p, Sub (assignment n p) (assignment (n + 1) p)
  function_definition : ∀ p, Sub (function_definition n p) (function_definition (n + 1) p)
  if_statement : ∀ p, Sub (if_statement n p) (if_statement (n + 1) p)
  while_loop : ∀ p, Sub (while_loop n p) (while_loop (n + 1) p)
  return_statement : ∀ p, Sub (return_statement n p) (return_statement (n + 1) p)
  statement : ∀ p, Sub (statement n p) (statement (n + 1) p)
  block : ∀ p, Sub (block n p) (block (n + 1) p)
  block_loop : ∀ ch p, Sub (block_loop n ch p) (block_loop (n + 1) ch p)

/-! ## Chains of one level of arithmetic, as the specification words them -/

/-- The node kind of an operator: `+` add, `-` subtract, `*` multiply, `/` divide. -/
def operator_kind (op : String) : ProgramType :=
  if op = "+" then TYPE_ADD
  else if op = "-" then TYPE_SUB
  else if op = "*" then TYPE_MULT
  else TYPE_DIV

/-- The left fold `(((t0 op1 t1) op2 t2) ... opn tn)` of a chain: `steps` are the operators
with the operand read after each. -/
def left_fold (t0 : ProgramData) (steps : List (String × ParserResult)) : ProgramData :=
  steps.foldl (fun acc step => .children (operator_kind step.1) [acc, step.2.data]) t0

/-- The text `program` continues a chain of the level with the operators `op1` and `op2`:
for every step its operator is next in the text and `operand` reads the operand of the
step after it; after the last step no operator of the level is next, and `final` is the
text that is left. -/
def Chain (operand : List Char → Option ParserResult) (op1 op2 : String) :
    List Char → List (String × ParserResult) → List Char → Prop
  | program, [], final =>
    (match_token op1 program).success = false ∧ (match_token op2 program).success = false ∧
      final = program
  | program, step :: steps, final =>
    ((step.1 = op1 ∧ (match_token op1 program).success = true) ∨
      (step.1 = op2 ∧ (match_token op1 program).success = false ∧
        (match_token op2 program).success = true)) ∧
    operand (match_token step.1 program).remainder = some step.2 ∧
    step.2.success = true ∧
    Chain operand op1 op2 (eat_whitespace step.2.remainder) steps final

/-! ## The capacity of a list -/

/-- The invariant of the table of locals: the bump offset is 8 times the number of
locals, the slots are at the offsets 0, 8, 16, .. in the order of the first assignments,
and no name has two entries. -/
structure Env.LocalsOk (e : Env) : Prop where
  offset_eq : e.state.offset = 8 * e.state.vars.length
  slots : e.state.vars.map (fun v => v.2.stack_offset) =
    (List.range e.state.vars.length).map (fun i => 8 * i)
  names : (e.state.vars.map Prod.fst).Nodup

mutual
/-- The names a statement assigns to in the function it belongs to: the targets of the
assignment nodes that `jit_statement` reaches (the statements of function definitions
inside it belong to other functions). -/
def assigned_names : ProgramData → List String
  | .children TYPE_ASSIGNMENT vec =>
    match vec with
    | .str _ var :: _ :: _ => [var]
    | _ => []
  | .children TYPE_BLOCK vec => assigned_names_block vec
  | .children TYPE_IF vec =>
    match vec with
    | _ :: thenb :: elseb :: _ => assigned_names thenb ++ assigned_names elseb
    | _ => []
  | .children TYPE_WHILE vec =>
    match vec with
    | _ :: body :: _ => assigned_names body
    | _ => []
  | _ => []
/-- The names the statements of a block assign to. -/
def assigned_names_block : List ProgramData → List String
  | [] => []
  | x :: rest => assigned_names x ++ assigned_names_block rest
end

/-- The block `x = 5 y = 6 x = 7`. -/
def three_assignments : ProgramData :=
  .children TYPE_BLOCK [assign "x" (.integer 5), assign "y" (.integer 6),
    assign "x" (.integer 7)]

/-! ## The code a compilation step adds -/

/-- Whether a node neither binds a label nor opens or closes a function. -/
def Inst.straight : Inst → Bool
  | .bind _ => false
  | .func _ => false
  | .endFunc => false
  | _ => true

/-- A compilation step from `e` to `e'` that adds the nodes `added` behind the code already
emitted and creates labels (none is lost). -/
structure Env.Adds (e e' : Env) (added : List Inst) : Prop where
  code_eq : e'.a.code = e.a.code ++ added
  labels_le : e.a.labels ≤ e'.a.labels

/-- A step of the compilation of an expression: the nodes added bind no label and open or
close no function. -/
def Env.Straight (e e' : Env) : Prop :=
  ∃ added, e.Adds e' added ∧ ∀ i, i ∈ added → i.straight = true

/-- A step of the compilation of a statement: the nodes added open or close no function,
and the labels they bind were created during the step. -/
def Env.Scoped (e e' : Env) : Prop :=
  ∃ added, e.Adds e' added ∧
    (∀ f, Inst.func f ∉ added) ∧ Inst.endFunc ∉ added ∧
    ∀ l, Inst.bind l ∈ added → e.a.labels ≤ l ∧ l < e'.a.labels

/-- The code so far binds only labels that were created already. -/
def Env.LabelsBelow (e : Env) : Prop :=
  ∀ l, Inst.bind l ∈ e.a.code → l < e.a.labels

/-- The children of the node of `if (1 < 2) { print(1) } else { print(2) }`. -/
def if_else_parts : List ProgramData :=
  [.children TYPE_LT [.integer 1, .integer 2],
   .children TYPE_BLOCK [call (ident "print") [.integer 1]],
   .children TYPE_BLOCK [call (ident "print") [.integer 2]]]

/-- The node of `if (1 < 2) { print(1) } else { print(2) }`. -/
def if_else_node : ProgramData := .children TYPE_IF if_else_parts

/-- The node of a function definition with the body `body`. -/
def fundef (body : ProgramData) : ProgramData := .children TYPE_FUNCTION_DEF [body]

/-! ## Counting function definitions -/

mutual
/-- The number of function-definition nodes in a tree, however deeply they are nested. -/
def definitions : ProgramData → Nat
  | .children type vec =>
    (if type = TYPE_FUNCTION_DEF then 1 else 0) + definitions_list vec
  | _ => 0
/-- The number of function-definition nodes in the trees of a vector. -/
def definitions_list : List ProgramData → Nat
  | [] => 0
  | x :: rest => definitions x + definitions_list rest
end

/-- Whether a node of type `type` with `n` children has the number of children the parser
gives to the nodes of that type: one for a function definition and a `return`, three for
an `if`, two for an index, an assignment, a `while` and the binary operators. -/
def parser_arity (type : ProgramType) (n : Nat) : Bool :=
  match type with
  | TYPE_FUNCTION_DEF | TYPE_RETURN => n == 1
  | TYPE_IF => n == 3
  | TYPE_INDEX | TYPE_ASSIGNMENT | TYPE_WHILE | TYPE_EQUALITY | TYPE_NOTEQUALITY | TYPE_LT
  | TYPE_MULT | TYPE_DIV | TYPE_ADD | TYPE_SUB => n == 2
  | _ => true

mutual
/-- Whether every node of a tree has the number of children the parser gives it. -/
def parser_shaped : ProgramData → Bool
  | .children type vec => parser_arity type vec.length && parser_shaped_list vec
  | _ => true
/-- Whether every node of the trees of a vector has the number of children the parser
gives it. -/
def parser_shaped_list : List ProgramData → Bool
  | [] => true
  | x :: rest => parser_shaped x && parser_shaped_list rest
end

/-- The functions still to be compiled for a worklist: its entries and the function
definitions inside their bodies. -/
def pending : List FunctionRemainder → Nat
  | [] => 0
  | frem :: rest => 1 + definitions frem.data + pending rest

/-- A compilation step from `e` to `e'` that puts the entries `new` at the back of the
worklist. -/
def Env.Defers (e e' : Env) (new : List FunctionRemainder) : Prop :=
  e'.state.remainders = e.state.remainders ++ new

/-- A compilation step that defers as many functions as the tree `x` it compiles has
function definitions, all with bodies of the parser's shape. -/
def Env.DefersAll (e e' : Env) (n : Nat) : Prop :=
  ∃ new, e.Defers e' new ∧ pending new = n ∧ ∀ r, r ∈ new → parser_shaped r.data = true

/-- Whether a node opens a function (`addFunc`). -/
def Inst.opens : Inst → Bool
  | .func _ => true
  | _ => false

/-- Whether a node closes a function (`endFunc`). -/
def Inst.closes : Inst → Bool
  | .endFunc => true
  | _ => false

/-! ## What the parsers consume -/

/-- The text `r` is what is left of the text `p` after at least one character was taken
from its front. -/
def ProperSuffix (r p : List Char) : Prop := r <:+ p ∧ r.length < p.length

/-- What holds of the result `r` of a parser run on `program` when it is a success: the
remainder is a proper suffix of the program and the tree has the parser's shape. -/
def Consumed (program : List Char) (r : ParserResult) : Prop :=
  r.success = true → ProperSuffix r.remainder program ∧ parser_shaped r.data = true

/-- What holds of the result `r` of `function` and `index` run on `program` after
`caller`: it is `caller` itself, or a success whose remainder is a proper suffix of the
program and whose tree has the parser's shape when the tree of `caller` has it. -/
def Extended (program : List Char) (caller r : ParserResult) : Prop :=
  r = caller ∨
    (r.success = true ∧ ProperSuffix r.remainder program ∧
      (parser_shaped caller.data = true → parser_shaped r.data = true))

/-- What holds of the result `r` of a loop entered with the successful result `start`:
when it is a success, its remainder is a suffix of the remainder of `start` and its tree
has the parser's shape when the tree of `start` has it. -/
def Continued (start r : ParserResult) : Prop :=
  r.success = true →
    r.remainder <:+ start.remainder ∧
      (parser_shaped start.data = true → parser_shaped r.data = true)

/-- What the results of the parsers satisfy with the fuel `n`. -/
structure Progress (n : Nat) : Prop where
  identifier : ∀ p r, identifier n p = some r → Consumed p r
  index_ : ∀ p c r, index_ n p c = some r → Extended p c r
  function : ∀ p c r, function n p c = some r → Extended p c r
  function_arguments : ∀ ch p res out, function_arguments n ch p res = some out →
    (res.success = true → res.remainder <:+ p ∧ parser_shaped res.data = true) →
    parser_shaped_list ch = true → out.2 <:+ p ∧ parser_shaped_list out.1 = true
  atom : ∀ p r, atom n p = some r → Consumed p r
  atom_calls : ∀ res r, atom_calls n res = some r → Continued res r
  term : ∀ p r, term n p = some r → Consumed p r
  term_loop : ∀ res r, term_loop n res = some r → Continued res r
  addop : ∀ p r, addop n p = some r → Consumed p r
  addop_loop : ∀ res r, addop_loop n res = some r → Continued res r
  noncompare_expression : ∀ p r, noncompare_expression n p = some r → Consumed p r
  equality : ∀ p r, equality n p = some r → Consumed p r
  expression : ∀ p r, expression n p = some r → Consumed p r
  assignment : ∀ p r, assignment n p = some r → Consumed p r
  function_definition : ∀ p r, function_definition n p = some r → Consumed p r
  if_statement : ∀ p r, if_statement n p = some r → Consumed p r
  while_loop : ∀ p r, while_loop n p = some r → Consumed p r
  return_statement : ∀ p r, return_statement n p = some r → Consumed p r
  statement : ∀ p r, statement n p = some r → Consumed p r
  block : ∀ p r, block n p = some r →
    r.success = true ∧ r.remainder <:+ p ∧ parser_shaped r.data = true
  block_loop : ∀ ch p r, block_loop n ch p = some r → parser_shaped_list ch = true →
    r.success = true ∧ r.remainder <:+ p ∧ parser_shaped r.data = true

/-- A parser that, when it succeeds, leaves a suffix of its input and a tree of the
parser's shape. -/
def Shrinks (q : List Char → Option ParserResult) : Prop :=
  ∀ inp r, q inp = some r → r.success = true →
    r.remainder <:+ inp ∧ parser_shaped r.data = true

/-- A parser that returns on every input shorter than `bound`. -/
def Returns (q : List Char → Option ParserResult) (bound : Nat) : Prop :=
  ∀ inp : List Char, inp.length < bound → ∃ r, q inp = some r

/-- Every parser returns with fuel `m` on the inputs whose measure, twelve times the
length plus the depth of the parser in the grammar, is below `m`.  The loops are measured
by the remainder of the result they continue. -/
structure Halts (m : Nat) : Prop where
  identifier : ∀ p : List Char, 12 * p.length < m → ∃ r, identifier m p = some r
  index_ : ∀ (p : List Char) c, 12 * p.length < m → ∃ r, index_ m p c = some r
  function : ∀ (p : List Char) c, 12 * p.length + 1 < m → ∃ r, function m p c = some r
  function_arguments : ∀ ch p (res : ParserResult), 0 < m →
    (res.success = true → 12 * res.remainder.length < m) →
    ∃ out, function_arguments m ch p res = some out
  atom : ∀ p : List Char, 12 * p.length + 3 < m → ∃ r, atom m p = some r
  atom_calls : ∀ res : ParserResult, 12 * res.remainder.length + 2 < m →
    ∃ r, atom_calls m res = some r
  term : ∀ p : List Char, 12 * p.length + 4 < m → ∃ r, term m p = some r
  term_loop : ∀ res : ParserResult, 12 * res.remainder.length < m →
    ∃ r, term_loop m res = some r
  addop : ∀ p : List Char, 12 * p.length + 5 < m → ∃ r, addop m p = some r
  addop_loop : ∀ res : ParserResult, 12 * res.remainder.length < m →
    ∃ r, addop_loop m res = some r
  noncompare_expression : ∀ p : List Char, 12 * p.length + 6 < m →
    ∃ r, noncompare_expression m p = some r
  equality : ∀ p : List Char, 12 * p.length + 7 < m → ∃ r, equality m p = some r
  expression : ∀ p : List Char, 12 * p.length + 8 < m → ∃ r, expression m p = some r
  assignment : ∀ p : List Char, 12 * p.length + 1 < m → ∃ r, assignment m p = some r
  function_definition : ∀ p : List Char, 12 * p.length < m →
    ∃ r, function_definition m p = some r
  if_statement : ∀ p : List Char, 12 * p.length < m → ∃ r, if_statement m p = some r
  while_loop : ∀ p : List Char, 12 * p.length < m → ∃ r, while_loop m p = some r
  return_statement : ∀ p : List Char, 12 * p.length < m →
    ∃ r, return_statement m p = some r
  statement : ∀ p : List Char, 12 * p.length + 9 < m → ∃ r, statement m p = some r
  block : ∀ p : List Char, 12 * p.length + 11 < m → ∃ r, block m p = some r
  block_loop : ∀ ch (p : List Char), 12 * p.length + 10 < m →
    ∃ r, block_loop m ch p = some r

/-- The text of `nested_program`: a function defined in the body of a function. -/
def nested_text : List Char :=
  "f = function() \x7b g = function() \x7b return 1 \x7d return 2 \x7d".toList

/-! ## Tagged values -/

theorem testBit_not64_NUM_BIT (i : Nat) :
    (not64 NUM_BIT).testBit i = (decide (i < 64) && !decide (i = 62)) := by
  have h : NUM_BIT % WORD = 2 ^ 62 := by decide
  unfold not64
  rw [h]
  unfold WORD
  rw [Nat.testBit_xor, Nat.testBit_two_pow_sub_one, Nat.testBit_two_pow]
  by_cases h1 : i < 64 <;> by_cases h2 : i = 62 <;> simp [h1, h2, eq_comm]

theorem objToValue_eq (p : Nat) (hp : p < 2 ^ 62) : objToValue p = 2 ^ 62 ||| p := by
  unfold objToValue NUM_BIT WORD
  apply Nat.mod_eq_of_lt
  apply Nat.or_lt_two_pow
  · decide
  · exact lt_trans hp (by decide)

theorem objToValue_round_trip (p : Nat) (hp : p < 2 ^ 62) :
    valueToObj (objToValue p) = p ∧ isNum (objToValue p) = false := by
  rw [objToValue_eq p hp]
  constructor
  · unfold valueToObj
    apply Nat.eq_of_testBit_eq
    intro i
    rw [Nat.testBit_and, Nat.testBit_or, Nat.testBit_two_pow, testBit_not64_NUM_BIT]
    by_cases h2 : i = 62
    · subst h2
      have : p.testBit 62 = false := Nat.testBit_lt_two_pow hp
      simp [this]
    · by_cases h1 : i < 64
      · simp [h1, h2, eq_comm]
      · have hlt : p < 2 ^ i :=
          lt_of_lt_of_le hp (Nat.pow_le_pow_right (by decide) (by omega))
        have : p.testBit i = false := Nat.testBit_lt_two_pow hlt
        simp [h1, h2, this, eq_comm]
  · unfold isNum NUM_BIT
    have hbit : ((2 ^ 62 ||| p) &&& 2 ^ 62).testBit 62 = true := by
      rw [Nat.testBit_and, Nat.testBit_or, Nat.testBit_two_pow]
      simp
    have hne : (2 ^ 62 ||| p) &&& 2 ^ 62 ≠ 0 := by
      intro h0
      rw [h0] at hbit
      simp at hbit
    simpa using hne

/-- C8: for every heap address `p` below `2 ^ 62`, `valueToObj (objToValue p) = p` and
`objToValue p` is not classified as a number by `isNum`. -/
theorem tag_round_trip (p : Nat) (hp : p < 2 ^ 62) :
    valueToObj (objToValue p) = p ∧ isNum (objToValue p) = false :=
  objToValue_round_trip p hp

/-- The round trip at the address `4096`. -/
theorem tag_round_trip_witness :
    4096 < 2 ^ 62 ∧ valueToObj (objToValue 4096) = 4096 ∧ isNum (objToValue 4096) = false :=
  ⟨by decide, tag_round_trip 4096 (by decide)⟩

/-! ## The method table -/

theorem umap_find_set_self {K V : Type} [DecidableEq K] (m : List (K × V)) (k : K) (v : V) :
    umap_find (umap_set m k v) k = some v := by
  induction m with
  | nil => simp [umap_set, umap_find]
  | cons x m ih =>
    obtain ⟨k', v'⟩ := x
    by_cases h : k' = k
    · simp [umap_set, umap_find, h]
    · simp [umap_set, umap_find, h, ih]

theorem umap_find_set_ne {K V : Type} [DecidableEq K] (m : List (K × V)) (k k' : K) (v : V)
    (hne : k' ≠ k) : umap_find (umap_set m k v) k' = umap_find m k' := by
  induction m with
  | nil =>
    have : ¬ k = k' := fun h => hne h.symm
    simp [umap_set, umap_find, this]
  | cons x m ih =>
    obtain ⟨k2, v2⟩ := x
    by_cases h : k2 = k
    · subst h
      have : ¬ k2 = k' := fun h => hne h.symm
      simp [umap_set, umap_find, this]
    · by_cases h2 : k2 = k'
      · subst h2
        simp [umap_set, umap_find, h]
      · simp [umap_set, umap_find, h, h2, ih]

theorem Globals.MemoOk.at_start : Globals.init.MemoOk := by
  intro k v h
  simp [Globals.init, umap_find] at h

theorem get_return_type_hit (g : Globals) (T r : TypePtr)
    (h : umap_find g.return_types T = some r) : get_return_type g T = (r, g) := by
  simp [get_return_type, h]

theorem get_return_type_miss (g : Globals) (T : TypePtr)
    (h : umap_find g.return_types T = none) :
    (get_return_type g T).1 = some g.heap.length ∧
    (get_return_type g T).2.return_types = umap_set g.return_types T (some g.heap.length) ∧
    (∃ t : TypeObj, (get_return_type g T).2.heap = g.heap ++ [t] ∧ t.return_type = T) := by
  simp [get_return_type, h, register_type, Globals.update]

theorem get_return_type_find (g : Globals) (T : TypePtr) :
    umap_find (get_return_type g T).2.return_types T = some (get_return_type g T).1 := by
  cases h : umap_find g.return_types T with
  | some r => rw [get_return_type_hit g T r h]; exact h
  | none =>
    obtain ⟨h1, h2, _⟩ := get_return_type_miss g T h
    rw [h1, h2, umap_find_set_self]

theorem get_return_type_keeps (g : Globals) (T k : TypePtr) (v : TypePtr) (hne : k ≠ T)
    (hk : umap_find g.return_types k = some v) :
    umap_find (get_return_type g T).2.return_types k = some v := by
  cases h : umap_find g.return_types T with
  | some r => rw [get_return_type_hit g T r h]; exact hk
  | none =>
    obtain ⟨_, h2, _⟩ := get_return_type_miss g T h
    rw [h2, umap_find_set_ne _ _ _ _ hne]
    exact hk

theorem Globals.MemoOk.after_get {g : Globals} (hg : g.MemoOk) (T : TypePtr) :
    (get_return_type g T).2.MemoOk := by
  cases h : umap_find g.return_types T with
  | some r => rw [get_return_type_hit g T r h]; exact hg
  | none =>
    obtain ⟨_, h2, t, h3, h4⟩ := get_return_type_miss g T h
    intro k v hk
    rw [h2] at hk
    by_cases hkT : k = T
    · subst hkT
      rw [umap_find_set_self] at hk
      refine ⟨g.heap.length, t, ?_, ?_, h4⟩
      · simpa using hk.symm
      · rw [h3]; simp
    · rw [umap_find_set_ne _ _ _ _ hkT] at hk
      obtain ⟨i, t', hv, hi, ht⟩ := hg k v hk
      refine ⟨i, t', hv, ?_, ht⟩
      rw [h3]
      have hlt : i < g.heap.length := by
        rcases Nat.lt_or_ge i g.heap.length with hlt | hge
        · exact hlt
        · rw [List.getElem?_eq_none hge] at hi
          cases hi
      rw [List.getElem?_append_left hlt]
      exact hi

theorem Globals.MemoOk.after_register {g : Globals} (hg : g.MemoOk) (name : String) :
    (register_type g name).2.MemoOk := by
  intro k v hk
  obtain ⟨i, t, hv, hi, ht⟩ := hg k v hk
  refine ⟨i, t, hv, ?_, ht⟩
  have hlt : i < g.heap.length := by
    rcases Nat.lt_or_ge i g.heap.length with hlt | hge
    · exact hlt
    · rw [List.getElem?_eq_none hge] at hi
      cases hi
  simp only [register_type]
  rw [List.getElem?_append_left hlt]
  exact hi

theorem Globals.MemoOk.after_update {g : Globals} (hg : g.MemoOk) (p : TypePtr)
    (f : TypeObj → TypeObj) (hf : ∀ o, (f o).return_type = o.return_type) :
    (g.update p f).MemoOk := by
  cases p with
  | none => exact hg
  | some j =>
    cases hj : g.heap[j]? with
    | none =>
      have : g.update (some j) f = g := by simp [Globals.update, hj]
      rw [this]
      exact hg
    | some o =>
      have hu : g.update (some j) f = { g with heap := g.heap.set j (f o) } := by
        simp [Globals.update, hj]
      rw [hu]
      intro k v hk
      obtain ⟨i, t, hv, hi, ht⟩ := hg k v hk
      by_cases hij : j = i
      · subst hij
        rw [hj] at hi
        have hot : o = t := Option.some.inj hi
        subst hot
        have hlt : j < g.heap.length := by
          rcases Nat.lt_or_ge j g.heap.length with hlt | hge
          · exact hlt
          · rw [List.getElem?_eq_none hge] at hj
            cases hj
        exact ⟨j, f o, hv, List.getElem?_set_self hlt, by rw [hf, ht]⟩
      · exact ⟨i, t, hv, by simp only; rw [List.getElem?_set_ne hij]; exact hi, ht⟩

theorem Globals.MemoOk.after_update_checked {g g' : Globals} (hg : g.MemoOk) (p : TypePtr)
    (f : TypeObj → Option TypeObj)
    (hf : ∀ o o', f o = some o' → o'.return_type = o.return_type)
    (h : g.update_checked p f = some g') : g'.MemoOk := by
  cases p with
  | none =>
    simp only [Globals.update_checked, Option.some.injEq] at h
    rw [← h]
    exact hg
  | some j =>
    cases hj : g.heap[j]? with
    | none =>
      simp only [Globals.update_checked, hj, Option.some.injEq] at h
      rw [← h]
      exact hg
    | some o =>
      cases hfo : f o with
      | none => simp [Globals.update_checked, hj, hfo] at h
      | some o' =>
        simp only [Globals.update_checked, hj, hfo, Option.some.injEq] at h
        rw [← h]
        intro k v hk
        obtain ⟨i, t, hv, hi, ht⟩ := hg k v hk
        by_cases hij : j = i
        · subst hij
          rw [hj] at hi
          have hot : o = t := Option.some.inj hi
          subst hot
          have hlt : j < g.heap.length := by
            rcases Nat.lt_or_ge j g.heap.length with hlt | hge
            · exact hlt
            · rw [List.getElem?_eq_none hge] at hj
              cases hj
          exact ⟨j, o', hv, List.getElem?_set_self hlt, by rw [hf o o' hfo, ht]⟩
        · exact ⟨i, t, hv, by simp only; rw [List.getElem?_set_ne hij]; exact hi, ht⟩

theorem add_function_return_type (t t' : TypeObj) (name : String) (m : Bool) (f : Nat)
    (ty : TypePtr) (h : add_function t name m f ty = some t') :
    t'.return_type = t.return_type := by
  unfold add_function at h
  obtain ⟨fs, _, hk⟩ := Option.bind_eq_some.mp h
  split at hk
  · injection hk with hk
    rw [← hk]
  · cases hk

/-- C7: in a state of the globals whose map `return_types` is consistent (as it is at
program start and after every call of `get_return_type`), a call `get_return_type(T)`,
for `T` a type or null, returns a type whose `return_type` is `T`; a second call returns
the identical `Type *` and leaves the globals as they were, so that it registers no type;
a call with a different argument returns a different `Type *`. -/
theorem return_type_memoized (g : Globals) (hg : g.MemoOk) (T T' : TypePtr) :
    get_return_type (get_return_type g T).2 T =
      ((get_return_type g T).1, (get_return_type g T).2) ∧
    (∃ t : TypeObj, (get_return_type g T).2.deref (get_return_type g T).1 = some t ∧
      t.return_type = T) ∧
    (T' ≠ T → (get_return_type (get_return_type g T).2 T').1 ≠ (get_return_type g T).1) := by
  have hfind := get_return_type_find g T
  have hok := hg.after_get T
  refine ⟨get_return_type_hit _ T _ hfind, ?_, ?_⟩
  · obtain ⟨i, t, hv, hi, ht⟩ := hok T _ hfind
    exact ⟨t, by rw [hv]; exact hi, ht⟩
  · intro hne heq
    have hok2 := hok.after_get T'
    have hfind2 := get_return_type_find (get_return_type g T).2 T'
    have hkeep := get_return_type_keeps (get_return_type g T).2 T' T _ (Ne.symm hne) hfind
    rw [heq] at hfind2
    obtain ⟨i, t, hv, hi, ht⟩ := hok2 T _ hkeep
    obtain ⟨i2, t2, hv2, hi2, ht2⟩ := hok2 T' _ hfind2
    rw [hv] at hv2
    have : i = i2 := by simpa using hv2
    subst this
    rw [hi] at hi2
    have : t = t2 := by simpa using hi2
    subst this
    exact hne (ht2.symm.trans ht)

/-- At program start, for the untyped case and the type at address 0. -/
theorem return_type_memoized_witness :
    Globals.init.MemoOk ∧
    get_return_type (get_return_type Globals.init none).2 none =
      ((get_return_type Globals.init none).1, (get_return_type Globals.init none).2) ∧
    (∃ t : TypeObj,
      (get_return_type Globals.init none).2.deref (get_return_type Globals.init none).1 =
        some t ∧ t.return_type = none) ∧
    (some 0 ≠ none → (get_return_type (get_return_type Globals.init none).2 (some 0)).1 ≠
      (get_return_type Globals.init none).1) :=
  ⟨Globals.MemoOk.at_start, return_type_memoized Globals.init Globals.MemoOk.at_start none (some 0)⟩

/-! ## `jit_expression`: identifiers and property access -/

theorem jit_identifier_cases (X : String) (e : Env) :
    (∀ var : StackVar, umap_find e.state.vars X = some var →
      jit_expression (.str TYPE_IDENTIFIER X) e =
        .ok ({ reg := .virt e.a.gps, type := var.type, is_method := false, object := .invalid },
             { e with
               a := { e.a with
                 gps := e.a.gps + 1
                 code := e.a.code ++
                   [.mov_rm (.virt e.a.gps)
                     ((e.state.mem.setSize 8).setOffset var.stack_offset)] }
               state := { e.state with
                 mem := (e.state.mem.setSize 8).setOffset var.stack_offset } }) ∧
      ∀ id offset size, e.state.mem = .stack id offset size →
        (e.state.mem.setSize 8).setOffset var.stack_offset =
          .stack id var.stack_offset 8) ∧
    (∀ var : GlobalVar, umap_find e.state.vars X = none →
      umap_find e.state.globals X = some var →
      jit_expression (.str TYPE_IDENTIFIER X) e =
        .ok ({ reg := .virt e.a.gps, type := var.type, is_method := false, object := .invalid },
             { e with
               a := { e.a with
                 gps := e.a.gps + 1
                 code := e.a.code ++
                   [.mov_rm (.virt e.a.gps)
                     (.const .kConstScopeGlobal (valueToNum var.value))] } })) ∧
    (jit_expression (.str TYPE_IDENTIFIER X) e =
        .error (.thrown ("USING " ++ X ++ " BEFORE DEFINED")) ↔
      umap_find e.state.vars X = none ∧ umap_find e.state.globals X = none) := by
  refine ⟨?_, ?_, ?_⟩
  · intro var hv
    refine ⟨?_, ?_⟩
    · simp [jit_expression, jit_identifier, hv, Env.newGpq, Env.emit, X86Compiler.newGpq,
        X86Compiler.emit]
    · intro id offset size hm
      rw [hm]
      rfl
  · intro var hv hg
    simp [jit_expression, jit_identifier, hv, hg, Env.newGpq, Env.emit, X86Compiler.newGpq,
      X86Compiler.emit]
  · simp only [jit_expression, jit_identifier]
    cases hv : umap_find e.state.vars X with
    | some var => simp
    | none =>
      cases hg : umap_find e.state.globals X with
      | some var => simp
      | none => simp

/-- C3: compiling the identifier `X` looks at the locals first and at the globals second.
If `X` is a local, a load from the stack area at the local's offset (size 8) is emitted
into a fresh register and the static type is the local's recorded type, whatever the
globals hold; otherwise, if `X` is a global, a load of the global's constant value is
emitted and the static type is the global's type; the compilation throws
`USING X BEFORE DEFINED` exactly when `X` is in neither table. -/
theorem identifier_resolution (X : String) (e : Env) :
    (∀ var : StackVar, umap_find e.state.vars X = some var →
      jit_expression (.str TYPE_IDENTIFIER X) e =
        .ok ({ reg := .virt e.a.gps, type := var.type, is_method := false, object := .invalid },
             { e with
               a := { e.a with
                 gps := e.a.gps + 1
                 code := e.a.code ++
                   [.mov_rm (.virt e.a.gps)
                     ((e.state.mem.setSize 8).setOffset var.stack_offset)] }
               state := { e.state with
                 mem := (e.state.mem.setSize 8).setOffset var.stack_offset } }) ∧
      ∀ id offset size, e.state.mem = .stack id offset size →
        (e.state.mem.setSize 8).setOffset var.stack_offset =
          .stack id var.stack_offset 8) ∧
    (∀ var : GlobalVar, umap_find e.state.vars X = none →
      umap_find e.state.globals X = some var →
      jit_expression (.str TYPE_IDENTIFIER X) e =
        .ok ({ reg := .virt e.a.gps, type := var.type, is_method := false, object := .invalid },
             { e with
               a := { e.a with
                 gps := e.a.gps + 1
                 code := e.a.code ++
                   [.mov_rm (.virt e.a.gps)
                     (.const .kConstScopeGlobal (valueToNum var.value))] } })) ∧
    (jit_expression (.str TYPE_IDENTIFIER X) e =
        .error (.thrown ("USING " ++ X ++ " BEFORE DEFINED")) ↔
      umap_find e.state.vars X = none ∧ umap_find e.state.globals X = none) :=
  jit_identifier_cases X e

theorem main_init_demo : main_init demo_natives = some demo_env := by decide

/-- A local named `print` hides the global `print`: the load is from the local's slot. -/
theorem identifier_resolution_witness :
    umap_find shadow_env.state.vars "print" = some { type := some 0, stack_offset := 16 } ∧
    umap_find shadow_env.state.globals "print" = some { type := some 2, value := 1003 } ∧
    jit_expression (.str TYPE_IDENTIFIER "print") shadow_env =
      .ok ({ reg := .virt 1, type := some 0, is_method := false, object := .invalid },
           { shadow_env with
             a := { shadow_env.a with
               gps := 2
               code := [.func 0, .mov_rm (.virt 1) (.stack 0 16 8)] }
             state := { shadow_env.state with mem := .stack 0 16 8 } }) :=
  ⟨by decide, by decide,
    ((identifier_resolution "print" shadow_env).1 { type := some 0, stack_offset := 16 }
      (by decide)).1⟩

theorem does_not_have_ne (p : String) : "TYPE DOES NOT HAVE " ++ p ≠ "TYPE WAS NULL" := by
  intro h
  have h2 := congrArg String.data h
  simp at h2

theorem jit_index_cases (x : ProgramData) (ty : ProgramType) (property : String)
    (e e1 : Env) (exp : Expression) (hx : jit_expression x e = .ok (exp, e1)) :
    (jit_expression (.children TYPE_INDEX [x, .str ty property]) e =
        .error (.thrown "TYPE WAS NULL") ↔ exp.type = none) ∧
    (jit_expression (.children TYPE_INDEX [x, .str ty property]) e =
        .error (.thrown ("TYPE DOES NOT HAVE " ++ property)) ↔
      ∃ t : TypeObj, e1.g.deref exp.type = some t ∧
        umap_find t.function_lookup property = none) ∧
    (∀ (t : TypeObj) (n : Nat), e1.g.deref exp.type = some t →
      umap_find t.function_lookup property = some n →
      jit_expression (.children TYPE_INDEX [x, .str ty property]) e =
        .ok ({ reg := .virt (e1.a.gps + 1)
               type := t.functions.type.getD n none
               is_method := t.functions.is_method.getD n false
               object := .virt e1.a.gps },
             { e1 with
               a := { e1.a with
                 gps := e1.a.gps + 2
                 code := e1.a.code ++
                   [.mov_rr (.virt e1.a.gps) exp.reg,
                    .and_rm exp.reg (.const .kConstScopeLocal (valueToNum (not64 NUM_BIT))),
                    .mov_rm (.virt (e1.a.gps + 1)) (.base exp.reg 8 8),
                    .mov_rm (.virt (e1.a.gps + 1)) (.base (.virt (e1.a.gps + 1)) 0 0),
                    .mov_rm (.virt (e1.a.gps + 1))
                      (.base (.virt (e1.a.gps + 1)) (n * 8) 0)] } })) := by
  have hne := does_not_have_ne property
  have key : jit_expression (.children TYPE_INDEX [x, .str ty property]) e =
      jit_index exp property e1 := by
    simp only [jit_expression, hx]
  rw [key]
  unfold jit_index
  cases ht : exp.type with
  | none => simp [Globals.deref, Ne.symm hne]
  | some ti =>
    cases hd : e1.g.deref (some ti) with
    | none => simp [hd]
    | some t =>
      cases hf : umap_find t.function_lookup property with
      | none =>
        simp [hd, hf, hne]
        intro t1 n1 ht1
        subst ht1
        simp [hf]
      | some n =>
        simp [hd, hf, Env.newGpq, Env.emit, X86Compiler.newGpq, X86Compiler.emit, X86Mem.setSize,
          offsetof_Obj_funcs, sizeof_generic_fp]
        intro t1 n1 ht1 hn1
        subst ht1
        rw [hf] at hn1
        have hn : n = n1 := by simpa using hn1
        subst hn
        exact ⟨⟨rfl, rfl⟩, rfl⟩

/-- C2: let the object `a` of a property access `a.b` compile to `exp`.  Compiling `a.b`
throws `TYPE WAS NULL` exactly when the static type of `a` is null, and throws
`TYPE DOES NOT HAVE b` exactly when the static type points to a type whose lookup table
has no entry for `b`.  When the table has the entry `n` for `b`, the compilation succeeds:
the receiver is copied to a fresh register before its tag is masked off, the function
address is loaded from slot `n` (offset `8 * n`) of the method array, and the result
carries the declared return type and the is-method flag stored at slot `n`, and the copy
of the receiver. -/
theorem index_dispatch (x : ProgramData) (ty : ProgramType) (property : String)
    (e e1 : Env) (exp : Expression) (hx : jit_expression x e = .ok (exp, e1)) :
    (jit_expression (.children TYPE_INDEX [x, .str ty property]) e =
        .error (.thrown "TYPE WAS NULL") ↔ exp.type = none) ∧
    (jit_expression (.children TYPE_INDEX [x, .str ty property]) e =
        .error (.thrown ("TYPE DOES NOT HAVE " ++ property)) ↔
      ∃ t : TypeObj, e1.g.deref exp.type = some t ∧
        umap_find t.function_lookup property = none) ∧
    (∀ (t : TypeObj) (n : Nat), e1.g.deref exp.type = some t →
      umap_find t.function_lookup property = some n →
      jit_expression (.children TYPE_INDEX [x, .str ty property]) e =
        .ok ({ reg := .virt (e1.a.gps + 1)
               type := t.functions.type.getD n none
               is_method := t.functions.is_method.getD n false
               object := .virt e1.a.gps },
             { e1 with
               a := { e1.a with
                 gps := e1.a.gps + 2
                 code := e1.a.code ++
                   [.mov_rr (.virt e1.a.gps) exp.reg,
                    .and_rm exp.reg (.const .kConstScopeLocal (valueToNum (not64 NUM_BIT))),
                    .mov_rm (.virt (e1.a.gps + 1)) (.base exp.reg 8 8),
                    .mov_rm (.virt (e1.a.gps + 1)) (.base (.virt (e1.a.gps + 1)) 0 0),
                    .mov_rm (.virt (e1.a.gps + 1))
                      (.base (.virt (e1.a.gps + 1)) (n * 8) 0)] } })) :=
  jit_index_cases x ty property e e1 exp hx

/-- The access `make_list().add` in `demo_env`: the callee has static type `list`, `add`
is slot 0 of its table, an instance method returning "function returning list". -/
theorem index_dispatch_witness :
    ∃ (exp : Expression) (e1 : Env),
      jit_expression (call (ident "make_list") []) demo_env = .ok (exp, e1) ∧
      exp.type = some 0 ∧
      e1.g.deref exp.type = e1.g.heap[0]? ∧
      ∃ (r : Expression) (e2 : Env),
        jit_expression (.children TYPE_INDEX [call (ident "make_list") [], ident "add"])
          demo_env = .ok (r, e2) ∧
        r.type = some 1 ∧ r.is_method = true ∧ r.object = .virt 3 :=
  ⟨_, _, rfl, rfl, rfl, _, _,
    (index_dispatch (call (ident "make_list") []) TYPE_IDENTIFIER "add" demo_env _ _ rfl).2.2
      (demo_env.g.heap.get ⟨0, by decide⟩) 0 rfl rfl,
    rfl, rfl, rfl⟩

/-! ## The successful runs of `jit_expression` on a node with children -/

theorem jit_expression_children_ok (t : ProgramType) (vec : List ProgramData) (e : Env)
    (r : Expression) (e' : Env) (h : jit_expression (.children t vec) e = .ok (r, e')) :
    (t = TYPE_FUNCTION_DEF ∧ ∃ body rest, vec = body :: rest ∧
      jit_function_def body e = (r, e')) ∨
    (t = TYPE_INDEX ∧ ∃ x ty property rest exp e1, vec = x :: .str ty property :: rest ∧
      jit_expression x e = .ok (exp, e1) ∧ jit_index exp property e1 = .ok (r, e')) ∨
    (t = TYPE_FUNCTION ∧ ∃ callee rest exp e1 regs e2, vec = callee :: rest ∧
      jit_expression callee e = .ok (exp, e1) ∧ jit_arguments rest e1 = .ok (regs, e2) ∧
      jit_call exp regs (rest.length + 1) e2 = .ok (r, e')) ∨
    (is_binary t = true ∧ ∃ x y rest exp_a e1 exp_b e2, vec = x :: y :: rest ∧
      jit_expression x e = .ok (exp_a, e1) ∧ jit_expression y e1 = .ok (exp_b, e2) ∧
      jit_binary t exp_a.reg exp_b.reg e2 = some e' ∧
      r = Expression.plain exp_a.reg none) := by
  rcases vec with _ | ⟨x, _ | ⟨y, rest⟩⟩
  · cases t <;> simp [jit_expression, is_binary] at h
  · cases t <;> simp only [jit_expression, is_binary] at h <;>
      first
        | (simp at h; done)
        | (cases hx : jit_expression x e <;> (simp [hx] at h; done))
        | (left
           simp only [Except.ok.injEq] at h
           exact ⟨rfl, x, [], rfl, h⟩)
        | (right; right; left
           cases hx : jit_expression x e with
           | error err => simp [hx] at h
           | ok q =>
             obtain ⟨exp, e1⟩ := q
             simp only [hx, jit_arguments] at h
             exact ⟨rfl, x, [], exp, e1, [], e1, rfl, hx, rfl, h⟩)
  · cases t <;> simp only [jit_expression, is_binary] at h <;>
      first
        | (simp at h; done)
        | (left
           simp only [Except.ok.injEq] at h
           exact ⟨rfl, x, y :: rest, rfl, h⟩)
        | (right; left
           cases hx : jit_expression x e with
           | error err => simp [hx] at h
           | ok q =>
             obtain ⟨exp, e1⟩ := q
             simp only [hx] at h
             cases y with
             | str ty property => exact ⟨rfl, x, ty, property, rest, exp, e1, rfl, hx, h⟩
             | nullptr => cases h
             | integer v => cases h
             | children t2 v2 => cases h)
        | (right; right; left
           cases hx : jit_expression x e with
           | error err => simp [hx] at h
           | ok q =>
             obtain ⟨exp, e1⟩ := q
             simp only [hx] at h
             cases hr : jit_arguments (y :: rest) e1 with
             | error err => simp [hr] at h
             | ok q2 =>
               obtain ⟨regs, e2⟩ := q2
               simp only [hr] at h
               exact ⟨rfl, x, y :: rest, exp, e1, regs, e2, rfl, hx, hr, h⟩)
        | (right; right; right
           try simp only [if_true] at h
           cases hx : jit_expression x e with
           | error err => simp [hx] at h
           | ok q =>
             obtain ⟨exp_a, e1⟩ := q
             simp only [hx] at h
             cases hy : jit_expression y e1 with
             | error err => simp [hy] at h
             | ok q2 =>
               obtain ⟨exp_b, e2⟩ := q2
               simp only [hy] at h
               split at h
               · rename_i e3 hb
                 simp only [Except.ok.injEq, Prod.mk.injEq] at h
                 refine ⟨rfl, x, y, rest, exp_a, e1, exp_b, e2, rfl, hx, hy, ?_, h.1.symm⟩
                 rw [← h.2]
                 exact hb
               · cases h)

/-! ## What compilation keeps -/

theorem ProgramData.induct_children (P : ProgramData → Prop) (hnull : P .nullptr)
    (hint : ∀ v, P (.integer v)) (hstr : ∀ t s, P (.str t s))
    (hch : ∀ t vec, (∀ x, x ∈ vec → P x) → P (.children t vec)) : ∀ x, P x := by
  intro x
  exact @ProgramData.rec P (fun vec => ∀ x, x ∈ vec → P x)
    hnull hint hstr (fun t vec ih => hch t vec ih)
    (fun x hx => by simp at hx)
    (fun y ys hy hys x hx => by
      rcases List.mem_cons.mp hx with h | h
      · rw [h]; exact hy
      · exact hys x h) x

theorem Env.Frame.refl (e : Env) : e.Frame e :=
  ⟨rfl, List.prefix_refl _, List.prefix_refl _, fun _ => rfl⟩

theorem Env.Frame.trans {e1 e2 e3 : Env} (h12 : e1.Frame e2) (h23 : e2.Frame e3) :
    e1.Frame e3 := by
  obtain ⟨a1, a2, a3, a4⟩ := h12
  obtain ⟨b1, b2, b3, b4⟩ := h23
  refine ⟨b1.trans a1, a2.trans b2, a3.trans b3, ?_⟩
  intro hs
  have hg := a4 hs
  rw [b4 (by rw [hg]; exact hs), hg]

theorem Env.Frame.of_emit (e : Env) (i : Inst) : e.Frame (e.emit i) :=
  ⟨rfl, List.prefix_refl _, by simp [Env.emit, X86Compiler.emit], fun _ => rfl⟩

theorem Env.Frame.of_newGpq (e : Env) : e.Frame e.newGpq.2 :=
  ⟨rfl, List.prefix_refl _, by simp [Env.newGpq, X86Compiler.newGpq], fun _ => rfl⟩

theorem Env.Frame.of_newLabel (e : Env) : e.Frame e.newLabel.2 :=
  ⟨rfl, List.prefix_refl _, by simp [Env.newLabel, X86Compiler.newLabel], fun _ => rfl⟩

theorem jit_integer_frame (v : Int) (e : Env) : e.Frame (jit_integer v e).2 :=
  (Env.Frame.of_newGpq e).trans (Env.Frame.of_emit _ _)

theorem jit_function_def_frame (body : ProgramData) (e : Env) :
    e.Frame (jit_function_def body e).2 := by
  refine ⟨rfl, by simp [jit_function_def, Env.emit, Env.newGpq],
    by simp [jit_function_def, Env.emit, Env.newGpq, X86Compiler.emit, X86Compiler.newGpq,
      X86Compiler.newFunc], ?_⟩
  intro hs
  obtain ⟨r, hr⟩ := Option.isSome_iff_exists.mp hs
  simp [jit_function_def, Env.emit, Env.newGpq, get_return_type_hit e.g none r hr]

theorem jit_index_frame (exp : Expression) (property : String) (e : Env) (r : Expression)
    (e' : Env) (h : jit_index exp property e = .ok (r, e')) : e.Frame e' := by
  unfold jit_index at h
  split at h
  · cases h
  · split at h
    · cases h
    · split at h
      · cases h
      · simp only [Except.ok.injEq, Prod.mk.injEq] at h
        rw [← h.2]
        exact ((((((Env.Frame.of_newGpq e).trans (Env.Frame.of_emit _ _)).trans
          (Env.Frame.of_emit _ _)).trans (Env.Frame.of_newGpq _)).trans
          (Env.Frame.of_emit _ _)).trans (Env.Frame.of_emit _ _)).trans (Env.Frame.of_emit _ _)

theorem jit_identifier_frame (str : String) (e : Env) (r : Expression) (e' : Env)
    (h : jit_identifier str e = .ok (r, e')) : e.Frame e' := by
  unfold jit_identifier at h
  split at h
  · simp only [Except.ok.injEq, Prod.mk.injEq] at h
    rw [← h.2]
    exact ⟨rfl, List.prefix_refl _,
      by simp [Env.emit, Env.newGpq, X86Compiler.emit, X86Compiler.newGpq], fun _ => rfl⟩
  · split at h
    · simp only [Except.ok.injEq, Prod.mk.injEq] at h
      rw [← h.2]
      exact (Env.Frame.of_newGpq e).trans (Env.Frame.of_emit _ _)
    · cases h

theorem jit_call_frame (exp : Expression) (regs : List X86Gp) (size : Nat) (e : Env)
    (r : Expression) (e' : Env) (h : jit_call exp regs size e = .ok (r, e')) :
    e.Frame e' := by
  unfold jit_call at h
  simp only at h
  split at h
  · cases h
  · split at h
    · cases h
    · simp only [Except.ok.injEq, Prod.mk.injEq] at h
      rw [← h.2]
      exact (Env.Frame.of_newGpq e).trans (Env.Frame.of_emit _ _)

theorem jit_binary_frame (type : ProgramType) (reg_a reg_b : X86Gp) (e e' : Env)
    (h : jit_binary type reg_a reg_b e = some e') : e.Frame e' := by
  cases type <;> simp only [jit_binary] at h <;> cases h <;>
    first
      | exact Env.Frame.of_emit _ _
      | exact (Env.Frame.of_emit _ _).trans (Env.Frame.of_emit _ _)

theorem jit_arguments_frame (vec : List ProgramData)
    (ih : ∀ x, x ∈ vec → ∀ (e : Env) (r : Expression) (e' : Env),
      jit_expression x e = .ok (r, e') → e.Frame e') :
    ∀ (e : Env) (regs : List X86Gp) (e' : Env),
      jit_arguments vec e = .ok (regs, e') → e.Frame e' ∧ regs.length = vec.length := by
  induction vec with
  | nil =>
    intro e regs e' h
    simp only [jit_arguments, Except.ok.injEq, Prod.mk.injEq] at h
    rw [← h.2, ← h.1]
    exact ⟨Env.Frame.refl e, rfl⟩
  | cons x rest ihl =>
    intro e regs e' h
    simp only [jit_arguments] at h
    cases hx : jit_expression x e with
    | error err => simp [hx] at h
    | ok p =>
      obtain ⟨exp, e1⟩ := p
      simp only [hx] at h
      cases hr : jit_arguments rest e1 with
      | error err => simp [hr] at h
      | ok q =>
        obtain ⟨regs1, e2⟩ := q
        simp only [hr, Except.ok.injEq, Prod.mk.injEq] at h
        have h1 := ih x (List.mem_cons_self _ _) e exp e1 hx
        have h2 := ihl (fun y hy => ih y (List.mem_cons_of_mem _ hy)) e1 regs1 e2 hr
        rw [← h.2, ← h.1]
        exact ⟨h1.trans h2.1, by simp [h2.2]⟩

theorem jit_expression_frame : ∀ (x : ProgramData) (e : Env) (r : Expression) (e' : Env),
    jit_expression x e = .ok (r, e') → e.Frame e' := by
  intro x
  induction x using ProgramData.induct_children with
  | hnull => intro e r e' h; simp [jit_expression] at h
  | hint v =>
    intro e r e' h
    simp only [jit_expression, Except.ok.injEq] at h
    have := jit_integer_frame v e
    rw [h] at this
    exact this
  | hstr t s =>
    intro e r e' h
    cases t <;> simp only [jit_expression] at h <;> first
      | cases h
      | exact jit_identifier_frame s e r e' h
  | hch t vec ih =>
    intro e r e' h
    rcases jit_expression_children_ok t vec e r e' h with
      ⟨_, body, rest, _, hd⟩ | ⟨_, x, ty, property, rest, exp, e1, hv, hx, hi⟩ |
      ⟨_, callee, rest, exp, e1, regs, e2, hv, hx, hr, hc⟩ |
      ⟨_, x, y, rest, exp_a, e1, exp_b, e2, hv, hx, hy, hb, _⟩
    · have := jit_function_def_frame body e
      rw [hd] at this
      exact this
    · subst hv
      exact (ih x (by simp) e exp e1 hx).trans (jit_index_frame exp property e1 r e' hi)
    · subst hv
      have h1 := ih callee (by simp) e exp e1 hx
      have h2 := (jit_arguments_frame rest
        (fun y hy => ih y (List.mem_cons_of_mem _ hy)) e1 regs e2 hr).1
      exact (h1.trans h2).trans (jit_call_frame exp regs _ e2 r e' hc)
    · subst hv
      have h1 := ih x (by simp) e exp_a e1 hx
      have h2 := ih y (by simp) e1 exp_b e2 hy
      exact (h1.trans h2).trans (jit_binary_frame _ _ _ e2 e' hb)

theorem jit_assignment_frame (exp : Expression) (var : String) (e : Env) :
    e.Frame (jit_assignment exp var e) := by
  unfold jit_assignment
  refine ⟨?_, ?_, ?_, fun _ => rfl⟩
  · cases h : umap_find e.state.vars var <;> simp [h, Env.emit]
  · cases h : umap_find e.state.vars var <;> simp [h, Env.emit]
  · cases h : umap_find e.state.vars var <;> simp [h, Env.emit, X86Compiler.emit]

theorem jit_block_frame (vec : List ProgramData)
    (ih : ∀ x, x ∈ vec → ∀ (e e' : Env), jit_statement x e = .ok e' → e.Frame e') :
    ∀ (e e' : Env), jit_block vec e = .ok e' → e.Frame e' := by
  induction vec with
  | nil =>
    intro e e' h
    simp only [jit_block, Except.ok.injEq] at h
    rw [← h]
    exact Env.Frame.refl e
  | cons x rest ihl =>
    intro e e' h
    simp only [jit_block] at h
    cases hx : jit_statement x e with
    | error err => simp [hx] at h
    | ok e1 =>
      simp only [hx] at h
      exact (ih x (List.mem_cons_self _ _) e e1 hx).trans
        (ihl (fun y hy => ih y (List.mem_cons_of_mem _ hy)) e1 e' h)

theorem jit_statement_frame : ∀ (s : ProgramData) (e e' : Env),
    jit_statement s e = .ok e' → e.Frame e' := by
  intro s
  induction s using ProgramData.induct_children with
  | hnull =>
    intro e e' h
    simp only [jit_statement] at h
    split at h
    · cases h
    · rename_i r e1 hx
      simp only [Except.ok.injEq] at h
      rw [← h]
      exact jit_expression_frame _ e r e1 hx
  | hint v =>
    intro e e' h
    simp only [jit_statement] at h
    split at h
    · cases h
    · rename_i r e1 hx
      simp only [Except.ok.injEq] at h
      rw [← h]
      exact jit_expression_frame _ e r e1 hx
  | hstr t s =>
    intro e e' h
    simp only [jit_statement] at h
    split at h
    · cases h
    · rename_i r e1 hx
      simp only [Except.ok.injEq] at h
      rw [← h]
      exact jit_expression_frame _ e r e1 hx
  | hch t vec ih =>
    intro e e' h
    cases t
    case TYPE_ASSIGNMENT =>
      rcases vec with _ | ⟨target, _ | ⟨rhs, rest⟩⟩
      · simp [jit_statement] at h
      · simp [jit_statement] at h
      · simp only [jit_statement] at h
        cases hx : jit_expression rhs e with
        | error err => simp [hx] at h
        | ok q =>
          obtain ⟨exp, e1⟩ := q
          simp only [hx] at h
          have h1 := jit_expression_frame rhs e exp e1 hx
          cases target with
          | str ty var =>
            simp only [Except.ok.injEq] at h
            rw [← h]
            exact h1.trans (jit_assignment_frame exp var e1)
          | nullptr => cases h
          | integer v => cases h
          | children t2 v2 => cases h
    case TYPE_RETURN =>
      rcases vec with _ | ⟨x, rest⟩
      · simp [jit_statement] at h
      · simp only [jit_statement] at h
        cases hx : jit_expression x e with
        | error err => simp [hx] at h
        | ok q =>
          obtain ⟨exp, e1⟩ := q
          simp only [hx, Except.ok.injEq] at h
          rw [← h]
          exact (jit_expression_frame x e exp e1 hx).trans (Env.Frame.of_emit _ _)
    case TYPE_BLOCK =>
      simp only [jit_statement] at h
      exact jit_block_frame vec ih e e' h
    case TYPE_IF =>
      rcases vec with _ | ⟨cond, _ | ⟨thenb, _ | ⟨elseb, rest⟩⟩⟩
      · simp [jit_statement] at h
      · simp only [jit_statement] at h
        cases hx : jit_expression cond e.newLabel.2.newLabel.2 <;> simp [hx] at h
      · simp only [jit_statement] at h
        cases hx : jit_expression cond e.newLabel.2.newLabel.2 with
        | error err => simp [hx] at h
        | ok q =>
          obtain ⟨exp, e1⟩ := q
          simp only [hx] at h
          cases ht : jit_statement thenb ((e1.emit (.cmp_ri exp.reg 0)).emit
              (.je e.newLabel.1)) <;> simp [ht] at h
      · simp only [jit_statement] at h
        cases hx : jit_expression cond e.newLabel.2.newLabel.2 with
        | error err => simp [hx] at h
        | ok q =>
          obtain ⟨exp, e1⟩ := q
          simp only [hx] at h
          have h0 : e.Frame e.newLabel.2.newLabel.2 :=
            (Env.Frame.of_newLabel e).trans (Env.Frame.of_newLabel _)
          have h1 := h0.trans (jit_expression_frame cond _ exp e1 hx)
          cases ht : jit_statement thenb ((e1.emit (.cmp_ri exp.reg 0)).emit
              (.je e.newLabel.1)) with
          | error err => simp [ht] at h
          | ok e2 =>
            simp only [ht] at h
            have h2 := (h1.trans ((Env.Frame.of_emit _ _).trans (Env.Frame.of_emit _ _))).trans
              (ih thenb (by simp) _ e2 ht)
            have h3 := h2.trans ((Env.Frame.of_emit e2 (.jmp e.newLabel.2.newLabel.1)).trans
              (Env.Frame.of_emit _ (.bind e.newLabel.1)))
            cases elseb with
            | nullptr =>
              simp only [Except.ok.injEq] at h
              rw [← h]
              exact h3.trans (Env.Frame.of_emit _ _)
            | integer v =>
              simp only at h
              cases he : jit_statement (.integer v) ((e2.emit
                  (.jmp e.newLabel.2.newLabel.1)).emit (.bind e.newLabel.1)) with
              | error err => simp [he] at h
              | ok e3 =>
                simp only [he, Except.ok.injEq] at h
                rw [← h]
                exact (h3.trans (ih _ (by simp) _ e3 he)).trans (Env.Frame.of_emit _ _)
            | str ty v =>
              simp only at h
              cases he : jit_statement (.str ty v) ((e2.emit
                  (.jmp e.newLabel.2.newLabel.1)).emit (.bind e.newLabel.1)) with
              | error err => simp [he] at h
              | ok e3 =>
                simp only [he, Except.ok.injEq] at h
                rw [← h]
                exact (h3.trans (ih _ (by simp) _ e3 he)).trans (Env.Frame.of_emit _ _)
            | children t2 v2 =>
              simp only at h
              cases he : jit_statement (.children t2 v2) ((e2.emit
                  (.jmp e.newLabel.2.newLabel.1)).emit (.bind e.newLabel.1)) with
              | error err => simp [he] at h
              | ok e3 =>
                simp only [he, Except.ok.injEq] at h
                rw [← h]
                exact (h3.trans (ih _ (by simp) _ e3 he)).trans (Env.Frame.of_emit _ _)
    case TYPE_WHILE =>
      rcases vec with _ | ⟨cond, _ | ⟨body, rest⟩⟩
      · simp [jit_statement] at h
      · simp only [jit_statement] at h
        cases hx : jit_expression cond (e.newLabel.2.newLabel.2.emit (.bind e.newLabel.1)) <;>
          simp [hx] at h
      · simp only [jit_statement] at h
        cases hx : jit_expression cond (e.newLabel.2.newLabel.2.emit (.bind e.newLabel.1)) with
        | error err => simp [hx] at h
        | ok q =>
          obtain ⟨exp, e1⟩ := q
          simp only [hx] at h
          have h0 : e.Frame (e.newLabel.2.newLabel.2.emit (.bind e.newLabel.1)) :=
            ((Env.Frame.of_newLabel e).trans (Env.Frame.of_newLabel _)).trans (Env.Frame.of_emit _ _)
          have h1 := h0.trans (jit_expression_frame cond _ exp e1 hx)
          cases hb : jit_statement body ((e1.emit (.cmp_ri exp.reg 0)).emit
              (.je e.newLabel.2.newLabel.1)) with
          | error err => simp [hb] at h
          | ok e2 =>
            simp only [hb, Except.ok.injEq] at h
            rw [← h]
            exact ((h1.trans ((Env.Frame.of_emit _ _).trans (Env.Frame.of_emit _ _))).trans
              (ih body (by simp) _ e2 hb)).trans
              ((Env.Frame.of_emit _ _).trans (Env.Frame.of_emit _ _))
    all_goals
      simp only [jit_statement] at h
      split at h
      · cases h
      · rename_i r e1 hx
        simp only [Except.ok.injEq] at h
        rw [← h]
        exact jit_expression_frame _ e r e1 hx

/-! ## `jit_expression`: calls -/

theorem jit_call_signature (exp : Expression) (regs : List X86Gp) (e : Env) (r : Expression)
    (e' : Env) (h : jit_call exp regs (regs.length + 1) e = .ok (r, e')) :
    ∃ node : CCFuncCall, e'.a.code = e.a.code ++ [.call node] ∧
      node.signature = regs.length + 1 + (if exp.is_method then 1 else 0) := by
  unfold jit_call at h
  simp only at h
  split at h
  · cases h
  · rename_i n hn
    split at h
    · cases h
    · simp only [Except.ok.injEq, Prod.mk.injEq] at h
      rw [← h.2]
      refine ⟨_, by simp [Env.emit, Env.newGpq, X86Compiler.emit, X86Compiler.newGpq]; rfl, ?_⟩
      simp only [CCFuncCall.setRet]
      have hsig : ∀ (m : Nat) (node : CCFuncCall) (off : Nat) (args : List X86Gp),
          (set_args off args m node).signature = node.signature := by
        intro m
        induction m with
        | zero => intro node off args; rfl
        | succ m ih => intro node off args; simp [set_args, CCFuncCall.setArg, ih]
      rw [hsig]
      have hcs : ∀ k m : Nat, call_signature k = some m → m = k := by
        intro k m hk
        unfold call_signature at hk
        split at hk <;> simp at hk <;> omega
      have := hcs _ _ hn
      split <;> simp_all [CCFuncCall.setArg]

/-- C1 (what the code does): the call `make_list()`, with no explicit argument and a plain
function as callee, is emitted with the 1-argument signature, its only argument slot
bound to no register; the bound-method call `make_list().add(7)`, with one explicit
argument, is emitted with the 3-argument signature: the receiver in slot 0, the explicit
argument in slot 1 and no register in slot 2. -/
theorem call_signature_counts_callee :
    (∃ (r : Expression) (e1 : Env),
      jit_expression (call (ident "make_list") []) demo_env = .ok (r, e1) ∧
      e1.a.code = demo_env.a.code ++
        [.mov_rm (.virt 1) (.const .kConstScopeGlobal 1000),
         .call { target := .virt 1, signature := 1, args := [.invalid], ret := .virt 2 }]) ∧
    (∃ (r : Expression) (e1 : Env),
      jit_expression (call (index (call (ident "make_list") []) "add") [.integer 7]) demo_env =
        .ok (r, e1) ∧
      e1.a.code.getLast? =
        some (.call { target := .virt 4, signature := 3
                      args := [.virt 3, .virt 5, .invalid], ret := .virt 6 })) :=
  ⟨⟨_, _, rfl, rfl⟩, ⟨_, _, rfl, rfl⟩⟩

/-- C9 (what the code does): for the call `print(1, 2, 3, 4, 5)` no `case` of the `switch`
matches (the value switched on is 6), nothing is thrown and the uninitialised `node` is
used; the same happens for `print(1, 2, 3, 4)`, for which the value switched on is 5. -/
theorem call_arity_not_checked :
    jit_expression
      (call (ident "print") [.integer 1, .integer 2, .integer 3, .integer 4, .integer 5])
      demo_env = .error .undefined ∧
    jit_expression (call (ident "print") [.integer 1, .integer 2, .integer 3, .integer 4])
      demo_env = .error .undefined ∧
    call_signature (5 + 1 + 0) = none ∧
    call_signature (4 + 1 + 0) = none ∧
    ∀ what : String, Abort.undefined ≠ Abort.thrown what :=
  ⟨rfl, rfl, rfl, rfl, fun _ h => by cases h⟩

/-! ## The driver: deferred function bodies -/

theorem compile_statements_frame (program : List ProgramData) :
    ∀ (e e' : Env), compile_statements program e = .ok e' → e.Frame e' := by
  induction program with
  | nil =>
    intro e e' h
    simp only [compile_statements, Except.ok.injEq] at h
    rw [← h]
    exact Env.Frame.refl e
  | cons s rest ih =>
    intro e e' h
    simp only [compile_statements] at h
    cases hs : jit_statement s e with
    | error err => simp [hs] at h
    | ok e1 =>
      simp only [hs] at h
      exact (jit_statement_frame s e e1 hs).trans (ih e1 e' h)

/-- C4: deferred function bodies are compiled first in, first out.  Compiling a statement
only appends to the worklist, so does the loop over the top-level statements, which
`main` runs to its end before it opens any deferred function; one turn of the second loop
opens the function at the front of the worklist, compiles its body against the rest of
the worklist and leaves the rest followed by the definitions met in that body.  For
`f = function() { g = function() { return 1 } return 2 }` the emitted code is the
top-level function (label 0), then `f` (label 1), then `g` (label 2). -/
theorem deferred_fifo :
    (∀ (s : ProgramData) (e e' : Env), jit_statement s e = .ok e' →
      ∃ new, e'.state.remainders = e.state.remainders ++ new) ∧
    (∀ (program : List ProgramData) (e e' : Env), compile_statements program e = .ok e' →
      ∃ new, e'.state.remainders = e.state.remainders ++ new) ∧
    (∀ (fp : NativeFunctions) (program : List ProgramData) (fuel : Nat) (e : Env),
      main_compile fp program fuel = .ok (some e) →
      ∃ e0 e1, main_init fp = some e0 ∧ compile_statements program e0 = .ok e1 ∧
        drain fuel (e1.emit .endFunc) = .ok (some e)) ∧
    (∀ (e e' : Env) (frem : FunctionRemainder) (rest : List FunctionRemainder),
      e.state.remainders = frem :: rest → drain_step e = .ok e' →
      ∃ new body, e'.state.remainders = rest ++ new ∧
        e'.a.code = e.a.code ++ .func frem.func :: body) ∧
    (∃ e : Env, main_compile demo_natives nested_program 2 = .ok (some e) ∧
      e.state.remainders = [] ∧
      e.a.code =
        [.func 0,
         .lea (.virt 1) (.label 1),
         .mov_mr (.stack 0 0 8) (.virt 1),
         .endFunc,
         .func 1,
         .lea (.virt 3) (.label 2),
         .mov_mr (.stack 1 0 8) (.virt 3),
         .mov_rm (.virt 4) (.const .kConstScopeLocal 2),
         .ret (.virt 4),
         .mov_ri (.virt 5) 0,
         .ret (.virt 5),
         .endFunc,
         .func 2,
         .mov_rm (.virt 7) (.const .kConstScopeLocal 1),
         .ret (.virt 7),
         .mov_ri (.virt 8) 0,
         .ret (.virt 8),
         .endFunc]) := by
  refine ⟨?_, ?_, ?_, ?_, ⟨_, rfl, rfl, rfl⟩⟩
  · intro s e e' h
    obtain ⟨new, hnew⟩ := (jit_statement_frame s e e' h).2.1
    exact ⟨new, hnew.symm⟩
  · intro program e e' h
    obtain ⟨new, hnew⟩ := (compile_statements_frame program e e' h).2.1
    exact ⟨new, hnew.symm⟩
  · intro fp program fuel e h
    unfold main_compile at h
    cases h0 : main_init fp with
    | none => simp [h0] at h
    | some e0 =>
      simp only [h0] at h
      cases h1 : compile_statements program e0 with
      | error err => simp [h1] at h
      | ok e1 =>
        simp only [h1] at h
        exact ⟨e0, e1, rfl, h1, h⟩
  · intro e e' frem rest hrem h
    unfold drain_step at h
    simp only [hrem] at h
    split at h
    · cases h
    · rename_i e1 hs
      simp only [Except.ok.injEq] at h
      obtain ⟨_, ⟨new, hnew⟩, ⟨body, hbody⟩, _⟩ := jit_statement_frame _ _ _ hs
      refine ⟨new, body ++ [.mov_ri e1.newGpq.1 0, .ret e1.newGpq.1, .endFunc], ?_, ?_⟩
      · rw [← h]
        simpa [Env.emit, Env.newGpq] using hnew.symm
      · rw [← h]
        simp only [Env.emit, Env.newGpq, X86Compiler.emit, X86Compiler.newGpq,
          X86Compiler.newStack] at hbody ⊢
        rw [← hbody]
        simp

/-- The second loop of `main` on a worklist of two entries: the first is compiled and the
second stays at the front. -/
theorem deferred_fifo_witness :
    two_pending_env.state.remainders =
      [⟨5, .children TYPE_BLOCK []⟩, ⟨6, .children TYPE_BLOCK []⟩] ∧
    ∃ e' : Env, drain_step two_pending_env = .ok e' ∧
      ∃ new body, e'.state.remainders = [⟨6, .children TYPE_BLOCK []⟩] ++ new ∧
        e'.a.code = two_pending_env.a.code ++ .func 5 :: body :=
  ⟨rfl, _, rfl, deferred_fifo.2.2.2.1 two_pending_env _ ⟨5, .children TYPE_BLOCK []⟩
    [⟨6, .children TYPE_BLOCK []⟩] rfl rfl⟩

/-! ## Typing of the calls on lists -/

theorem main_init_facts (fp : NativeFunctions) :
    ∃ e0 : Env, main_init fp = some e0 ∧ e0.g.list_type = some 0 ∧
      umap_find e0.state.globals "make_list" = some ⟨some 1, fp.make_list⟩ ∧
      (umap_find e0.g.return_types none).isSome ∧
      (∃ t, e0.g.deref (some 0) = some t ∧
        umap_find t.function_lookup "add" = some 0 ∧
        t.functions.type.getD 0 none = some 1 ∧
        t.functions.is_method.getD 0 false = true ∧
        umap_find t.function_lookup "count" = some 1 ∧
        t.functions.type.getD 1 none = some 2 ∧
        t.functions.is_method.getD 1 false = true) ∧
      (∃ t, e0.g.deref (some 1) = some t ∧ t.return_type = some 0) ∧
      (∃ t, e0.g.deref (some 2) = some t ∧ t.return_type = none) :=
  ⟨_, rfl, rfl, rfl, rfl, ⟨_, rfl, rfl, rfl, rfl, rfl, rfl, rfl⟩, ⟨_, rfl, rfl⟩, ⟨_, rfl, rfl⟩⟩

theorem Env.Registered.keep {fp : NativeFunctions} {e e' : Env} (h : e.Registered fp)
    (hf : e.Frame e') : e'.Registered fp := by
  obtain ⟨e0, h0, hg, hgl⟩ := h
  obtain ⟨e0', h0', _, _, hmemo, _⟩ := main_init_facts fp
  have : e0' = e0 := by
    rw [h0] at h0'
    exact (Option.some.inj h0').symm
  subst this
  refine ⟨e0', h0, ?_, ?_⟩
  · rw [hf.2.2.2 (by rw [hg]; exact hmemo), hg]
  · rw [hf.1, hgl]

theorem set_args_below (off : Nat) (args : List X86Gp) (i : Nat) (hi : i < off) :
    ∀ (m : Nat) (node : CCFuncCall), (set_args off args m node).args[i]? = node.args[i]? := by
  intro m
  induction m with
  | zero => intro node; rfl
  | succ m ih =>
    intro node
    simp only [set_args, CCFuncCall.setArg]
    rw [List.getElem?_set_ne (by omega)]
    exact ih node

theorem set_args_signature (off : Nat) (args : List X86Gp) :
    ∀ (m : Nat) (node : CCFuncCall), (set_args off args m node).signature = node.signature := by
  intro m
  induction m with
  | zero => intro node; rfl
  | succ m ih => intro node; simp [set_args, CCFuncCall.setArg, ih]

theorem call_signature_some (k m : Nat) (h : call_signature k = some m) : m = k ∧ k ≤ 4 := by
  unfold call_signature at h
  split at h <;> simp at h <;> omega

theorem call_typed (callee : ProgramData) (args : List ProgramData) (e e1 e2 : Env)
    (exp : Expression) (regs : List X86Gp) (t : TypeObj)
    (hc : jit_expression callee e = .ok (exp, e1))
    (ha : jit_arguments args e1 = .ok (regs, e2))
    (hd : e2.g.deref exp.type = some t)
    (hs : args.length + 1 + (if exp.is_method then 1 else 0) ≤ 4) :
    ∃ (node : CCFuncCall) (e3 : Env),
      jit_expression (call callee args) e =
        .ok (Expression.plain (.virt e2.a.gps) t.return_type, e3) ∧
      e2.Frame e3 ∧
      e3.a.code = e2.a.code ++ [.call node] ∧
      node.signature = args.length + 1 + (if exp.is_method then 1 else 0) ∧
      (exp.is_method = true → node.args[0]? = some exp.object) := by
  have hsig : ∃ n, call_signature (args.length + 1 + (if exp.is_method then 1 else 0)) =
      some n := by
    generalize args.length + 1 + (if exp.is_method then 1 else 0) = k at hs
    unfold call_signature
    rcases k with _ | _ | _ | _ | _ | k
    · exact ⟨_, rfl⟩
    · exact ⟨_, rfl⟩
    · exact ⟨_, rfl⟩
    · exact ⟨_, rfl⟩
    · exact ⟨_, rfl⟩
    · omega
  obtain ⟨n, hn⟩ := hsig
  have hn2 := (call_signature_some _ _ hn).1
  have hcall : jit_expression (call callee args) e = jit_call exp regs (args.length + 1) e2 := by
    simp only [call, jit_expression, hc, ha]
  rw [hcall]
  unfold jit_call
  simp only [hn]
  have hd' : (e2.newGpq.2.emit (Inst.call
      ((set_args (if exp.is_method then 1 else 0)
        (regs ++ List.replicate (args.length + 1 - regs.length) default) (args.length + 1)
        (if exp.is_method = true
          then CCFuncCall.setArg ⟨exp.reg, n, List.replicate n default, .invalid⟩ 0 exp.object
          else ⟨exp.reg, n, List.replicate n default, .invalid⟩)).setRet
        e2.newGpq.1))).g.deref exp.type = some t := hd
  simp only [hd']
  refine ⟨_, _, rfl, (Env.Frame.of_newGpq e2).trans (Env.Frame.of_emit _ _), rfl, ?_, ?_⟩
  · simp only [CCFuncCall.setRet, set_args_signature]
    by_cases hm : exp.is_method = true
    · simp only [hm, if_true, CCFuncCall.setArg]
      rw [hn2, hm]
      rfl
    · simp only [hm, if_false]
      rw [hn2]
      simp [hm]
  · intro hm
    simp only [CCFuncCall.setRet, hm, if_true]
    rw [set_args_below 1 _ 0 (by omega)]
    simp only [CCFuncCall.setArg]
    rw [List.getElem?_set_self]
    simp only [List.length_replicate]
    rw [hn2]
    omega

theorem Env.Registered.known {fp : NativeFunctions} {e : Env} (h : e.Registered fp) :
    e.g.list_type = some 0 ∧
    umap_find e.state.globals "make_list" = some ⟨some 1, fp.make_list⟩ ∧
    (∃ t, e.g.deref (some 0) = some t ∧
      umap_find t.function_lookup "add" = some 0 ∧
      t.functions.type.getD 0 none = some 1 ∧
      t.functions.is_method.getD 0 false = true ∧
      umap_find t.function_lookup "count" = some 1 ∧
      t.functions.type.getD 1 none = some 2 ∧
      t.functions.is_method.getD 1 false = true) ∧
    (∃ t, e.g.deref (some 1) = some t ∧ t.return_type = some 0) ∧
    (∃ t, e.g.deref (some 2) = some t ∧ t.return_type = none) := by
  obtain ⟨e0, h0, hg, hgl⟩ := h
  obtain ⟨e0', h0', f1, f2, _, f3, f4, f5⟩ := main_init_facts fp
  have : e0' = e0 := by
    rw [h0] at h0'
    exact (Option.some.inj h0').symm
  subst this
  rw [hg, hgl]
  exact ⟨f1, f2, f3, f4, f5⟩

theorem method_call_typed (fp : NativeFunctions) (name : String) (slot : Nat)
    (ftype : Nat) (result : TypePtr) (x : ProgramData) (e e1 : Env) (rx : Expression)
    (hreg : e.Registered fp) (hx : jit_expression x e = .ok (rx, e1))
    (htype : rx.type = e.g.list_type)
    (hslot : ∀ t, e.g.deref (some 0) = some t →
      umap_find t.function_lookup name = some slot ∧
      t.functions.type.getD slot none = some ftype ∧
      t.functions.is_method.getD slot false = true)
    (hres : ∀ t, e.g.deref (some ftype) = some t → t.return_type = result)
    (hft : ∃ t, e.g.deref (some ftype) = some t) :
    ∃ ri e2, jit_expression (index x name) e = .ok (ri, e2) ∧ ri.is_method = true ∧
      ri.type = some ftype ∧ e2.Registered fp ∧
      ∀ (args : List ProgramData) (regs : List X86Gp) (e3 : Env),
        jit_arguments args e2 = .ok (regs, e3) → e2.Frame e3 → args.length ≤ 2 →
        ∃ r e4 node, jit_expression (call (index x name) args) e = .ok (r, e4) ∧
          r.type = result ∧ e4.Registered fp ∧
          e4.a.code = e3.a.code ++ [.call node] ∧ node.args[0]? = some ri.object := by
  have hreg1 := hreg.keep (jit_expression_frame x e rx e1 hx)
  obtain ⟨hl, _, ⟨t, ht, _⟩, _, _⟩ := hreg.known
  have hg1 : e1.g = e.g := by
    obtain ⟨e0, h0, hg, _⟩ := hreg
    obtain ⟨e0', h0', hg', _⟩ := hreg1
    rw [h0] at h0'
    have : e0 = e0' := Option.some.inj h0'
    subst this
    rw [hg, hg']
  obtain ⟨hs1, hs2, hs3⟩ := hslot t ht
  have hrx : rx.type = some 0 := by rw [htype, hl]
  have hd1 : e1.g.deref rx.type = some t := by rw [hg1, hrx]; exact ht
  have hidx := (jit_index_cases x TYPE_IDENTIFIER name e e1 rx hx).2.2 t slot hd1 hs1
  rw [hs2, hs3] at hidx
  refine ⟨_, _, hidx, rfl, rfl, ?_, ?_⟩
  · obtain ⟨e0, h0, hg, hgl⟩ := hreg1
    exact ⟨e0, h0, hg, hgl⟩
  · intro args regs e3 ha hf3 hlen
    have hreg2 : Env.Registered fp
        { e1 with a := { e1.a with gps := e1.a.gps + 2, code := e1.a.code ++
          [.mov_rr (.virt e1.a.gps) rx.reg,
           .and_rm rx.reg (.const .kConstScopeLocal (valueToNum (not64 NUM_BIT))),
           .mov_rm (.virt (e1.a.gps + 1)) (.base rx.reg 8 8),
           .mov_rm (.virt (e1.a.gps + 1)) (.base (.virt (e1.a.gps + 1)) 0 0),
           .mov_rm (.virt (e1.a.gps + 1)) (.base (.virt (e1.a.gps + 1)) (slot * 8) 0)] } } := by
      obtain ⟨e0, h0, hg, hgl⟩ := hreg1
      exact ⟨e0, h0, hg, hgl⟩
    have hreg3 := hreg2.keep hf3
    have hg3 : e3.g = e.g := by
      obtain ⟨e0, h0, hg, _⟩ := hreg
      obtain ⟨e0', h0', hg', _⟩ := hreg3
      rw [h0] at h0'
      have : e0 = e0' := Option.some.inj h0'
      subst this
      rw [hg, hg']
    obtain ⟨t1, ht1⟩ := hft
    have hd3 : e3.g.deref (some ftype) = some t1 := by rw [hg3]; exact ht1
    obtain ⟨node, e4, hcall, hf4, hcode, _, hrecv⟩ :=
      call_typed (index x name) args e _ e3 _ regs t1 hidx ha hd3 (by simp; omega)
    refine ⟨_, e4, node, hcall, ?_, hreg3.keep hf4, hcode, hrecv rfl⟩
    simp only [Expression.plain]
    exact hres t1 ht1

theorem add_call_typed (fp : NativeFunctions) (x v : ProgramData) (e e1 : Env)
    (rx : Expression) (hreg : e.Registered fp) (hx : jit_expression x e = .ok (rx, e1))
    (htype : rx.type = e.g.list_type) :
    ∃ ri e2, jit_expression (index x "add") e = .ok (ri, e2) ∧ ri.is_method = true ∧
      e2.Registered fp ∧
      ∀ (rv : Expression) (e3 : Env), jit_expression v e2 = .ok (rv, e3) →
        ∃ r e4 node, jit_expression (call (index x "add") [v]) e = .ok (r, e4) ∧
          r.type = e.g.list_type ∧ e4.Registered fp ∧
          e4.a.code = e3.a.code ++ [.call node] ∧ node.args[0]? = some ri.object := by
  obtain ⟨hl, _, ⟨t, ht, f1, f2, f3, _⟩, ⟨t1, ht1, hr1⟩, _⟩ := hreg.known
  obtain ⟨ri, e2, hidx, hm, _, hreg2, hcall⟩ :=
    method_call_typed fp "add" 0 1 (some 0) x e e1 rx hreg hx htype
      (fun t' ht' => by
        rw [ht] at ht'
        have : t = t' := Option.some.inj ht'
        subst this
        exact ⟨f1, f2, f3⟩)
      (fun t' ht' => by
        rw [ht1] at ht'
        have : t1 = t' := Option.some.inj ht'
        subst this
        exact hr1)
      ⟨t1, ht1⟩
  refine ⟨ri, e2, hidx, hm, hreg2, ?_⟩
  intro rv e3 hv
  have ha : jit_arguments [v] e2 = .ok ([rv.reg], e3) := by
    simp only [jit_arguments, hv]
  obtain ⟨r, e4, node, h1, h2, h3, h4, h5⟩ :=
    hcall [v] [rv.reg] e3 ha (jit_expression_frame v e2 rv e3 hv) (by simp)
  exact ⟨r, e4, node, h1, by rw [h2, hl], h3, h4, h5⟩

theorem add_chain_typed (fp : NativeFunctions) (ns : List Int) :
    ∀ (x : ProgramData) (e e1 : Env) (rx : Expression), e.Registered fp →
      jit_expression x e = .ok (rx, e1) → rx.type = e.g.list_type →
      ∃ r e', jit_expression (add_chain x ns) e = .ok (r, e') ∧ r.type = e.g.list_type := by
  induction ns with
  | nil =>
    intro x e e1 rx _ hx htype
    exact ⟨rx, e1, hx, htype⟩
  | cons n ns ih =>
    intro x e e1 rx hreg hx htype
    obtain ⟨ri, e2, _, _, _, hcall⟩ := add_call_typed fp x (.integer n) e e1 rx hreg hx htype
    obtain ⟨r, e4, _, h1, h2, _, _, _⟩ := hcall _ _ (by simp only [jit_expression]; rfl)
    exact ih (call (index x "add") [.integer n]) e e4 r hreg h1 h2

/-- C10: with the globals and methods registered by `register_types` (as `main` does
before the first statement): the call `make_list()` has static type `list`; for every
receiver `x` that compiles with static type `list`, `x.add` resolves to an instance method
and the call `x.add(v)` compiles for every argument `v` that compiles, with the receiver
bound as argument 0 and with static type `list`, so that `x.add(n1)...add(nk)` compiles
for every `k`; `x.count()` compiles and its static type is null (untyped); and the program
`l = make_list() l = l.add(1) l = l.add(2) print(l.count())` compiles. -/
theorem list_calls_typed (fp : NativeFunctions) :
    (∀ e : Env, e.Registered fp → umap_find e.state.vars "make_list" = none →
      ∃ r e', jit_expression (call (ident "make_list") []) e = .ok (r, e') ∧
        r.type = e.g.list_type ∧ e.g.list_type ≠ none ∧ e'.Registered fp) ∧
    (∀ (x v : ProgramData) (e e1 : Env) (rx : Expression), e.Registered fp →
      jit_expression x e = .ok (rx, e1) → rx.type = e.g.list_type →
      ∃ ri e2, jit_expression (index x "add") e = .ok (ri, e2) ∧ ri.is_method = true ∧
        e2.Registered fp ∧
        ∀ (rv : Expression) (e3 : Env), jit_expression v e2 = .ok (rv, e3) →
          ∃ r e4 node, jit_expression (call (index x "add") [v]) e = .ok (r, e4) ∧
            r.type = e.g.list_type ∧ e4.Registered fp ∧
            e4.a.code = e3.a.code ++ [.call node] ∧ node.args[0]? = some ri.object) ∧
    (∀ (ns : List Int) (x : ProgramData) (e e1 : Env) (rx : Expression), e.Registered fp →
      jit_expression x e = .ok (rx, e1) → rx.type = e.g.list_type →
      ∃ r e', jit_expression (add_chain x ns) e = .ok (r, e') ∧ r.type = e.g.list_type) ∧
    (∀ (x : ProgramData) (e e1 : Env) (rx : Expression), e.Registered fp →
      jit_expression x e = .ok (rx, e1) → rx.type = e.g.list_type →
      ∃ r e', jit_expression (call (index x "count") []) e = .ok (r, e') ∧ r.type = none) ∧
    compiled (main_compile demo_natives list_program 0) = true := by
  refine ⟨?_, fun x v e e1 rx => add_call_typed fp x v e e1 rx, add_chain_typed fp, ?_,
    by decide⟩
  · intro e hreg hvars
    obtain ⟨hl, hgl, _, ⟨t1, ht1, hr1⟩, _⟩ := hreg.known
    have hid := (jit_identifier_cases "make_list" e).2.1 _ hvars hgl
    have hreg1 : Env.Registered fp
        { e with a := { e.a with gps := e.a.gps + 1, code := e.a.code ++
          [.mov_rm (.virt e.a.gps)
            (.const .kConstScopeGlobal (valueToNum (⟨some 1, fp.make_list⟩ : GlobalVar).value))] } } := by
      obtain ⟨e0, h0, hg, hgl⟩ := hreg
      exact ⟨e0, h0, hg, hgl⟩
    obtain ⟨node, e3, hcall, hf, _, _, _⟩ :=
      call_typed (ident "make_list") [] e _ _ _ [] t1 hid rfl ht1 (by simp)
    refine ⟨_, e3, hcall, ?_, by rw [hl]; simp, hreg1.keep hf⟩
    simp only [Expression.plain]
    rw [hr1, hl]
  · intro x e e1 rx hreg hx htype
    obtain ⟨hl, _, ⟨t, ht, _, _, _, f1, f2, f3⟩, _, ⟨t2, ht2, hr2⟩⟩ := hreg.known
    obtain ⟨ri, e2, hidx, hm, _, hreg2, hcall⟩ :=
      method_call_typed fp "count" 1 2 none x e e1 rx hreg hx htype
        (fun t' ht' => by
          rw [ht] at ht'
          have : t = t' := Option.some.inj ht'
          subst this
          exact ⟨f1, f2, f3⟩)
        (fun t' ht' => by
          rw [ht2] at ht'
          have : t2 = t' := Option.some.inj ht'
          subst this
          exact hr2)
        ⟨t2, ht2⟩
    obtain ⟨r, e4, _, h1, h2, _, _, _⟩ := hcall [] [] e2 rfl (Env.Frame.refl e2) (by simp)
    exact ⟨r, e4, h1, h2⟩

/-- In `demo_env`: `make_list()` has static type `list` (type 0), and
`make_list().add(1).add(2).add(3)` compiles with static type `list`. -/
theorem list_calls_typed_witness :
    demo_env.Registered demo_natives ∧
    umap_find demo_env.state.vars "make_list" = none ∧
    (∃ r e', jit_expression (call (ident "make_list") []) demo_env = .ok (r, e') ∧
      r.type = demo_env.g.list_type ∧ demo_env.g.list_type ≠ none ∧
      e'.Registered demo_natives) ∧
    (∃ r e', jit_expression (add_chain (call (ident "make_list") []) [1, 2, 3]) demo_env =
      .ok (r, e') ∧ r.type = demo_env.g.list_type) :=
  ⟨⟨demo_env, main_init_demo, rfl, rfl⟩, rfl,
    (list_calls_typed demo_natives).1 demo_env ⟨demo_env, main_init_demo, rfl, rfl⟩ rfl,
    (list_calls_typed demo_natives).2.2.1 [1, 2, 3] (call (ident "make_list") []) demo_env
      _ _ ⟨demo_env, main_init_demo, rfl, rfl⟩ rfl rfl⟩

/-! ## Integer round trip -/

theorem and_two_pow_of_testBit_false (v i : Nat) (h : v.testBit i = false) :
    v &&& 2 ^ i = 0 := by
  apply Nat.eq_of_testBit_eq
  intro j
  rw [Nat.testBit_and, Nat.testBit_two_pow, Nat.zero_testBit]
  by_cases hij : i = j
  · subst hij; simp [h]
  · simp [hij]

theorem valueToNum_int64_bits (i : Int) (hlo : -(2 : Int) ^ 63 ≤ i) (hhi : i < (2 : Int) ^ 63) :
    valueToNum (int64_bits i) = i := by
  unfold valueToNum int64_bits WORD SIGN_BIT
  have h1 : (0 : Int) ≤ i % ((2 ^ 64 : Nat) : Int) := Int.emod_nonneg _ (by norm_num)
  have h2 : i % ((2 ^ 64 : Nat) : Int) < ((2 ^ 64 : Nat) : Int) := Int.emod_lt_of_pos _ (by norm_num)
  have h3 : ((i % ((2 ^ 64 : Nat) : Int)).toNat : Int) = i % ((2 ^ 64 : Nat) : Int) :=
    Int.toNat_of_nonneg h1
  have h4 : (i % ((2 ^ 64 : Nat) : Int)).toNat % 2 ^ 64 = (i % ((2 ^ 64 : Nat) : Int)).toNat := by
    apply Nat.mod_eq_of_lt
    have := h2
    omega
  rw [h4]
  norm_num at h1 h2 h3 hlo hhi ⊢
  split
  · rename_i hlt
    omega
  · rename_i hge
    omega

/-- C18: for every signed 64-bit integer `i` whose two's-complement word has bit 62 clear,
`valueToNum` of the word is `i` and `isNum` of the word is true. -/
theorem integer_round_trip (i : Int) (hlo : -(2 : Int) ^ 63 ≤ i) (hhi : i < (2 : Int) ^ 63)
    (hbit : (int64_bits i).testBit 62 = false) :
    valueToNum (int64_bits i) = i ∧ isNum (int64_bits i) = true := by
  refine ⟨valueToNum_int64_bits i hlo hhi, ?_⟩
  unfold isNum NUM_BIT
  rw [and_two_pow_of_testBit_false _ 62 hbit]
  rfl

/-- The integer 41 and the negative integer `-(2 ^ 62) - 1`, whose word has bit 62 clear. -/
theorem integer_round_trip_witness :
    (valueToNum (int64_bits 41) = 41 ∧ isNum (int64_bits 41) = true) ∧
    (valueToNum (int64_bits (-(2 : Int) ^ 62 - 1)) = -(2 : Int) ^ 62 - 1 ∧
      isNum (int64_bits (-(2 : Int) ^ 62 - 1)) = true) :=
  ⟨integer_round_trip 41 (by decide) (by decide) (by decide),
   integer_round_trip (-(2 : Int) ^ 62 - 1) (by decide) (by decide) (by decide)⟩

/-! ## Relations kept by `jit_expression` -/

theorem jit_arguments_rel (R : Env → Env → Prop) (hrefl : ∀ e, R e e)
    (htrans : ∀ e1 e2 e3, R e1 e2 → R e2 e3 → R e1 e3) (vec : List ProgramData)
    (ih : ∀ x, x ∈ vec → ∀ (e : Env) (r : Expression) (e' : Env),
      jit_expression x e = .ok (r, e') → R e e') :
    ∀ (e : Env) (regs : List X86Gp) (e' : Env),
      jit_arguments vec e = .ok (regs, e') → R e e' := by
  induction vec with
  | nil =>
    intro e regs e' h
    simp only [jit_arguments, Except.ok.injEq, Prod.mk.injEq] at h
    rw [← h.2]
    exact hrefl e
  | cons x rest ihl =>
    intro e regs e' h
    simp only [jit_arguments] at h
    cases hx : jit_expression x e with
    | error err => simp [hx] at h
    | ok p =>
      obtain ⟨exp, e1⟩ := p
      simp only [hx] at h
      cases hr : jit_arguments rest e1 with
      | error err => simp [hr] at h
      | ok q =>
        obtain ⟨regs1, e2⟩ := q
        simp only [hr, Except.ok.injEq, Prod.mk.injEq] at h
        have h1 := ih x (List.mem_cons_self _ _) e exp e1 hx
        have h2 := ihl (fun y hy => ih y (List.mem_cons_of_mem _ hy)) e1 regs1 e2 hr
        rw [← h.2]
        exact htrans _ _ _ h1 h2

theorem jit_expression_rel (R : Env → Env → Prop) (hrefl : ∀ e, R e e)
    (htrans : ∀ e1 e2 e3, R e1 e2 → R e2 e3 → R e1 e3)
    (hint : ∀ v e, R e (jit_integer v e).2)
    (hdef : ∀ body e, R e (jit_function_def body e).2)
    (hid : ∀ s e r e', jit_identifier s e = .ok (r, e') → R e e')
    (hidx : ∀ exp p e r e', jit_index exp p e = .ok (r, e') → R e e')
    (hcall : ∀ exp regs size e r e', jit_call exp regs size e = .ok (r, e') → R e e')
    (hbin : ∀ t ra rb e e', jit_binary t ra rb e = some e' → R e e') :
    ∀ (x : ProgramData) (e : Env) (r : Expression) (e' : Env),
      jit_expression x e = .ok (r, e') → R e e' := by
  intro x
  induction x using ProgramData.induct_children with
  | hnull => intro e r e' h; simp [jit_expression] at h
  | hint v =>
    intro e r e' h
    simp only [jit_expression, Except.ok.injEq] at h
    have := hint v e
    rw [h] at this
    exact this
  | hstr t s =>
    intro e r e' h
    cases t <;> simp only [jit_expression] at h <;> first
      | cases h
      | exact hid s e r e' h
  | hch t vec ih =>
    intro e r e' h
    rcases jit_expression_children_ok t vec e r e' h with
      ⟨_, body, rest, _, hd⟩ | ⟨_, x, ty, property, rest, exp, e1, hv, hx, hi⟩ |
      ⟨_, callee, rest, exp, e1, regs, e2, hv, hx, hr, hc⟩ |
      ⟨_, x, y, rest, exp_a, e1, exp_b, e2, hv, hx, hy, hb, _⟩
    · have := hdef body e
      rw [hd] at this
      exact this
    · subst hv
      exact htrans _ _ _ (ih x (by simp) e exp e1 hx) (hidx exp property e1 r e' hi)
    · subst hv
      have h1 := ih callee (by simp) e exp e1 hx
      have h2 := jit_arguments_rel R hrefl htrans rest
        (fun y hy => ih y (List.mem_cons_of_mem _ hy)) e1 regs e2 hr
      exact htrans _ _ _ (htrans _ _ _ h1 h2) (hcall exp regs _ e2 r e' hc)
    · subst hv
      have h1 := ih x (by simp) e exp_a e1 hx
      have h2 := ih y (by simp) e1 exp_b e2 hy
      exact htrans _ _ _ (htrans _ _ _ h1 h2) (hbin _ _ _ e2 e' hb)

theorem jit_expression_same_locals (x : ProgramData) (e : Env) (r : Expression) (e' : Env)
    (h : jit_expression x e = .ok (r, e')) : e.SameLocals e' := by
  refine jit_expression_rel Env.SameLocals (fun _ => ⟨rfl, rfl⟩)
    (fun _ _ _ h1 h2 => ⟨h2.1.trans h1.1, h2.2.trans h1.2⟩) ?_ ?_ ?_ ?_ ?_ ?_ x e r e' h
  · intro v e; exact ⟨rfl, rfl⟩
  · intro body e; exact ⟨rfl, rfl⟩
  · intro s e r e' h
    unfold jit_identifier at h
    split at h
    · simp only [Except.ok.injEq, Prod.mk.injEq] at h
      rw [← h.2]; exact ⟨rfl, rfl⟩
    · split at h
      · simp only [Except.ok.injEq, Prod.mk.injEq] at h
        rw [← h.2]; exact ⟨rfl, rfl⟩
      · cases h
  · intro exp p e r e' h
    unfold jit_index at h
    split at h
    · cases h
    · split at h
      · cases h
      · split at h
        · cases h
        · simp only [Except.ok.injEq, Prod.mk.injEq] at h
          rw [← h.2]; exact ⟨rfl, rfl⟩
  · intro exp regs size e r e' h
    unfold jit_call at h
    simp only at h
    split at h
    · cases h
    · split at h
      · cases h
      · simp only [Except.ok.injEq, Prod.mk.injEq] at h
        rw [← h.2]; exact ⟨rfl, rfl⟩
  · intro t ra rb e e' h
    cases t <;> simp only [jit_binary] at h <;> cases h <;> exact ⟨rfl, rfl⟩

/-! ## Assignment -/

theorem jit_assignment_cases (exp : Expression) (name : String) (e1 : Env) :
    (umap_find e1.state.vars name = none →
      umap_find (jit_assignment exp name e1).state.vars name =
        some { type := exp.type, stack_offset := e1.state.offset } ∧
      (jit_assignment exp name e1).state.offset = e1.state.offset + 8) ∧
    (∀ v : StackVar, umap_find e1.state.vars name = some v →
      umap_find (jit_assignment exp name e1).state.vars name = some v ∧
      (jit_assignment exp name e1).state.vars = e1.state.vars ∧
      (jit_assignment exp name e1).state.offset = e1.state.offset) ∧
    (∀ slot : StackVar, umap_find (jit_assignment exp name e1).state.vars name = some slot →
      (jit_assignment exp name e1).a.code = e1.a.code ++
        [.mov_mr ((e1.state.mem.setSize 8).setOffset slot.stack_offset) exp.reg]) ∧
    (∀ other : String, other ≠ name →
      umap_find (jit_assignment exp name e1).state.vars other =
        umap_find e1.state.vars other) := by
  unfold jit_assignment
  cases hf : umap_find e1.state.vars name with
  | none =>
    simp only [hf]
    refine ⟨?_, ?_, ?_, ?_⟩
    · intro _
      simp [Env.emit, umap_find_set_self]
    · intro v hv; cases hv
    · intro slot hs
      simp only [Env.emit, umap_find_set_self, Option.some.injEq] at hs
      simp only [Env.emit, X86Compiler.emit, umap_find_set_self, Option.getD_some]
      rw [← hs]
    · intro other hne
      simp [Env.emit, umap_find_set_ne _ _ _ _ hne]
  | some v0 =>
    simp only [hf]
    refine ⟨?_, ?_, ?_, ?_⟩
    · intro h; cases h
    · intro v hv
      simp only [Option.some.injEq] at hv
      subst hv
      simp [Env.emit, hf]
    · intro slot hs
      simp only [Env.emit, hf, Option.some.injEq] at hs
      subst hs
      simp [Env.emit, X86Compiler.emit, hf]
    · intro other _
      simp [Env.emit]

/-- C16: compiling `name = expr`, when `expr` compiles to `exp` (leaving the environment
`e1`), succeeds.  If `name` was not a local, it gets the slot at the bump offset, the
offset advances by 8 and the recorded type is the static type of `expr`; if `name` was a
local, its entry, the whole table of locals and the offset stay as they were.  In both
cases the code is the code of `expr` followed by exactly one store of the value of `expr`
to the slot of `name`, and the entry of every other name is unchanged. -/
theorem assignment_effect (name : String) (ty : ProgramType) (rhs : ProgramData)
    (rest : List ProgramData) (e e1 : Env) (exp : Expression)
    (hx : jit_expression rhs e = .ok (exp, e1)) :
    ∃ e2 : Env,
      jit_statement (.children TYPE_ASSIGNMENT (.str ty name :: rhs :: rest)) e = .ok e2 ∧
      (umap_find e.state.vars name = none →
        umap_find e2.state.vars name =
          some { type := exp.type, stack_offset := e.state.offset } ∧
        e2.state.offset = e.state.offset + 8) ∧
      (∀ v : StackVar, umap_find e.state.vars name = some v →
        umap_find e2.state.vars name = some v ∧ e2.state.vars = e.state.vars ∧
        e2.state.offset = e.state.offset) ∧
      (∀ slot : StackVar, umap_find e2.state.vars name = some slot →
        e2.a.code = e1.a.code ++
          [.mov_mr ((e1.state.mem.setSize 8).setOffset slot.stack_offset) exp.reg]) ∧
      (∀ other : String, other ≠ name →
        umap_find e2.state.vars other = umap_find e.state.vars other) := by
  obtain ⟨hvars, hoff⟩ := jit_expression_same_locals rhs e exp e1 hx
  obtain ⟨c1, c2, c3, c4⟩ := jit_assignment_cases exp name e1
  refine ⟨jit_assignment exp name e1, by simp only [jit_statement, hx], ?_, ?_, c3, ?_⟩
  · intro h
    rw [← hvars] at h
    rw [← hoff]
    exact c1 h
  · intro v h
    rw [← hvars] at h
    rw [← hvars, ← hoff]
    exact c2 v h
  · intro other hne
    rw [← hvars]
    exact c4 other hne

/-- In `demo_env`: `x = 5` allocates slot 0 for `x`, and after it `x = make_list()` keeps
the slot and the type recorded first. -/
theorem assignment_effect_witness :
    (∃ e2 : Env, jit_statement (assign "x" (.integer 5)) demo_env = .ok e2 ∧
      umap_find e2.state.vars "x" = some { type := none, stack_offset := 0 } ∧
      e2.state.offset = 8 ∧
      ∃ e4 : Env, jit_statement (assign "x" (call (ident "make_list") [])) e2 = .ok e4 ∧
        umap_find e4.state.vars "x" = some { type := none, stack_offset := 0 } ∧
        e4.state.offset = 8) ∧
    ∃ e2 : Env,
      jit_statement (.children TYPE_ASSIGNMENT [.str TYPE_IDENTIFIER "x", .integer 5])
        demo_env = .ok e2 ∧
      (umap_find demo_env.state.vars "x" = none →
        umap_find e2.state.vars "x" =
          some { type := none, stack_offset := demo_env.state.offset } ∧
        e2.state.offset = demo_env.state.offset + 8) ∧
      (∀ v : StackVar, umap_find demo_env.state.vars "x" = some v →
        umap_find e2.state.vars "x" = some v ∧ e2.state.vars = demo_env.state.vars ∧
        e2.state.offset = demo_env.state.offset) ∧
      (∀ slot : StackVar, umap_find e2.state.vars "x" = some slot →
        e2.a.code = (jit_integer 5 demo_env).2.a.code ++
          [.mov_mr (((jit_integer 5 demo_env).2.state.mem.setSize 8).setOffset
            slot.stack_offset) (jit_integer 5 demo_env).1.reg]) ∧
      (∀ other : String, other ≠ "x" →
        umap_find e2.state.vars other = umap_find demo_env.state.vars other) :=
  ⟨⟨_, rfl, rfl, rfl, _, rfl, rfl, rfl⟩,
   assignment_effect "x" TYPE_IDENTIFIER (.integer 5) [] demo_env
     (jit_integer 5 demo_env).2 (jit_integer 5 demo_env).1 rfl⟩

/-! ## Deferred functions: their state and their last instructions -/

theorem drain_step_eq (e : Env) (frem : FunctionRemainder) (rest : List FunctionRemainder)
    (hrem : e.state.remainders = frem :: rest) :
    drain_step e =
      (match jit_statement frem.data (body_env e frem rest) with
       | .error err => .error err
       | .ok e1 =>
         .ok (((e1.newGpq.2.emit (.mov_ri e1.newGpq.1 0)).emit (.ret e1.newGpq.1)).emit
           .endFunc)) := by
  unfold drain_step
  simp only [hrem]
  rfl

theorem drain_step_globals (e e' : Env) (h : drain_step e = .ok e') :
    e'.state.globals = e.state.globals := by
  cases hrem : e.state.remainders with
  | nil => simp [drain_step, hrem] at h
  | cons frem rest =>
    rw [drain_step_eq e frem rest hrem] at h
    cases hs : jit_statement frem.data (body_env e frem rest) with
    | error err => simp [hs] at h
    | ok e1 =>
      simp only [hs, Except.ok.injEq] at h
      rw [← h]
      exact (jit_statement_frame _ _ _ hs).1

theorem drain_nil (fuel : Nat) (e : Env) (hrem : e.state.remainders = []) :
    drain fuel e = .ok (some e) := by
  obtain ⟨a, ⟨offset, vars, funcs, globals, mem, so, rem⟩, g⟩ := e
  simp only at hrem
  subst hrem
  cases fuel <;> rfl

theorem drain_zero_cons (e : Env) (frem : FunctionRemainder) (rest : List FunctionRemainder)
    (hrem : e.state.remainders = frem :: rest) : drain 0 e = .ok none := by
  obtain ⟨a, ⟨offset, vars, funcs, globals, mem, so, rem⟩, g⟩ := e
  simp only at hrem
  subst hrem
  rfl

theorem drain_succ_cons (fuel : Nat) (e : Env) (frem : FunctionRemainder)
    (rest : List FunctionRemainder) (hrem : e.state.remainders = frem :: rest) :
    drain (fuel + 1) e =
      (match drain_step e with
       | .error err => .error err
       | .ok e1 => drain fuel e1) := by
  obtain ⟨a, ⟨offset, vars, funcs, globals, mem, so, rem⟩, g⟩ := e
  simp only at hrem
  subst hrem
  rfl

theorem drain_globals (fuel : Nat) :
    ∀ (e e' : Env), drain fuel e = .ok (some e') → e'.state.globals = e.state.globals := by
  induction fuel with
  | zero =>
    intro e e' h
    cases hrem : e.state.remainders with
    | nil =>
      rw [drain_nil 0 e hrem] at h
      simp only [Except.ok.injEq, Option.some.injEq] at h
      rw [h]
    | cons frem rest =>
      rw [drain_zero_cons e frem rest hrem] at h
      simp at h
  | succ n ih =>
    intro e e' h
    cases hrem : e.state.remainders with
    | nil =>
      rw [drain_nil _ e hrem] at h
      simp only [Except.ok.injEq, Option.some.injEq] at h
      rw [h]
    | cons frem rest =>
      rw [drain_succ_cons n e frem rest hrem] at h
      cases hd : drain_step e with
      | error err => simp [hd] at h
      | ok e1 =>
        simp only [hd] at h
        rw [ih e1 e' h, drain_step_globals e e1 hd]

theorem drain_step_code (e e' : Env) (frem : FunctionRemainder)
    (rest : List FunctionRemainder) (hrem : e.state.remainders = frem :: rest)
    (h : drain_step e = .ok e') :
    ∃ (e1 : Env) (body : List Inst),
      jit_statement frem.data (body_env e frem rest) = .ok e1 ∧
      e1.a.code = e.a.code ++ .func frem.func :: body ∧
      e1.newGpq.1 = .virt e1.a.gps ∧
      e'.a.code = e.a.code ++ .func frem.func :: body ++
        [.mov_ri (.virt e1.a.gps) 0, .ret (.virt e1.a.gps), .endFunc] := by
  rw [drain_step_eq e frem rest hrem] at h
  cases hs : jit_statement frem.data (body_env e frem rest) with
  | error err => simp [hs] at h
  | ok e1 =>
    simp only [hs, Except.ok.injEq] at h
    obtain ⟨body, hbody⟩ := (jit_statement_frame _ _ _ hs).2.2.1
    have hb : e1.a.code = e.a.code ++ .func frem.func :: body := by
      rw [← hbody]
      simp [body_env, X86Compiler.emit, X86Compiler.newGpq, X86Compiler.newStack]
    refine ⟨e1, body, rfl, hb, rfl, ?_⟩
    rw [← h]
    simp [Env.emit, Env.newGpq, X86Compiler.emit, X86Compiler.newGpq, hb]

/-- C19: whenever the second loop of `main` compiles a deferred function, whatever its
body is, the code it adds is the opening of the function, the code of the body, then a
move of the constant 0 into the register just created, a return of that register, and
the closing of the function. -/
theorem function_ends_with_return_zero (e e' : Env) (frem : FunctionRemainder)
    (rest : List FunctionRemainder) (hrem : e.state.remainders = frem :: rest)
    (h : drain_step e = .ok e') :
    ∃ (e1 : Env) (body : List Inst),
      jit_statement frem.data (body_env e frem rest) = .ok e1 ∧
      e1.a.code = e.a.code ++ .func frem.func :: body ∧
      e1.newGpq.1 = .virt e1.a.gps ∧
      e'.a.code = e.a.code ++ .func frem.func :: body ++
        [.mov_ri (.virt e1.a.gps) 0, .ret (.virt e1.a.gps), .endFunc] :=
  drain_step_code e e' frem rest hrem h

/-- C20: the body of a deferred function is compiled in a state with no locals, bump
offset 0, the global bindings of the state the loop was entered with (which compilation
never changes, so they are those of the top-level state) and the other pending entries as
worklist.  So in the body an identifier that is not a global fails with
`USING X BEFORE DEFINED` whatever the locals of the enclosing code are, and an identifier
that is a global resolves to the global; the program `f = function() { return f }` stops
with `USING f BEFORE DEFINED`. -/
theorem function_body_state (e : Env) (frem : FunctionRemainder)
    (rest : List FunctionRemainder) (hrem : e.state.remainders = frem :: rest) :
    drain_step e =
      (match jit_statement frem.data (body_env e frem rest) with
       | .error err => .error err
       | .ok e1 =>
         .ok (((e1.newGpq.2.emit (.mov_ri e1.newGpq.1 0)).emit (.ret e1.newGpq.1)).emit
           .endFunc)) ∧
    (body_env e frem rest).state.vars = [] ∧
    (body_env e frem rest).state.offset = 0 ∧
    (body_env e frem rest).state.globals = e.state.globals ∧
    (body_env e frem rest).state.remainders = rest ∧
    (∀ e', drain_step e = .ok e' → e'.state.globals = e.state.globals) ∧
    (∀ (program : List ProgramData) (e0 : Env),
      compile_statements program e0 = .ok e → e.state.globals = e0.state.globals) ∧
    (∀ X : String, umap_find e.state.globals X = none →
      jit_expression (ident X) (body_env e frem rest) =
        .error (.thrown ("USING " ++ X ++ " BEFORE DEFINED"))) ∧
    (∀ (X : String) (var : GlobalVar), umap_find e.state.globals X = some var →
      ∃ r e1, jit_expression (ident X) (body_env e frem rest) = .ok (r, e1) ∧
        r.type = var.type) ∧
    main_compile demo_natives self_reference_program 1 =
      .error (.thrown "USING f BEFORE DEFINED") := by
  refine ⟨drain_step_eq e frem rest hrem, rfl, rfl, rfl, rfl, drain_step_globals e,
    fun program e0 h => (compile_statements_frame program e0 e h).1, ?_, ?_, rfl⟩
  · intro X hX
    exact (jit_identifier_cases X (body_env e frem rest)).2.2.mpr ⟨rfl, hX⟩
  · intro X var hX
    exact ⟨_, _, (jit_identifier_cases X (body_env e frem rest)).2.1 var rfl hX, rfl⟩

/-- The first of the two pending functions of `two_pending_env`, whose body is empty. -/
theorem function_ends_with_return_zero_witness :
    ∃ e' : Env, drain_step two_pending_env = .ok e' ∧
      e'.a.code = two_pending_env.a.code ++
        [.func 5, .mov_ri (.virt 2) 0, .ret (.virt 2), .endFunc] ∧
      ∃ (e1 : Env) (body : List Inst),
        jit_statement (.children TYPE_BLOCK [])
          (body_env two_pending_env ⟨5, .children TYPE_BLOCK []⟩
            [⟨6, .children TYPE_BLOCK []⟩]) = .ok e1 ∧
        e1.a.code = two_pending_env.a.code ++ .func 5 :: body ∧
        e1.newGpq.1 = .virt e1.a.gps ∧
        e'.a.code = two_pending_env.a.code ++ .func 5 :: body ++
          [.mov_ri (.virt e1.a.gps) 0, .ret (.virt e1.a.gps), .endFunc] :=
  ⟨_, rfl, rfl, function_ends_with_return_zero two_pending_env _
    ⟨5, .children TYPE_BLOCK []⟩ [⟨6, .children TYPE_BLOCK []⟩] rfl rfl⟩

/-- The state built for the first pending function of `two_pending_env`, seen from a
state that has a local `print`: the local is gone, the global `print` is found. -/
theorem function_body_state_witness :
    two_pending_env.state.remainders =
      [⟨5, .children TYPE_BLOCK []⟩, ⟨6, .children TYPE_BLOCK []⟩] ∧
    (body_env two_pending_env ⟨5, .children TYPE_BLOCK []⟩
      [⟨6, .children TYPE_BLOCK []⟩]).state.vars = [] ∧
    (jit_expression (ident "g")
        (body_env two_pending_env ⟨5, .children TYPE_BLOCK []⟩
          [⟨6, .children TYPE_BLOCK []⟩]) =
      .error (.thrown ("USING " ++ "g" ++ " BEFORE DEFINED"))) :=
  ⟨rfl, rfl,
    (function_body_state two_pending_env ⟨5, .children TYPE_BLOCK []⟩
      [⟨6, .children TYPE_BLOCK []⟩] rfl).2.2.2.2.2.2.2.1 "g" rfl⟩

/-! ## Printing numbers -/

theorem isNum_of_lt (v : Nat) (h : v < NUM_BIT) : isNum v = true := by
  have h2 : v &&& NUM_BIT = 0 := by
    apply Nat.eq_of_testBit_eq
    intro i
    simp only [Nat.testBit_and, Nat.zero_testBit, NUM_BIT, Nat.testBit_two_pow]
    by_cases hi : 62 = i
    · subst hi
      have h3 : v.testBit 62 = false := Nat.testBit_lt_two_pow h
      simp [h3]
    · simp [hi]
  simp [isNum, h2]

/-- A number from 0 up to `2^62 - 1` is printed in decimal, whatever the heap and the
fuel. -/
theorem print_nonnegative (fuel : Nat) (h : ObjHeap) (n : Int) (h0 : 0 ≤ n)
    (h1 : n < (2 : Int) ^ 62) :
    print fuel h (int64_bits n) = .done (toString n ++ "\n") 0 := by
  have hb : int64_bits n = n.toNat := by
    unfold int64_bits
    rw [Int.emod_eq_of_lt h0 (by simp only [WORD]; push_cast; omega)]
  have hlt : n.toNat < NUM_BIT := by simp only [NUM_BIT]; omega
  have hnum : isNum (int64_bits n) = true := by rw [hb]; exact isNum_of_lt _ hlt
  have hval : valueToNum (int64_bits n) = n := by
    rw [hb]
    unfold valueToNum
    have hw : n.toNat % WORD = n.toNat := Nat.mod_eq_of_lt (by simp only [WORD, NUM_BIT] at *; omega)
    rw [hw, if_pos (by simp only [SIGN_BIT, NUM_BIT] at *; omega)]
    omega
  unfold print
  rw [if_pos hnum, hval]

/-- C11 (code): the word of `-1` has bit 62 set, so `isNum` is false for it although
`valueToNum` reads it back as `-1`; `print` then takes the word for an object, and
whatever the heap holds it does not write `-1`: with no object at the address read the
behaviour is undefined.  Numbers from 0 on, such as 41, are printed. -/
theorem print_negative_one :
    isNum (int64_bits (-1)) = false ∧
    valueToNum (int64_bits (-1)) = -1 ∧
    (∀ (fuel : Nat) (h : ObjHeap), print fuel h (int64_bits (-1)) ≠ .done "-1\n" 0) ∧
    (∀ fuel : Nat, print (fuel + 1) [] (int64_bits (-1)) = .undefined) ∧
    print 0 [] (int64_bits 41) = .done "41\n" 0 := by
  have hnum : isNum (int64_bits (-1)) = false := by decide
  refine ⟨hnum, by decide, ?_, ?_, by decide⟩
  · intro fuel h
    unfold print
    rw [if_neg (by simp [hnum])]
    cases fuel with
    | zero => simp
    | succ fuel =>
      simp only
      cases h.get? (valueToObj (int64_bits (-1))) with
      | none => simp
      | some l =>
        simp only
        split
        · split
          · split
            · intro hc
              injection hc with hout _
              have hd := congrArg String.data hout
              simp [String.data_append] at hd
            · rename_i r hr
              intro hc
              exact hr _ _ hc
          · simp
        · decide
  · intro fuel
    unfold print
    rw [if_neg (by simp [hnum])]
    rfl

/-! ## Comparisons -/

/-- The code of a comparison: `sub` into the left register, then the `setcc` of the
comparison on that register. -/
theorem jit_binary_compare (reg_a reg_b : X86Gp) (e : Env) :
    jit_binary TYPE_LT reg_a reg_b e = some ((e.emit (.sub reg_a reg_b)).emit (.setl reg_a)) ∧
    jit_binary TYPE_EQUALITY reg_a reg_b e =
      some ((e.emit (.sub reg_a reg_b)).emit (.sete reg_a)) ∧
    jit_binary TYPE_NOTEQUALITY reg_a reg_b e =
      some ((e.emit (.sub reg_a reg_b)).emit (.setne reg_a)) :=
  ⟨rfl, rfl, rfl⟩

/-- C12 (code): `setcc` writes the low byte of the register only, the other 56 bits keep
the difference left by `sub`.  The code emitted for `300 < 0` leaves 256 in the result
register and the code for `256 == 0` leaves 256 too: both values are not zero although
the comparisons do not hold, so the `je` after `cmp reg, 0` is not taken and an `if`
runs its first block (a `while` runs its body).  Where the difference fits in the low
byte the results are right (`3 < 0`, `0 < 3`, `5 == 5`, `5 == 4`), and `!=` leaves zero
exactly for equal operands in these runs. -/
theorem comparison_keeps_high_bits :
    condition_value (.children TYPE_LT [.integer 300, .integer 0]) = some (256, false) ∧
    condition_value (.children TYPE_EQUALITY [.integer 256, .integer 0]) = some (256, false) ∧
    condition_value (.children TYPE_LT [.integer 3, .integer 0]) = some (0, true) ∧
    condition_value (.children TYPE_LT [.integer 0, .integer 3]) =
      some (2 ^ 64 - 255, false) ∧
    condition_value (.children TYPE_EQUALITY [.integer 5, .integer 5]) = some (1, false) ∧
    condition_value (.children TYPE_EQUALITY [.integer 5, .integer 4]) = some (0, true) ∧
    condition_value (.children TYPE_NOTEQUALITY [.integer 300, .integer 0]) =
      some (257, false) ∧
    condition_value (.children TYPE_NOTEQUALITY [.integer 5, .integer 5]) = some (0, true) ∧
    (jit_expression (.children TYPE_LT [.integer 300, .integer 0]) demo_env).toOption.map
        (fun r => r.2.a.code.drop demo_env.a.code.length) =
      some [.mov_rm (.virt 1) (.const .kConstScopeLocal 300),
            .mov_rm (.virt 2) (.const .kConstScopeLocal 0),
            .sub (.virt 1) (.virt 2), .setl (.virt 1)] := by
  refine ⟨by decide, by decide, by decide, by decide, by decide, by decide, by decide,
    by decide, by decide⟩

/-! ## The parser: identifiers and property chains -/

theorem identifier_loop_of_nonempty (p : List Char) :
    ∀ id : List Char, id ≠ [] →
      identifier_loop id p = (id ++ p.takeWhile name_char, p.dropWhile name_char) := by
  induction p with
  | nil => intro id _; simp [identifier_loop]
  | cons c p ih =>
    intro id hid
    have hne : id.isEmpty = false := by cases id <;> simp_all
    simp only [identifier_loop, hne, Bool.not_false, Bool.true_and]
    by_cases hc : name_char c = true
    · have hc2 : (is_letter c || c == '_') = true := hc
      rw [if_pos hc2, ih (id ++ [c]) (by simp)]
      simp [List.takeWhile_cons, List.dropWhile_cons, hc]
    · have hc2 : ¬ (is_letter c || c == '_') = true := hc
      rw [if_neg hc2]
      simp [List.takeWhile_cons, List.dropWhile_cons, hc]

theorem identifier_loop_letter (c : Char) (p : List Char) (hc : is_letter c = true) :
    identifier_loop [] (c :: p) = (c :: p.takeWhile name_char, p.dropWhile name_char) := by
  simp only [identifier_loop, hc, Bool.true_or, if_true]
  rw [identifier_loop_of_nonempty p ([] ++ [c]) (by simp)]
  simp

theorem identifier_loop_other (program : List Char)
    (h : ∀ c p, program = c :: p → is_letter c = false) :
    identifier_loop [] program = ([], program) := by
  cases program with
  | nil => rfl
  | cons c p => simp [identifier_loop, h c p rfl]

theorem identifier_succ (fuel : Nat) (program : List Char) :
    identifier (fuel + 1) program =
      if (identifier_loop [] program).1.isEmpty then some failure
      else index_ fuel
        (success (identifier_loop [] program).2
          (.str TYPE_IDENTIFIER (String.mk (identifier_loop [] program).1))).remainder
        (success (identifier_loop [] program).2
          (.str TYPE_IDENTIFIER (String.mk (identifier_loop [] program).1))) := by
  rw [identifier]

theorem index_no_dot (fuel : Nat) (program : List Char) (result : ParserResult)
    (h : ∀ q, program ≠ '.' :: q) : index_ (fuel + 1) program result = some result := by
  cases program with
  | nil => rfl
  | cons c q =>
    have hc : c ≠ '.' := fun hc => h q (by rw [hc])
    simp [index_, hc]

/-- What `identifier` reads on an input that starts with a letter. -/
theorem identifier_of_letter (fuel : Nat) (c : Char) (p : List Char)
    (hc : is_letter c = true) :
    identifier (fuel + 1) (c :: p) =
      index_ fuel (eat_whitespace (p.dropWhile name_char))
        (success (p.dropWhile name_char)
          (ident (String.mk (c :: p.takeWhile name_char)))) := by
  rw [identifier_succ, identifier_loop_letter c p hc]
  simp [success, ident]

/-- C13 (counterexample): on `x1 = 2` the identifier read is `x`, not `x1`, and the
remainder starts at `1`, not at `=`; the digit is not part of the name. -/
theorem identifier_stops_at_digit :
    identifier 2 "x1 = 2".toList = some (success "1 = 2".toList (ident "x")) ∧
    identifier 2 "x1 = 2".toList ≠ some (success "= 2".toList (ident "x1")) := by
  refine ⟨by decide, by decide⟩

/-- C13 (amended): on an input that starts with a letter, `identifier` reads the longest
prefix made of that letter followed by letters and underscores (no digits); the call is
`index` on the identifier node that carries exactly that prefix as its name and on the
rest of the input without its leading whitespace, and when that rest does not start with
a dot the result is that identifier node itself.  On an input that does not start with a
letter `identifier` fails. -/
theorem identifier_letters_and_underscores (fuel : Nat) (program : List Char) :
    (∀ c p, program = c :: p → is_letter c = true →
      identifier (fuel + 1) program =
        index_ fuel (eat_whitespace (p.dropWhile name_char))
          (success (p.dropWhile name_char)
            (ident (String.mk (c :: p.takeWhile name_char))))) ∧
    (∀ c p, program = c :: p → is_letter c = true →
      (∀ q, eat_whitespace (p.dropWhile name_char) ≠ '.' :: q) →
      identifier (fuel + 2) program =
        some (success (p.dropWhile name_char)
          (ident (String.mk (c :: p.takeWhile name_char))))) ∧
    ((∀ c p, program = c :: p → is_letter c = false) →
      identifier (fuel + 1) program = some failure) := by
  refine ⟨?_, ?_, ?_⟩
  · intro c p hp hc
    subst hp
    exact identifier_of_letter fuel c p hc
  · intro c p hp hc hdot
    subst hp
    rw [identifier_of_letter (fuel + 1) c p hc]
    exact index_no_dot fuel _ _ hdot
  · intro h
    rw [identifier_succ, identifier_loop_other program h]
    rfl

theorem identifier_letters_and_underscores_witness :
    identifier 2 "foo_bar9 = 1".toList = some (success "9 = 1".toList (ident "foo_bar")) ∧
    identifier 1 "9a".toList = some failure :=
  ⟨(identifier_letters_and_underscores 0 "foo_bar9 = 1".toList).2.1 'f'
      "oo_bar9 = 1".toList rfl (by decide)
      (by
        intro q
        have h : eat_whitespace (List.dropWhile name_char "oo_bar9 = 1".toList) =
            "9 = 1".toList := by decide
        rw [h]
        intro h2
        injection h2 with h3 _
        revert h3
        decide),
   (identifier_letters_and_underscores 0 "9a".toList).2.2
      (by intro c p h; injection h with h1 _; subst h1; decide)⟩

/-- C14 (code): `identifier` itself calls `index`, so in a chain of property accesses the
node nests to the right: `a.b.c` parses to the index node of `a` and of the index node of
`b` and `c`, whose second child is not an identifier leaf, and not to
index(index(a, b), c).  Compiling such a node reads the member `str` of a node that holds
a vector of children (undefined behaviour).  With calls in between the chain does nest to
the left: `a.b(x).c(y)` parses to call(index(call(index(a, b), x), c), y). -/
theorem index_chain_nests_right :
    atom 8 "a.b.c".toList =
      some (success [] (.children TYPE_INDEX
        [ident "a", .children TYPE_INDEX [ident "b", ident "c"]])) ∧
    atom 8 "a.b.c".toList ≠ some (success [] (index (index (ident "a") "b") "c")) ∧
    atom 12 "a.b(x).c(y)".toList =
      some (success []
        (call (index (call (index (ident "a") "b") [ident "x"]) "c") [ident "y"])) ∧
    main demo_natives false 20 "l = make_list()\nl.add.count".toList = .undefined := by
  refine ⟨by decide, by decide, by decide, by decide⟩

/-! ## The driver -/

/-- The first loop of `main` reaches its end exactly when every statement of the text
parses and every one of them compiles, in order. -/
theorem main_statements_ok (fuel : Nat) :
    ∀ (program : List Char) (e e1 : Env),
      main_statements fuel program e = .ok e1 ↔
        ∃ stmts, parse_program fuel program = some (some stmts) ∧
          compile_statements stmts e = .ok e1 := by
  induction fuel with
  | zero =>
    intro program e e1
    cases program with
    | nil => simp [main_statements, parse_program, compile_statements]
    | cons c p => simp [main_statements, parse_program]
  | succ fuel ih =>
    intro program e e1
    cases program with
    | nil => simp [main_statements, parse_program, compile_statements]
    | cons c p =>
      simp only [main_statements, parse_program]
      cases hs : statement fuel (c :: p) with
      | none => simp
      | some res =>
        simp only
        cases hsucc : res.success with
        | false => simp
        | true =>
          simp only [Bool.not_true, Bool.false_eq_true, if_false]
          cases hj : jit_statement res.data e with
          | error err =>
            cases err with
            | thrown what =>
              simp only [reduceCtorEq, false_iff]
              rintro ⟨stmts, h1, h2⟩
              cases hp : parse_program fuel res.remainder with
              | none => simp [hp] at h1
              | some o =>
                cases o with
                | none => simp [hp] at h1
                | some rest =>
                  simp [hp] at h1
                  subst h1
                  simp [compile_statements, hj] at h2
            | undefined =>
              simp only [reduceCtorEq, false_iff]
              rintro ⟨stmts, h1, h2⟩
              cases hp : parse_program fuel res.remainder with
              | none => simp [hp] at h1
              | some o =>
                cases o with
                | none => simp [hp] at h1
                | some rest =>
                  simp [hp] at h1
                  subst h1
                  simp [compile_statements, hj] at h2
          | ok e2 =>
            simp only
            rw [ih res.remainder e2 e1]
            constructor
            · rintro ⟨stmts, h1, h2⟩
              refine ⟨res.data :: stmts, ?_, ?_⟩
              · simp [h1]
              · simp [compile_statements, hj, h2]
            · rintro ⟨stmts, h1, h2⟩
              cases hp : parse_program fuel res.remainder with
              | none => simp [hp] at h1
              | some o =>
                cases o with
                | none => simp [hp] at h1
                | some rest =>
                  simp [hp] at h1
                  subst h1
                  simp [compile_statements, hj] at h2
                  exact ⟨rest, rfl, h2⟩

/-- The first loop of `main` never ends a run in `running`. -/
theorem main_statements_error (fuel : Nat) :
    ∀ (program : List Char) (e : Env) (a : X86Compiler),
      main_statements fuel program e ≠ .error (.running a) := by
  induction fuel with
  | zero =>
    intro program e a
    cases program <;> simp [main_statements]
  | succ fuel ih =>
    intro program e a
    cases program with
    | nil => simp [main_statements]
    | cons c p =>
      simp only [main_statements]
      cases hs : statement fuel (c :: p) with
      | none => simp
      | some res =>
        simp only
        cases hsucc : res.success with
        | false => simp
        | true =>
          simp only [Bool.not_true, Bool.false_eq_true, if_false]
          cases hj : jit_statement res.data e with
          | error err => cases err <;> simp
          | ok e2 => exact ih res.remainder e2 a

theorem main_running (fp : NativeFunctions) (rt_add_error : Bool) (fuel : Nat)
    (program : List Char) (a : X86Compiler) :
    main fp rt_add_error fuel program = .running a ↔
      rt_add_error = false ∧
      ∃ stmts e0 e1 e2, main_init fp = some e0 ∧
        parse_program fuel program = some (some stmts) ∧
        compile_statements stmts e0 = .ok e1 ∧
        drain fuel (e1.emit .endFunc) = .ok (some e2) ∧ a = e2.a := by
  unfold main
  cases hi : main_init fp with
  | none => simp
  | some e0 =>
    simp only
    cases hm : main_statements fuel program e0 with
    | error r =>
      simp only
      constructor
      · intro hr
        subst hr
        exact absurd hm (main_statements_error fuel program e0 a)
      · rintro ⟨_, stmts, e0', e1, e2, h0, h1, h2, _, _⟩
        injection h0 with h0
        subst h0
        have hok := (main_statements_ok fuel program e0 e1).mpr ⟨stmts, h1, h2⟩
        rw [hm] at hok
        cases hok
    | ok e1 =>
      simp only
      obtain ⟨stmts, h1, h2⟩ := (main_statements_ok fuel program e0 e1).mp hm
      cases hd : drain fuel (e1.emit .endFunc) with
      | error err =>
        cases err <;>
        · simp only [false_iff, reduceCtorEq]
          rintro ⟨_, stmts2, e0', e1', e2, h0, h1', h2', h3, _⟩
          injection h0 with h0
          subst h0
          rw [h1] at h1'
          injection h1' with h1'
          injection h1' with h1'
          subst h1'
          rw [h2] at h2'
          injection h2' with h2'
          subst h2'
          rw [hd] at h3
          cases h3
      | ok o =>
        cases o with
        | none =>
          simp only [false_iff, reduceCtorEq]
          rintro ⟨_, stmts2, e0', e1', e2, h0, h1', h2', h3, _⟩
          injection h0 with h0
          subst h0
          rw [h1] at h1'
          injection h1' with h1'
          injection h1' with h1'
          subst h1'
          rw [h2] at h2'
          injection h2' with h2'
          subst h2'
          rw [hd] at h3
          cases h3
        | some e2 =>
          simp only
          constructor
          · intro hr
            cases hadd : rt_add_error with
            | true => simp [hadd] at hr
            | false =>
              simp [hadd] at hr
              exact ⟨rfl, stmts, e0, e1, e2, rfl, h1, h2, hd, hr.symm⟩
          · rintro ⟨hadd, stmts2, e0', e1', e2', h0, h1', h2', h3, ha⟩
            injection h0 with h0
            subst h0
            rw [h1] at h1'
            injection h1' with h1'
            injection h1' with h1'
            subst h1'
            rw [h2] at h2'
            injection h2' with h2'
            subst h2'
            rw [hd] at h3
            injection h3 with h3
            injection h3 with h3
            subst h3
            simp [hadd, ha]

/-- C17: `main` prints `RUNNING` and calls the entry point of the generated code exactly
when `rt.add` reports no error, every statement of the source text parses, every
top-level statement compiles and every deferred function body compiles (no `throw`, no
undefined behaviour); the code run is the code of that compilation.  So a run in which a
parse fails or a compile step throws does not reach the call. -/
theorem driver_runs_only_compiled_code (fp : NativeFunctions) (rt_add_error : Bool)
    (fuel : Nat) (program : List Char) (a : X86Compiler) :
    (main fp rt_add_error fuel program = .running a ↔
      rt_add_error = false ∧
      ∃ stmts e0 e1 e2, main_init fp = some e0 ∧
        parse_program fuel program = some (some stmts) ∧
        compile_statements stmts e0 = .ok e1 ∧
        drain fuel (e1.emit .endFunc) = .ok (some e2) ∧ a = e2.a) ∧
    (parse_program fuel program = some none →
      main fp rt_add_error fuel program ≠ .running a) ∧
    (∀ stmts err, parse_program fuel program = some (some stmts) →
      main_compile fp stmts fuel = .error err →
      main fp rt_add_error fuel program ≠ .running a) := by
  refine ⟨main_running fp rt_add_error fuel program a, ?_, ?_⟩
  · intro hp hr
    obtain ⟨_, stmts, e0, e1, e2, _, h1, _⟩ :=
      (main_running fp rt_add_error fuel program a).mp hr
    rw [hp] at h1
    cases h1
  · intro stmts err hp hc hr
    obtain ⟨_, stmts2, e0', e1, e2, h0', h1, h2, h3, _⟩ :=
      (main_running fp rt_add_error fuel program a).mp hr
    rw [hp] at h1
    injection h1 with h1
    injection h1 with h1
    subst h1
    simp only [main_compile, h0', h2, h3] at hc
    cases hc

theorem driver_runs_only_compiled_code_witness :
    (∃ a, main demo_natives false 20 "x = 2\nprint(x)".toList = .running a) ∧
    main demo_natives false 20 "x = 2\n= 3".toList = .parsing_error ∧
    main demo_natives false 20 "x = 2\n= 3".toList ≠ .running X86Compiler.init ∧
    main demo_natives false 20 "print(y)\n= 3".toList = .thrown "USING y BEFORE DEFINED" ∧
    main demo_natives false 20 "f = function() \x7b return f \x7d".toList ≠
      .running X86Compiler.init ∧
    main demo_natives true 20 "x = 2\nprint(x)".toList = .wack :=
  ⟨⟨_, rfl⟩, by decide,
   (driver_runs_only_compiled_code demo_natives false 20 "x = 2\n= 3".toList
      X86Compiler.init).2.1 (by decide),
   by decide,
   (driver_runs_only_compiled_code demo_natives false 20
      "f = function() \x7b return f \x7d".toList X86Compiler.init).2.2
      self_reference_program (.thrown "USING f BEFORE DEFINED") (by decide) rfl,
   by decide⟩

/-! ## The parser returns the same with more fuel -/

theorem sub_refl {α : Type} (o : Option α) : Sub o o := ⟨fun _ h => h⟩

theorem sub_none {α : Type} (o : Option α) : Sub none o := ⟨fun _ h => by cases h⟩

theorem sub_trans {α : Type} {a b c : Option α} (h1 : Sub a b) (h2 : Sub b c) : Sub a c :=
  ⟨fun r h => h2.le r (h1.le r h)⟩

theorem sub_bind {α β : Type} {o o' : Option α} {k k' : α → Option β} (ho : Sub o o')
    (hk : ∀ x, Sub (k x) (k' x)) : Sub (o.bind k) (o'.bind k') := by
  constructor
  intro r h
  cases o with
  | none => simp at h
  | some x =>
    rw [ho.le x rfl]
    exact (hk x).le r h

theorem sub_ite {α : Type} {a a' b b' : Option α} (c : Prop) [Decidable c] (ha : Sub a a')
    (hb : Sub b b') : Sub (if c then a else b) (if c then a' else b') := by
  constructor
  intro r h
  by_cases hc : c
  · rw [if_pos hc] at h ⊢; exact ha.le r h
  · rw [if_neg hc] at h ⊢; exact hb.le r h

theorem forall2_isEmpty {α β : Type} {R : α → β → Prop} {xs : List α} {ys : List β}
    (h : List.Forall₂ R xs ys) : ys.isEmpty = xs.isEmpty := by
  cases h <;> rfl

theorem sub_any (fs gs : List (List Char → Option ParserResult))
    (h : List.Forall₂ (fun f g => ∀ p, Sub (f p) (g p)) fs gs) :
    ∀ p, Sub (any fs p) (any gs p) := by
  induction h with
  | nil => intro p; exact sub_refl _
  | cons hfg _ ih =>
    intro p
    simp only [any]
    exact sub_bind (hfg p) (fun _ => sub_ite _ (sub_refl _) (ih p))

theorem sub_seq (fs gs : List (List Char → Option ParserResult))
    (h : List.Forall₂ (fun f g => ∀ p, Sub (f p) (g p)) fs gs) :
    ∀ p, Sub (seq fs p) (seq gs p) := by
  induction h with
  | nil => intro p; exact sub_refl _
  | cons hfg hrest ih =>
    intro p
    simp only [seq, forall2_isEmpty hrest]
    exact sub_bind (hfg p) (fun _ => sub_ite _ (sub_refl _) (sub_ite _ (sub_refl _)
      (sub_bind (ih _) (fun _ => sub_refl _))))

theorem more_fuel_zero : MoreFuel 0 where
  identifier := fun _ => sub_none _
  index_ := fun _ _ => sub_none _
  function := fun _ _ => sub_none _
  function_arguments := fun _ _ _ => sub_none _
  atom := fun _ => sub_none _
  atom_calls := fun _ => sub_none _
  term := fun _ => sub_none _
  term_loop := fun _ => sub_none _
  addop := fun _ => sub_none _
  addop_loop := fun _ => sub_none _
  noncompare_expression := fun _ => sub_none _
  equality := fun _ => sub_none _
  expression := fun _ => sub_none _
  assignment := fun _ => sub_none _
  function_definition := fun _ => sub_none _
  if_statement := fun _ => sub_none _
  while_loop := fun _ => sub_none _
  return_statement := fun _ => sub_none _
  statement := fun _ => sub_none _
  block := fun _ => sub_none _
  block_loop := fun _ _ => sub_none _

theorem more_fuel_succ (n : Nat) (ih : MoreFuel n) : MoreFuel (n + 1) where
  identifier := by
    intro p
    simp only [identifier]
    exact sub_ite _ (sub_refl _) (ih.index_ _ _)
  index_ := by
    intro p r
    cases p with
    | nil => exact sub_refl _
    | cons c p =>
      simp only [index_]
      exact sub_ite _ (sub_refl _) (sub_bind (ih.identifier _) (fun _ => sub_refl _))
  function := by
    intro p c
    simp only [function]
    refine sub_ite _ (sub_refl _) (sub_bind (ih.expression _) (fun _ =>
      sub_bind (ih.function_arguments _ _ _) (fun _ =>
        sub_ite _ (sub_refl _) (ih.index_ _ _))))
  function_arguments := by
    intro ch p r
    simp only [function_arguments]
    exact sub_ite _ (sub_refl _) (sub_ite _ (sub_refl _)
      (sub_bind (ih.expression _) (fun _ => ih.function_arguments _ _ _)))
  atom := by
    intro p
    simp only [atom]
    refine sub_bind (sub_any _ _ ?_ p) (fun _ => sub_ite _ (ih.atom_calls _)
      (sub_bind (sub_seq _ _ ?_ p) (fun _ => sub_ite _ (sub_refl _) (ih.function _ _))))
    · exact .cons (fun _ => sub_refl _) (.cons ih.identifier .nil)
    · exact .cons (fun _ => sub_refl _) (.cons ih.addop (.cons (fun _ => sub_refl _) .nil))
  atom_calls := by
    intro r
    simp only [atom_calls]
    exact sub_bind (ih.function _ _) (fun _ => sub_ite _ (sub_refl _) (ih.atom_calls _))
  term := by
    intro p
    simp only [term]
    exact sub_bind (ih.atom _) (fun _ => sub_ite _ (sub_refl _) (ih.term_loop _))
  term_loop := by
    intro r
    simp only [term_loop]
    exact sub_bind (sub_refl _) (fun _ => sub_ite _ (sub_refl _)
      (sub_bind (ih.atom _) (fun _ => sub_ite _ (sub_refl _) (ih.term_loop _))))
  addop := by
    intro p
    simp only [addop]
    exact sub_bind (ih.term _) (fun _ => sub_ite _ (sub_refl _) (ih.addop_loop _))
  addop_loop := by
    intro r
    simp only [addop_loop]
    exact sub_bind (sub_refl _) (fun _ => sub_ite _ (sub_refl _)
      (sub_bind (ih.term _) (fun _ => sub_ite _ (sub_refl _) (ih.addop_loop _))))
  noncompare_expression := by
    intro p
    simp only [noncompare_expression]
    exact sub_any _ _ (.cons ih.addop .nil) p
  equality := by
    intro p
    simp only [equality]
    refine sub_bind (sub_seq _ _ ?_ p) (fun _ => sub_refl _)
    exact .cons ih.noncompare_expression (.cons (fun _ => sub_refl _)
      (.cons ih.noncompare_expression .nil))
  expression := by
    intro p
    simp only [expression]
    exact sub_any _ _ (.cons ih.function_definition (.cons ih.equality
      (.cons ih.noncompare_expression .nil))) p
  assignment := by
    intro p
    simp only [assignment]
    refine sub_bind (sub_seq _ _ ?_ p) (fun _ => sub_refl _)
    exact .cons ih.identifier (.cons (fun _ => sub_refl _) (.cons ih.expression .nil))
  function_definition := by
    intro p
    simp only [function_definition]
    refine sub_bind (sub_seq _ _ ?_ p) (fun _ => sub_refl _)
    exact .cons (fun _ => sub_refl _) (.cons (fun _ => sub_refl _)
      (.cons (fun _ => sub_refl _) (.cons (fun _ => sub_refl _) (.cons ih.block
        (.cons (fun _ => sub_refl _) .nil)))))
  if_statement := by
    intro p
    simp only [if_statement]
    refine sub_bind (sub_seq _ _ ?_ p) (fun _ => sub_ite _ (sub_refl _)
      (sub_ite _ (sub_ite _ (sub_bind (ih.block _) (fun _ => sub_refl _))
        (sub_bind (ih.if_statement _) (fun _ => sub_refl _))) (sub_refl _)))
    exact .cons (fun _ => sub_refl _) (.cons (fun _ => sub_refl _)
      (.cons ih.expression (.cons (fun _ => sub_refl _) (.cons (fun _ => sub_refl _)
        (.cons ih.block (.cons (fun _ => sub_refl _) .nil))))))
  while_loop := by
    intro p
    simp only [while_loop]
    refine sub_bind (sub_seq _ _ ?_ p) (fun _ => sub_refl _)
    exact .cons (fun _ => sub_refl _) (.cons (fun _ => sub_refl _)
      (.cons ih.expression (.cons (fun _ => sub_refl _) (.cons (fun _ => sub_refl _)
        (.cons ih.block (.cons (fun _ => sub_refl _) .nil))))))
  return_statement := by
    intro p
    simp only [return_statement]
    refine sub_bind (sub_seq _ _ ?_ p) (fun _ => sub_refl _)
    exact .cons (fun _ => sub_refl _) (.cons ih.expression .nil)
  statement := by
    intro p
    simp only [statement]
    exact sub_any _ _ (.cons ih.return_statement (.cons ih.assignment
      (.cons ih.if_statement (.cons ih.while_loop (.cons ih.expression .nil))))) p
  block := by
    intro p
    simp only [block]
    exact ih.block_loop _ _
  block_loop := by
    intro ch p
    simp only [block_loop]
    exact sub_bind (ih.statement _) (fun _ => sub_ite _ (sub_refl _) (ih.block_loop _ _))

theorem more_fuel : ∀ n, MoreFuel n := by
  intro n
  induction n with
  | zero => exact more_fuel_zero
  | succ n ih => exact more_fuel_succ n ih

/-! ## Arithmetic chains -/

theorem fuel_le {α β : Type} (f : Nat → α → Option β)
    (h : ∀ n x, Sub (f n x) (f (n + 1) x)) (x : α) :
    ∀ n m, n ≤ m → Sub (f n x) (f m x) := by
  intro n m hnm
  induction hnm with
  | refl => exact sub_refl _
  | step _ ih => exact sub_trans ih (h _ x)

theorem match_token_data (s : String) (program : List Char)
    (h : (match_token s program).success = true) :
    (match_token s program).data = .str TYPE_STR s := by
  unfold match_token at h ⊢
  split
  · rfl
  · rename_i hn
    rw [if_neg hn] at h
    cases h

theorem any_two (s1 s2 : String) (program : List Char) :
    any [lift (match_token s1), lift (match_token s2)] program =
      some (if (match_token s1 program).success = true then match_token s1 program
        else if (match_token s2 program).success = true then match_token s2 program
        else failure) := by
  simp only [any, lift, Option.some_bind]
  split
  · rfl
  · split <;> rfl

theorem term_loop_chain (f : Nat) :
    ∀ (steps : List (String × ParserResult)) (result : ParserResult) (final : List Char)
      (fuel : Nat), result.success = true →
      Chain (atom f) "*" "/" result.remainder steps final →
      f + steps.length + 1 ≤ fuel →
      term_loop fuel result =
        some { success := true, remainder := final, data := left_fold result.data steps } := by
  intro steps
  induction steps with
  | nil =>
    intro result final fuel hs hc hf
    obtain ⟨h1, h2, h3⟩ := hc
    obtain ⟨n, rfl⟩ : ∃ n, fuel = n + 1 := ⟨fuel - 1, by omega⟩
    simp only [term_loop, any_two, h1, h2, Option.some_bind]
    subst h3
    cases result
    simp_all [failure, left_fold]
  | cons step steps ih =>
    intro result final fuel hs hc hf
    obtain ⟨hop, hrh, hrs, hrest⟩ := hc
    obtain ⟨n, rfl⟩ : ∃ n, fuel = n + 1 := ⟨fuel - 1, by simp at hf; omega⟩
    have hn : f ≤ n := by simp at hf; omega
    have hop2 : (if (match_token "*" result.remainder).success = true
        then match_token "*" result.remainder
        else if (match_token "/" result.remainder).success = true
          then match_token "/" result.remainder else failure) =
        match_token step.1 result.remainder ∧
        (match_token step.1 result.remainder).success = true ∧
        (if (match_token step.1 result.remainder).data.value_str == "*" then TYPE_MULT
          else TYPE_DIV) = operator_kind step.1 := by
      rcases hop with ⟨h1, h2⟩ | ⟨h1, h2, h3⟩
      · rw [h1, if_pos h2, match_token_data _ _ h2]
        exact ⟨rfl, h2, by decide⟩
      · rw [h1, if_neg (by simp [h2]), if_pos h3, match_token_data _ _ h3]
        exact ⟨rfl, h3, by decide⟩
    obtain ⟨ha, hb, hk⟩ := hop2
    have hatom := (fuel_le atom (fun n => (more_fuel n).atom) _ f n hn).le _ hrh
    simp only [term_loop, any_two, Option.some_bind]
    rw [ha]
    simp only [hb, Bool.not_true, Bool.false_eq_true, if_false, hatom, Option.some_bind, hrs,
      hk]
    rw [ih _ final n rfl hrest (by simp at hf; omega)]
    rfl

theorem addop_loop_chain (f : Nat) :
    ∀ (steps : List (String × ParserResult)) (result : ParserResult) (final : List Char)
      (fuel : Nat), result.success = true →
      Chain (term f) "+" "-" result.remainder steps final →
      f + steps.length + 1 ≤ fuel →
      addop_loop fuel result =
        some { success := true, remainder := final, data := left_fold result.data steps } := by
  intro steps
  induction steps with
  | nil =>
    intro result final fuel hs hc hf
    obtain ⟨h1, h2, h3⟩ := hc
    obtain ⟨n, rfl⟩ : ∃ n, fuel = n + 1 := ⟨fuel - 1, by omega⟩
    simp only [addop_loop, any_two, h1, h2, Option.some_bind]
    subst h3
    cases result
    simp_all [failure, left_fold]
  | cons step steps ih =>
    intro result final fuel hs hc hf
    obtain ⟨hop, hrh, hrs, hrest⟩ := hc
    obtain ⟨n, rfl⟩ : ∃ n, fuel = n + 1 := ⟨fuel - 1, by simp at hf; omega⟩
    have hn : f ≤ n := by simp at hf; omega
    have hop2 : (if (match_token "+" result.remainder).success = true
        then match_token "+" result.remainder
        else if (match_token "-" result.remainder).success = true
          then match_token "-" result.remainder else failure) =
        match_token step.1 result.remainder ∧
        (match_token step.1 result.remainder).success = true ∧
        (if (match_token step.1 result.remainder).data.value_str == "+" then TYPE_ADD
          else TYPE_SUB) = operator_kind step.1 := by
      rcases hop with ⟨h1, h2⟩ | ⟨h1, h2, h3⟩
      · rw [h1, if_pos h2, match_token_data _ _ h2]
        exact ⟨rfl, h2, by decide⟩
      · rw [h1, if_neg (by simp [h2]), if_pos h3, match_token_data _ _ h3]
        exact ⟨rfl, h3, by decide⟩
    obtain ⟨ha, hb, hk⟩ := hop2
    have hterm := (fuel_le term (fun n => (more_fuel n).term) _ f n hn).le _ hrh
    simp only [addop_loop, any_two, Option.some_bind]
    rw [ha]
    simp only [hb, Bool.not_true, Bool.false_eq_true, if_false, hterm, Option.some_bind, hrs,
      hk]
    rw [ih _ final n rfl hrest (by simp at hf; omega)]
    rfl

theorem term_chain (f : Nat) (program : List Char) (t0 : ParserResult)
    (steps : List (String × ParserResult)) (final : List Char) (fuel : Nat)
    (h0 : atom f program = some t0) (hs : t0.success = true)
    (hc : Chain (atom f) "*" "/" t0.remainder steps final)
    (hf : f + steps.length + 2 ≤ fuel) :
    term fuel program =
      some { success := true, remainder := final, data := left_fold t0.data steps } := by
  obtain ⟨n, rfl⟩ : ∃ n, fuel = n + 1 := ⟨fuel - 1, by omega⟩
  have hatom := (fuel_le atom (fun n => (more_fuel n).atom) _ f n (by omega)).le _ h0
  simp only [term, hatom, Option.some_bind, hs, Bool.not_true, Bool.false_eq_true, if_false]
  exact term_loop_chain f steps t0 final n hs hc (by omega)

theorem addop_chain (f : Nat) (program : List Char) (t0 : ParserResult)
    (steps : List (String × ParserResult)) (final : List Char) (fuel : Nat)
    (h0 : term f program = some t0) (hs : t0.success = true)
    (hc : Chain (term f) "+" "-" t0.remainder steps final)
    (hf : f + steps.length + 2 ≤ fuel) :
    addop fuel program =
      some { success := true, remainder := final, data := left_fold t0.data steps } := by
  obtain ⟨n, rfl⟩ : ∃ n, fuel = n + 1 := ⟨fuel - 1, by omega⟩
  have hterm := (fuel_le term (fun n => (more_fuel n).term) _ f n (by omega)).le _ h0
  simp only [addop, hterm, Option.some_bind, hs, Bool.not_true, Bool.false_eq_true, if_false]
  exact addop_loop_chain f steps t0 final n hs hc (by omega)

/-- C15: a chain of one level is the left fold of its operands.  When `atom` reads `t0`
and the text goes on with the steps `* t` or `/ t` whose operands `atom` reads, `term`
returns the left fold of `t0` and these operands, each node with the kind of its
operator; when `term` reads `t0` and the text goes on with the steps `+ t` or `- t` whose
operands `term` reads, `addop` returns the left fold: the operands of `+` and `-` are
whole chains of `*` and `/`, which therefore bind tighter.  The fuel `fuel` is enough as
soon as it is `f + steps.length + 2` when the operands are read with fuel `f`.  So
`a - b - c` parses to sub(sub(a, b), c) and `a + b * c` to add(a, mult(b, c)). -/
theorem arithmetic_left_fold (f : Nat) (program : List Char) (t0 : ParserResult)
    (steps : List (String × ParserResult)) (final : List Char) (fuel : Nat)
    (hs : t0.success = true) (hf : f + steps.length + 2 ≤ fuel) :
    (atom f program = some t0 → Chain (atom f) "*" "/" t0.remainder steps final →
      term fuel program =
        some { success := true, remainder := final, data := left_fold t0.data steps }) ∧
    (term f program = some t0 → Chain (term f) "+" "-" t0.remainder steps final →
      addop fuel program =
        some { success := true, remainder := final, data := left_fold t0.data steps }) ∧
    (operator_kind "+" = TYPE_ADD ∧ operator_kind "-" = TYPE_SUB ∧
      operator_kind "*" = TYPE_MULT ∧ operator_kind "/" = TYPE_DIV) ∧
    addop 12 "a - b - c".toList =
      some (success [] (.children TYPE_SUB
        [.children TYPE_SUB [ident "a", ident "b"], ident "c"])) ∧
    addop 12 "a + b * c".toList =
      some (success [] (.children TYPE_ADD
        [ident "a", .children TYPE_MULT [ident "b", ident "c"]])) :=
  ⟨fun h0 hc => term_chain f program t0 steps final fuel h0 hs hc hf,
   fun h0 hc => addop_chain f program t0 steps final fuel h0 hs hc hf,
   ⟨by decide, by decide, by decide, by decide⟩, by decide, by decide⟩

theorem arithmetic_left_fold_witness :
    term 9 "a * b / c".toList =
      some (success [] (.children TYPE_DIV
        [.children TYPE_MULT [ident "a", ident "b"], ident "c"])) ∧
    addop 10 "a + b * c - d".toList =
      some (success [] (.children TYPE_SUB
        [.children TYPE_ADD [ident "a", .children TYPE_MULT [ident "b", ident "c"]],
         ident "d"])) :=
  ⟨(arithmetic_left_fold 5 "a * b / c".toList (success "* b / c".toList (ident "a"))
      [("*", success "/ c".toList (ident "b")), ("/", success [] (ident "c"))] [] 9
      (by decide) (by decide)).1 (by decide)
      ⟨Or.inl ⟨rfl, by decide⟩, by decide, by decide,
       Or.inr ⟨rfl, by decide, by decide⟩, by decide, by decide,
       by decide, by decide, rfl⟩,
   (arithmetic_left_fold 6 "a + b * c - d".toList (success "+ b * c - d".toList (ident "a"))
      [("+", success "- d".toList (.children TYPE_MULT [ident "b", ident "c"])),
       ("-", success [] (ident "d"))] [] 10
      (by decide) (by decide)).2.1 (by decide)
      ⟨Or.inl ⟨rfl, by decide⟩, by decide, by decide,
       Or.inr ⟨rfl, by decide, by decide⟩, by decide, by decide,
       by decide, by decide, rfl⟩⟩

/-! ## `jit_statement`: the steps of a successful compilation -/

/-- A statement that is no assignment, `return`, block, `if` or `while` node is compiled
as an expression. -/
theorem jit_statement_leaf (s : ProgramData) (e e' : Env)
    (hs : ∀ t vec, s = .children t vec →
      t ≠ TYPE_ASSIGNMENT ∧ t ≠ TYPE_RETURN ∧ t ≠ TYPE_BLOCK ∧ t ≠ TYPE_IF ∧ t ≠ TYPE_WHILE)
    (h : jit_statement s e = .ok e') :
    ∃ r, jit_expression s e = .ok (r, e') := by
  cases s with
  | nullptr =>
    simp only [jit_statement] at h
    split at h
    · cases h
    · rename_i r e1 hx
      simp only [Except.ok.injEq] at h
      exact ⟨r, by rw [hx, h]⟩
  | integer v =>
    simp only [jit_statement] at h
    split at h
    · cases h
    · rename_i r e1 hx
      simp only [Except.ok.injEq] at h
      exact ⟨r, by rw [hx, h]⟩
  | str t s =>
    simp only [jit_statement] at h
    split at h
    · cases h
    · rename_i r e1 hx
      simp only [Except.ok.injEq] at h
      exact ⟨r, by rw [hx, h]⟩
  | children t vec =>
    obtain ⟨h1, h2, h3, h4, h5⟩ := hs t vec rfl
    cases t
    case TYPE_ASSIGNMENT => exact absurd rfl h1
    case TYPE_RETURN => exact absurd rfl h2
    case TYPE_BLOCK => exact absurd rfl h3
    case TYPE_IF => exact absurd rfl h4
    case TYPE_WHILE => exact absurd rfl h5
    all_goals
      simp only [jit_statement] at h
      split at h
      · cases h
      · rename_i r e1 hx
        simp only [Except.ok.injEq] at h
        exact ⟨r, by rw [hx, h]⟩

/-- The steps of a successful compilation of an `if` node. -/
theorem jit_statement_if_ok (vec : List ProgramData) (e e' : Env)
    (h : jit_statement (.children TYPE_IF vec) e = .ok e') :
    ∃ cond thenb elseb rest exp e1 e2 e3, vec = cond :: thenb :: elseb :: rest ∧
      jit_expression cond e.newLabel.2.newLabel.2 = .ok (exp, e1) ∧
      jit_statement thenb ((e1.emit (.cmp_ri exp.reg 0)).emit (.je e.newLabel.1)) = .ok e2 ∧
      ((elseb = .nullptr ∧
          e3 = (e2.emit (.jmp e.newLabel.2.newLabel.1)).emit (.bind e.newLabel.1)) ∨
        (elseb ≠ .nullptr ∧
          jit_statement elseb
            ((e2.emit (.jmp e.newLabel.2.newLabel.1)).emit (.bind e.newLabel.1)) = .ok e3)) ∧
      e' = e3.emit (.bind e.newLabel.2.newLabel.1) := by
  rcases vec with _ | ⟨cond, _ | ⟨thenb, _ | ⟨elseb, rest⟩⟩⟩
  · simp [jit_statement] at h
  · simp only [jit_statement] at h
    cases hx : jit_expression cond e.newLabel.2.newLabel.2 <;> simp [hx] at h
  · simp only [jit_statement] at h
    cases hx : jit_expression cond e.newLabel.2.newLabel.2 with
    | error err => simp [hx] at h
    | ok q =>
      obtain ⟨exp, e1⟩ := q
      simp only [hx] at h
      cases ht : jit_statement thenb ((e1.emit (.cmp_ri exp.reg 0)).emit
          (.je e.newLabel.1)) <;> simp [ht] at h
  · simp only [jit_statement] at h
    cases hx : jit_expression cond e.newLabel.2.newLabel.2 with
    | error err => simp [hx] at h
    | ok q =>
      obtain ⟨exp, e1⟩ := q
      simp only [hx] at h
      cases ht : jit_statement thenb ((e1.emit (.cmp_ri exp.reg 0)).emit
          (.je e.newLabel.1)) with
      | error err => simp [ht] at h
      | ok e2 =>
        simp only [ht] at h
        cases elseb with
        | nullptr =>
          simp only [Except.ok.injEq] at h
          exact ⟨_, _, _, _, _, _, _, _, rfl, hx, ht, Or.inl ⟨rfl, rfl⟩, h.symm⟩
        | integer v =>
          simp only at h
          cases he : jit_statement (.integer v) ((e2.emit
              (.jmp e.newLabel.2.newLabel.1)).emit (.bind e.newLabel.1)) with
          | error err => simp [he] at h
          | ok e3 =>
            simp only [he, Except.ok.injEq] at h
            exact ⟨_, _, _, _, _, _, _, _, rfl, hx, ht, Or.inr ⟨by simp, he⟩, h.symm⟩
        | str ty v =>
          simp only at h
          cases he : jit_statement (.str ty v) ((e2.emit
              (.jmp e.newLabel.2.newLabel.1)).emit (.bind e.newLabel.1)) with
          | error err => simp [he] at h
          | ok e3 =>
            simp only [he, Except.ok.injEq] at h
            exact ⟨_, _, _, _, _, _, _, _, rfl, hx, ht, Or.inr ⟨by simp, he⟩, h.symm⟩
        | children t2 v2 =>
          simp only at h
          cases he : jit_statement (.children t2 v2) ((e2.emit
              (.jmp e.newLabel.2.newLabel.1)).emit (.bind e.newLabel.1)) with
          | error err => simp [he] at h
          | ok e3 =>
            simp only [he, Except.ok.injEq] at h
            exact ⟨_, _, _, _, _, _, _, _, rfl, hx, ht, Or.inr ⟨by simp, he⟩, h.symm⟩

/-- The steps of a successful compilation of a `while` node. -/
theorem jit_statement_while_ok (vec : List ProgramData) (e e' : Env)
    (h : jit_statement (.children TYPE_WHILE vec) e = .ok e') :
    ∃ cond body rest exp e1 e2, vec = cond :: body :: rest ∧
      jit_expression cond (e.newLabel.2.newLabel.2.emit (.bind e.newLabel.1)) =
        .ok (exp, e1) ∧
      jit_statement body
        ((e1.emit (.cmp_ri exp.reg 0)).emit (.je e.newLabel.2.newLabel.1)) = .ok e2 ∧
      e' = (e2.emit (.jmp e.newLabel.1)).emit (.bind e.newLabel.2.newLabel.1) := by
  rcases vec with _ | ⟨cond, _ | ⟨body, rest⟩⟩
  · simp [jit_statement] at h
  · simp only [jit_statement] at h
    cases hx : jit_expression cond (e.newLabel.2.newLabel.2.emit (.bind e.newLabel.1)) <;>
      simp [hx] at h
  · simp only [jit_statement] at h
    cases hx : jit_expression cond (e.newLabel.2.newLabel.2.emit (.bind e.newLabel.1)) with
    | error err => simp [hx] at h
    | ok q =>
      obtain ⟨exp, e1⟩ := q
      simp only [hx] at h
      cases hb : jit_statement body ((e1.emit (.cmp_ri exp.reg 0)).emit
          (.je e.newLabel.2.newLabel.1)) with
      | error err => simp [hb] at h
      | ok e2 =>
        simp only [hb, Except.ok.injEq] at h
        exact ⟨_, _, _, _, _, _, rfl, hx, hb, h.symm⟩

/-- The steps of a successful compilation of an assignment node. -/
theorem jit_statement_assignment_ok (vec : List ProgramData) (e e' : Env)
    (h : jit_statement (.children TYPE_ASSIGNMENT vec) e = .ok e') :
    ∃ ty var rhs rest exp e1, vec = .str ty var :: rhs :: rest ∧
      jit_expression rhs e = .ok (exp, e1) ∧ e' = jit_assignment exp var e1 := by
  rcases vec with _ | ⟨target, _ | ⟨rhs, rest⟩⟩
  · simp [jit_statement] at h
  · simp [jit_statement] at h
  · simp only [jit_statement] at h
    cases hx : jit_expression rhs e with
    | error err => simp [hx] at h
    | ok q =>
      obtain ⟨exp, e1⟩ := q
      simp only [hx] at h
      cases target with
      | str ty var =>
        simp only [Except.ok.injEq] at h
        exact ⟨_, _, _, _, _, _, rfl, hx, h.symm⟩
      | nullptr => cases h
      | integer v => cases h
      | children t2 v2 => cases h

/-- The steps of a successful compilation of a `return` node. -/
theorem jit_statement_return_ok (vec : List ProgramData) (e e' : Env)
    (h : jit_statement (.children TYPE_RETURN vec) e = .ok e') :
    ∃ x rest exp e1, vec = x :: rest ∧ jit_expression x e = .ok (exp, e1) ∧
      e' = e1.emit (.ret exp.reg) := by
  rcases vec with _ | ⟨x, rest⟩
  · simp [jit_statement] at h
  · simp only [jit_statement] at h
    cases hx : jit_expression x e with
    | error err => simp [hx] at h
    | ok q =>
      obtain ⟨exp, e1⟩ := q
      simp only [hx, Except.ok.injEq] at h
      exact ⟨_, _, _, _, rfl, hx, h.symm⟩

/-- The steps of a successful compilation of a block: the statements in order. -/
theorem jit_block_cons_ok (x : ProgramData) (rest : List ProgramData) (e e' : Env)
    (h : jit_block (x :: rest) e = .ok e') :
    ∃ e1, jit_statement x e = .ok e1 ∧ jit_block rest e1 = .ok e' := by
  simp only [jit_block] at h
  cases hx : jit_statement x e with
  | error err => simp [hx] at h
  | ok e1 =>
    simp only [hx] at h
    exact ⟨e1, rfl, h⟩

/-- A relation between the environments before and after a step holds for the compilation
of every statement when it is reflexive and transitive, holds for the compilation of every
expression, for the bookkeeping of an assignment and for the emission of `ret`, and is
kept by the frames that `if` and `while` put around their parts. -/
theorem jit_statement_rel (R : Env → Env → Prop) (hrefl : ∀ e, R e e)
    (htrans : ∀ e1 e2 e3, R e1 e2 → R e2 e3 → R e1 e3)
    (hexpr : ∀ x e r e', jit_expression x e = .ok (r, e') → R e e')
    (hassign : ∀ exp var e, R e (jit_assignment exp var e))
    (hret : ∀ e reg, R e (e.emit (.ret reg)))
    (hif : ∀ e reg e1 e2 e3, R e.newLabel.2.newLabel.2 e1 →
      R ((e1.emit (.cmp_ri reg 0)).emit (.je e.newLabel.1)) e2 →
      R ((e2.emit (.jmp e.newLabel.2.newLabel.1)).emit (.bind e.newLabel.1)) e3 →
      R e (e3.emit (.bind e.newLabel.2.newLabel.1)))
    (hwhile : ∀ e reg e1 e2, R (e.newLabel.2.newLabel.2.emit (.bind e.newLabel.1)) e1 →
      R ((e1.emit (.cmp_ri reg 0)).emit (.je e.newLabel.2.newLabel.1)) e2 →
      R e ((e2.emit (.jmp e.newLabel.1)).emit (.bind e.newLabel.2.newLabel.1))) :
    ∀ (s : ProgramData) (e e' : Env), jit_statement s e = .ok e' → R e e' := by
  intro s
  induction s using ProgramData.induct_children with
  | hnull =>
    intro e e' h
    obtain ⟨r, hr⟩ := jit_statement_leaf _ e e' (by intro t vec ht; cases ht) h
    exact hexpr _ _ _ _ hr
  | hint v =>
    intro e e' h
    obtain ⟨r, hr⟩ := jit_statement_leaf _ e e' (by intro t vec ht; cases ht) h
    exact hexpr _ _ _ _ hr
  | hstr t s =>
    intro e e' h
    obtain ⟨r, hr⟩ := jit_statement_leaf _ e e' (by intro t vec ht; cases ht) h
    exact hexpr _ _ _ _ hr
  | hch t vec ih =>
    intro e e' h
    by_cases ht : t = TYPE_ASSIGNMENT ∨ t = TYPE_RETURN ∨ t = TYPE_BLOCK ∨ t = TYPE_IF ∨
        t = TYPE_WHILE
    · rcases ht with rfl | rfl | rfl | rfl | rfl
      · obtain ⟨ty, var, rhs, rest, exp, e1, _, hx, he⟩ := jit_statement_assignment_ok vec e e' h
        rw [he]
        exact htrans _ _ _ (hexpr _ _ _ _ hx) (hassign _ _ _)
      · obtain ⟨x, rest, exp, e1, _, hx, he⟩ := jit_statement_return_ok vec e e' h
        rw [he]
        exact htrans _ _ _ (hexpr _ _ _ _ hx) (hret _ _)
      · simp only [jit_statement] at h
        clear hexpr hassign hret hif hwhile
        induction vec generalizing e with
        | nil =>
          simp only [jit_block, Except.ok.injEq] at h
          rw [← h]
          exact hrefl e
        | cons x rest ihl =>
          obtain ⟨e1, hx, hr⟩ := jit_block_cons_ok x rest e e' h
          exact htrans _ _ _ (ih x (by simp) e e1 hx)
            (ihl (fun y hy => ih y (by simp [hy])) e1 hr)
      · obtain ⟨cond, thenb, elseb, rest, exp, e1, e2, e3, hv, hx, hthen, helse, he⟩ :=
          jit_statement_if_ok vec e e' h
        rw [he]
        refine hif e exp.reg e1 e2 e3 (hexpr _ _ _ _ hx)
          (ih thenb (by simp [hv]) _ _ hthen) ?_
        rcases helse with ⟨_, h3⟩ | ⟨_, h3⟩
        · rw [h3]
          exact hrefl _
        · exact ih elseb (by simp [hv]) _ _ h3
      · obtain ⟨cond, body, rest, exp, e1, e2, hv, hx, hb, he⟩ :=
          jit_statement_while_ok vec e e' h
        rw [he]
        exact hwhile e exp.reg e1 e2 (hexpr _ _ _ _ hx) (ih body (by simp [hv]) _ _ hb)
    · obtain ⟨r, hr⟩ := jit_statement_leaf _ e e'
        (by
          intro t2 vec2 heq
          injection heq with h1 h2
          subst h1
          refine ⟨?_, ?_, ?_, ?_, ?_⟩ <;> intro hc <;> simp [hc] at ht) h
      exact hexpr _ _ _ _ hr


/-! ## The capacity of a list -/

theorem Env.LocalsOk.of_state {e e' : Env} (h : e.LocalsOk) (hs : e'.state.vars = e.state.vars)
    (ho : e'.state.offset = e.state.offset) : e'.LocalsOk :=
  ⟨by rw [ho, hs]; exact h.offset_eq, by rw [hs]; exact h.slots, by rw [hs]; exact h.names⟩

theorem umap_set_fresh {K V : Type} [DecidableEq K] (m : List (K × V)) (k : K) (v : V)
    (h : umap_find m k = none) : umap_set m k v = m ++ [(k, v)] ∧ k ∉ m.map Prod.fst := by
  induction m with
  | nil => simp [umap_set]
  | cons x m ih =>
    obtain ⟨k', v'⟩ := x
    by_cases hk : k' = k
    · simp [umap_find, hk] at h
    · simp only [umap_find, hk, if_false] at h
      obtain ⟨h1, h2⟩ := ih h
      refine ⟨by simp [umap_set, hk, h1], ?_⟩
      simp only [List.map_cons, List.mem_cons, not_or]
      exact ⟨fun hc => hk hc.symm, h2⟩

theorem umap_find_mem {K V : Type} [DecidableEq K] (m : List (K × V)) (k : K) (v : V)
    (h : umap_find m k = some v) : (k, v) ∈ m := by
  induction m with
  | nil => simp [umap_find] at h
  | cons x m ih =>
    obtain ⟨k', v'⟩ := x
    by_cases hk : k' = k
    · simp only [umap_find, hk, if_true, Option.some.injEq] at h
      simp [hk, h]
    · simp only [umap_find, hk, if_false] at h
      exact List.mem_cons_of_mem _ (ih h)

theorem jit_assignment_state (exp : Expression) (var : String) (e : Env) :
    (umap_find e.state.vars var = none →
      (jit_assignment exp var e).state.vars =
        e.state.vars ++ [(var, { type := exp.type, stack_offset := e.state.offset })] ∧
      (jit_assignment exp var e).state.offset = e.state.offset + 8 ∧
      var ∉ e.state.vars.map Prod.fst) ∧
    (∀ v, umap_find e.state.vars var = some v →
      (jit_assignment exp var e).state.vars = e.state.vars ∧
      (jit_assignment exp var e).state.offset = e.state.offset) := by
  constructor
  · intro h
    obtain ⟨h1, h2⟩ := umap_set_fresh e.state.vars var
      ({ type := exp.type, stack_offset := e.state.offset } : StackVar) h
    refine ⟨?_, ?_, h2⟩
    · simp [jit_assignment, h, Env.emit, h1]
    · simp [jit_assignment, h, Env.emit]
  · intro v h
    constructor <;> simp [jit_assignment, h, Env.emit]

theorem Env.LocalsOk.after_assignment {e : Env} (h : e.LocalsOk) (exp : Expression)
    (var : String) : (jit_assignment exp var e).LocalsOk := by
  obtain ⟨hnew, hold⟩ := jit_assignment_state exp var e
  cases hf : umap_find e.state.vars var with
  | some v =>
    obtain ⟨h1, h2⟩ := hold v hf
    exact h.of_state h1 h2
  | none =>
    obtain ⟨h1, h2, h3⟩ := hnew hf
    constructor
    · rw [h2, h1, h.offset_eq]
      simp
      ring
    · rw [h1]
      simp only [List.map_append, List.map_cons, List.map_nil, List.length_append,
        List.length_singleton, List.range_succ]
      rw [h.slots, h.offset_eq]
    · rw [h1]
      simp only [List.map_append, List.map_cons, List.map_nil]
      exact List.Nodup.append h.names (by simp) (by simpa using h3)

/-- Every statement keeps the invariant of the locals. -/
theorem jit_statement_locals : ∀ (s : ProgramData) (e e' : Env),
    jit_statement s e = .ok e' → e.LocalsOk → e'.LocalsOk := by
  apply jit_statement_rel (fun e e' => e.LocalsOk → e'.LocalsOk)
  · intro e h; exact h
  · intro e1 e2 e3 h12 h23 h; exact h23 (h12 h)
  · intro x e r e' hx h
    obtain ⟨h1, h2⟩ := jit_expression_same_locals x e r e' hx
    exact h.of_state h1 h2
  · intro exp var e h; exact h.after_assignment exp var
  · intro e reg h; exact h.of_state rfl rfl
  · intro e reg e1 e2 e3 h1 h2 h3 h
    have a1 := h1 (h.of_state rfl rfl)
    have a2 := h2 (a1.of_state rfl rfl)
    have a3 := h3 (a2.of_state rfl rfl)
    exact a3.of_state rfl rfl
  · intro e reg e1 e2 h1 h2 h
    have a1 := h1 (h.of_state rfl rfl)
    have a2 := h2 (a1.of_state rfl rfl)
    exact a2.of_state rfl rfl

/-- The slots of a table that satisfies the invariant. -/
theorem Env.LocalsOk.slot {e : Env} (h : e.LocalsOk) (name : String) (slot : StackVar)
    (hf : umap_find e.state.vars name = some slot) :
    ∃ i, i < e.state.vars.length ∧ slot.stack_offset = 8 * i := by
  have hm := umap_find_mem _ _ _ hf
  have hm2 : slot.stack_offset ∈ e.state.vars.map (fun v => v.2.stack_offset) :=
    List.mem_map.mpr ⟨(name, slot), hm, rfl⟩
  rw [h.slots] at hm2
  obtain ⟨i, hi, hi2⟩ := List.mem_map.mp hm2
  exact ⟨i, List.mem_range.mp hi, hi2.symm⟩

theorem Env.LocalsOk.distinct {e : Env} (h : e.LocalsOk) :
    (e.state.vars.map (fun v => v.2.stack_offset)).Nodup := by
  rw [h.slots]
  exact (List.nodup_range _).map (fun a b hab => by simpa using hab)

/-- The names of the locals after a statement are the names before it and the names the
statement assigns to. -/
theorem jit_statement_names : ∀ (s : ProgramData) (e e' : Env),
    jit_statement s e = .ok e' →
    ∀ name, name ∈ e'.state.vars.map Prod.fst →
      name ∈ e.state.vars.map Prod.fst ∨ name ∈ assigned_names s := by
  have hleaf : ∀ (s : ProgramData) (e e' : Env) (r : Expression),
      jit_expression s e = .ok (r, e') → ∀ name, name ∈ e'.state.vars.map Prod.fst →
        name ∈ e.state.vars.map Prod.fst ∨ name ∈ assigned_names s := by
    intro s e e' r hr name hn
    rw [(jit_expression_same_locals s e r e' hr).1] at hn
    exact Or.inl hn
  intro s
  induction s using ProgramData.induct_children with
  | hnull =>
    intro e e' h
    obtain ⟨r, hr⟩ := jit_statement_leaf _ e e' (by intro t vec ht; cases ht) h
    exact hleaf _ _ _ _ hr
  | hint v =>
    intro e e' h
    obtain ⟨r, hr⟩ := jit_statement_leaf _ e e' (by intro t vec ht; cases ht) h
    exact hleaf _ _ _ _ hr
  | hstr t s =>
    intro e e' h
    obtain ⟨r, hr⟩ := jit_statement_leaf _ e e' (by intro t vec ht; cases ht) h
    exact hleaf _ _ _ _ hr
  | hch t vec ih =>
    intro e e' h name hn
    by_cases ht : t = TYPE_ASSIGNMENT ∨ t = TYPE_RETURN ∨ t = TYPE_BLOCK ∨ t = TYPE_IF ∨
        t = TYPE_WHILE
    · rcases ht with rfl | rfl | rfl | rfl | rfl
      · obtain ⟨ty, var, rhs, rest, exp, e1, hv, hx, he⟩ :=
          jit_statement_assignment_ok vec e e' h
        subst hv
        obtain ⟨hnew, hold⟩ := jit_assignment_state exp var e1
        have hsame := (jit_expression_same_locals rhs e exp e1 hx).1
        rw [he] at hn
        cases hf : umap_find e1.state.vars var with
        | some v =>
          rw [(hold v hf).1, hsame] at hn
          exact Or.inl hn
        | none =>
          rw [(hnew hf).1, hsame] at hn
          simp only [List.map_append, List.map_cons, List.map_nil, List.mem_append,
            List.mem_singleton] at hn
          rcases hn with hn | hn
          · exact Or.inl hn
          · right
            simp [assigned_names, hn]
      · obtain ⟨x, rest, exp, e1, _, hx, he⟩ := jit_statement_return_ok vec e e' h
        rw [he] at hn
        have hsame := (jit_expression_same_locals x e exp e1 hx).1
        left
        rw [← hsame]
        exact hn
      · simp only [jit_statement] at h
        simp only [assigned_names]
        clear hleaf
        induction vec generalizing e with
        | nil =>
          simp only [jit_block, Except.ok.injEq] at h
          rw [← h] at hn
          exact Or.inl hn
        | cons x rest ihl =>
          obtain ⟨e1, hx, hr⟩ := jit_block_cons_ok x rest e e' h
          rcases ihl (fun y hy => ih y (by simp [hy])) e1 hr with h1 | h1
          · rcases ih x (by simp) e e1 hx name h1 with h2 | h2
            · exact Or.inl h2
            · right
              simp [assigned_names_block, h2]
          · right
            simp [assigned_names_block, h1]
      · obtain ⟨cond, thenb, elseb, rest, exp, e1, e2, e3, hv, hx, hthen, helse, he⟩ :=
          jit_statement_if_ok vec e e' h
        subst hv
        rw [he] at hn
        have hsame := (jit_expression_same_locals cond _ exp e1 hx).1
        have h3 : name ∈ e2.state.vars.map Prod.fst ∨ name ∈ assigned_names elseb := by
          rcases helse with ⟨_, h3⟩ | ⟨_, h3⟩
          · rw [h3] at hn
            exact Or.inl hn
          · exact ih elseb (by simp) _ _ h3 name hn
        simp only [assigned_names, List.mem_append]
        rcases h3 with h3 | h3
        · rcases ih thenb (by simp) _ _ hthen name h3 with h2 | h2
          · left
            have h2' : name ∈ e1.state.vars.map Prod.fst := h2
            rw [hsame] at h2'
            exact h2'
          · exact Or.inr (Or.inl h2)
        · exact Or.inr (Or.inr h3)
      · obtain ⟨cond, body, rest, exp, e1, e2, hv, hx, hb, he⟩ :=
          jit_statement_while_ok vec e e' h
        subst hv
        rw [he] at hn
        have hsame := (jit_expression_same_locals cond _ exp e1 hx).1
        simp only [assigned_names]
        rcases ih body (by simp) _ _ hb name hn with h2 | h2
        · left
          have h2' : name ∈ e1.state.vars.map Prod.fst := h2
          rw [hsame] at h2'
          exact h2'
        · exact Or.inr h2
    · obtain ⟨r, hr⟩ := jit_statement_leaf _ e e'
        (by
          intro t2 vec2 heq
          injection heq with h1 h2
          subst h1
          refine ⟨?_, ?_, ?_, ?_, ?_⟩ <;> intro hc <;> simp [hc] at ht) h
      exact hleaf _ _ _ _ hr name hn


theorem compile_statements_locals (program : List ProgramData) :
    ∀ (e e' : Env), compile_statements program e = .ok e' → e.LocalsOk → e'.LocalsOk := by
  induction program with
  | nil =>
    intro e e' h hok
    simp only [compile_statements, Except.ok.injEq] at h
    rw [← h]
    exact hok
  | cons s rest ih =>
    intro e e' h hok
    simp only [compile_statements] at h
    cases hs : jit_statement s e with
    | error err => simp [hs] at h
    | ok e1 =>
      simp only [hs] at h
      exact ih e1 e' h (jit_statement_locals s e e1 hs hok)

/-- The state `main` has built before the first statement: no locals, no pending
function, the top-level function opened, and "function returning untyped" memoized as
type 2. -/
theorem main_init_state (fp : NativeFunctions) :
    ∃ e0 : Env, main_init fp = some e0 ∧ e0.state.vars = [] ∧ e0.state.offset = 0 ∧
      e0.state.remainders = [] ∧ e0.a.code = [.func 0] ∧ e0.a.labels = 1 ∧
      umap_find e0.g.return_types none = some (some 2) :=
  ⟨_, rfl, rfl, rfl, rfl, rfl, rfl, rfl⟩

theorem main_init_locals (fp : NativeFunctions) (e0 : Env) (h : main_init fp = some e0) :
    e0.LocalsOk := by
  obtain ⟨e1, h1, hv, ho, _⟩ := main_init_state fp
  rw [h] at h1
  injection h1 with h1
  subst h1
  exact ⟨by simp [hv, ho], by simp [hv], by simp [hv]⟩

theorem body_env_locals (e : Env) (frem : FunctionRemainder) (rest : List FunctionRemainder) :
    (body_env e frem rest).LocalsOk :=
  ⟨rfl, rfl, List.nodup_nil⟩

/-- C25: the invariant of the locals (the bump offset is 8 times the number of locals, the
slots are at the offsets 0, 8, .., one per name) holds in the state `main` builds for the
top level and in the state it builds for every function body, and every statement that
compiles keeps it, so it holds after each statement of a function.  Under it the slot
offsets are pairwise distinct and every slot is at `8 * i` for an `i` below the number of
locals.  The locals after a statement are the locals before it and the names it assigns
to; so a statement compiled from a state without locals that assigns to at most 32
distinct names leaves every slot inside the 256 bytes of the frame. -/
theorem locals_slots (s : ProgramData) (e e' : Env) (hok : e.LocalsOk)
    (h : jit_statement s e = .ok e') :
    e'.LocalsOk ∧
    (e'.state.vars.map (fun v => v.2.stack_offset)).Nodup ∧
    (∀ name slot, umap_find e'.state.vars name = some slot →
      ∃ i, i < e'.state.vars.length ∧ slot.stack_offset = 8 * i) ∧
    (∀ name, name ∈ e'.state.vars.map Prod.fst →
      name ∈ e.state.vars.map Prod.fst ∨ name ∈ assigned_names s) ∧
    (e.state.vars = [] → (assigned_names s).dedup.length ≤ 32 →
      e'.state.vars.length ≤ 32 ∧
      ∀ name slot, umap_find e'.state.vars name = some slot →
        slot.stack_offset + 8 ≤ 256) ∧
    (∀ fp e0, main_init fp = some e0 → e0.LocalsOk) ∧
    (∀ e1 frem rest, (body_env e1 frem rest).LocalsOk) ∧
    (∀ program e1, compile_statements program e = .ok e1 → e1.LocalsOk) := by
  have hok' := jit_statement_locals s e e' h hok
  have hnames := jit_statement_names s e e' h
  refine ⟨hok', hok'.distinct, hok'.slot, hnames, ?_, main_init_locals, body_env_locals,
    fun program e1 h1 => compile_statements_locals program e e1 h1 hok⟩
  intro hv hle
  have hsub : e'.state.vars.map Prod.fst ⊆ (assigned_names s).dedup := by
    intro name hn
    rcases hnames name hn with h1 | h1
    · rw [hv] at h1
      cases h1
    · exact List.mem_dedup.mpr h1
  have hlen : e'.state.vars.length ≤ 32 := by
    have := (hok'.names.subperm hsub).length_le
    simp only [List.length_map] at this
    omega
  refine ⟨hlen, ?_⟩
  intro name slot hf
  obtain ⟨i, hi, hi2⟩ := hok'.slot name slot hf
  omega

/-- The block `x = 5 y = 6 x = 7` compiled in `demo_env`: two locals, `x` at offset 0 and
`y` at offset 8, and the bump offset is 16. -/
theorem locals_slots_witness :
    ∃ e' : Env, jit_statement three_assignments demo_env = .ok e' ∧
      e'.state.vars = [("x", { type := none, stack_offset := 0 }),
        ("y", { type := none, stack_offset := 8 })] ∧
      e'.state.offset = 16 ∧
      e'.LocalsOk ∧
      (∀ name slot, umap_find e'.state.vars name = some slot →
        slot.stack_offset + 8 ≤ 256) :=
  ⟨_, rfl, rfl, rfl,
    (locals_slots three_assignments demo_env _ ⟨rfl, rfl, List.nodup_nil⟩ rfl).1,
    ((locals_slots three_assignments demo_env _ ⟨rfl, rfl, List.nodup_nil⟩ rfl).2.2.2.2.1
      rfl (by decide)).2⟩


/-! ## The code a compilation step adds -/

theorem Env.Adds.adds_same (e : Env) : e.Adds e [] := ⟨by simp, le_refl _⟩

theorem Env.Adds.adds_then {e1 e2 e3 : Env} {n1 n2 : List Inst} (h12 : e1.Adds e2 n1)
    (h23 : e2.Adds e3 n2) : e1.Adds e3 (n1 ++ n2) :=
  ⟨by rw [h23.code_eq, h12.code_eq, List.append_assoc], le_trans h12.labels_le h23.labels_le⟩

theorem Env.Adds.unique {e e' : Env} {n1 n2 : List Inst} (h1 : e.Adds e' n1)
    (h2 : e.Adds e' n2) : n1 = n2 := by
  have := h1.code_eq.symm.trans h2.code_eq
  exact List.append_cancel_left this

theorem Env.Adds.adds_of_emit (e : Env) (i : Inst) : e.Adds (e.emit i) [i] := ⟨rfl, le_refl _⟩

theorem Env.Adds.adds_of_newGpq (e : Env) : e.Adds e.newGpq.2 [] := ⟨by simp [Env.newGpq,
  X86Compiler.newGpq], le_refl _⟩

theorem Env.Adds.adds_of_newLabel (e : Env) : e.Adds e.newLabel.2 [] :=
  ⟨by simp [Env.newLabel, X86Compiler.newLabel],
   by simp [Env.newLabel, X86Compiler.newLabel]⟩

theorem Env.Straight.straight_same (e : Env) : e.Straight e :=
  ⟨[], Env.Adds.adds_same e, by simp⟩

theorem Env.Straight.straight_then {e1 e2 e3 : Env} (h12 : e1.Straight e2) (h23 : e2.Straight e3) :
    e1.Straight e3 := by
  obtain ⟨n1, a1, s1⟩ := h12
  obtain ⟨n2, a2, s2⟩ := h23
  refine ⟨n1 ++ n2, a1.adds_then a2, ?_⟩
  intro i hi
  rcases List.mem_append.mp hi with h | h
  · exact s1 i h
  · exact s2 i h

theorem Env.Straight.straight_of_emit (e : Env) (i : Inst) (hi : i.straight = true) :
    e.Straight (e.emit i) :=
  ⟨[i], Env.Adds.adds_of_emit e i, by simpa using hi⟩

theorem Env.Straight.straight_of_newGpq (e : Env) : e.Straight e.newGpq.2 :=
  ⟨[], Env.Adds.adds_of_newGpq e, by simp⟩

theorem Env.Straight.of_code (e e' : Env) (i : Inst) (hi : i.straight = true)
    (hc : e'.a.code = e.a.code ++ [i]) (hl : e.a.labels ≤ e'.a.labels) : e.Straight e' :=
  ⟨[i], ⟨hc, hl⟩, by simpa using hi⟩

theorem jit_integer_straight (v : Int) (e : Env) : e.Straight (jit_integer v e).2 :=
  (Env.Straight.straight_of_newGpq e).straight_then (Env.Straight.straight_of_emit _ _ (by rfl))

theorem jit_function_def_straight (body : ProgramData) (e : Env) :
    e.Straight (jit_function_def body e).2 :=
  ⟨[.lea (.virt e.a.gps) (.label e.a.labels)],
    ⟨by simp [jit_function_def, Env.emit, Env.newGpq, X86Compiler.emit, X86Compiler.newGpq,
        X86Compiler.newFunc],
     by simp [jit_function_def, Env.emit, Env.newGpq, X86Compiler.emit, X86Compiler.newGpq,
        X86Compiler.newFunc]⟩,
    by simp [Inst.straight]⟩

theorem jit_index_straight (exp : Expression) (property : String) (e : Env) (r : Expression)
    (e' : Env) (h : jit_index exp property e = .ok (r, e')) : e.Straight e' := by
  unfold jit_index at h
  split at h
  · cases h
  · split at h
    · cases h
    · split at h
      · cases h
      · simp only [Except.ok.injEq, Prod.mk.injEq] at h
        rw [← h.2]
        exact ((((((Env.Straight.straight_of_newGpq e).straight_then (Env.Straight.straight_of_emit _ _ (by rfl))).straight_then
          (Env.Straight.straight_of_emit _ _ (by rfl))).straight_then (Env.Straight.straight_of_newGpq _)).straight_then
          (Env.Straight.straight_of_emit _ _ (by rfl))).straight_then (Env.Straight.straight_of_emit _ _ (by rfl))).straight_then
          (Env.Straight.straight_of_emit _ _ (by rfl))

theorem jit_identifier_straight (str : String) (e : Env) (r : Expression) (e' : Env)
    (h : jit_identifier str e = .ok (r, e')) : e.Straight e' := by
  unfold jit_identifier at h
  split at h
  · simp only [Except.ok.injEq, Prod.mk.injEq] at h
    rw [← h.2]
    exact Env.Straight.of_code _ _ (.mov_rm _ _) rfl rfl (le_refl _)
  · split at h
    · simp only [Except.ok.injEq, Prod.mk.injEq] at h
      rw [← h.2]
      exact (Env.Straight.straight_of_newGpq e).straight_then (Env.Straight.straight_of_emit _ _ (by rfl))
    · cases h

theorem jit_call_straight (exp : Expression) (regs : List X86Gp) (size : Nat) (e : Env)
    (r : Expression) (e' : Env) (h : jit_call exp regs size e = .ok (r, e')) :
    e.Straight e' := by
  unfold jit_call at h
  simp only at h
  split at h
  · cases h
  · split at h
    · cases h
    · simp only [Except.ok.injEq, Prod.mk.injEq] at h
      rw [← h.2]
      exact (Env.Straight.straight_of_newGpq e).straight_then (Env.Straight.straight_of_emit _ _ (by rfl))

theorem jit_binary_straight (type : ProgramType) (reg_a reg_b : X86Gp) (e e' : Env)
    (h : jit_binary type reg_a reg_b e = some e') : e.Straight e' := by
  cases type <;> simp only [jit_binary] at h <;> cases h <;>
    first
      | exact Env.Straight.straight_of_emit _ _ (by rfl)
      | exact (Env.Straight.straight_of_emit _ _ (by rfl)).straight_then (Env.Straight.straight_of_emit _ _ (by rfl))
      | exact ((Env.Straight.straight_of_newGpq _).straight_then (Env.Straight.straight_of_emit _ _ (by rfl))).straight_then
          (Env.Straight.straight_of_emit _ _ (by rfl))

theorem jit_assignment_straight (exp : Expression) (var : String) (e : Env) :
    e.Straight (jit_assignment exp var e) := by
  unfold jit_assignment
  cases umap_find e.state.vars var with
  | none => exact Env.Straight.of_code _ _ (.mov_mr _ _) rfl rfl (le_refl _)
  | some v => exact Env.Straight.of_code _ _ (.mov_mr _ _) rfl rfl (le_refl _)

/-- The code of an expression binds no label and opens or closes no function. -/
theorem jit_expression_straight : ∀ (x : ProgramData) (e : Env) (r : Expression) (e' : Env),
    jit_expression x e = .ok (r, e') → e.Straight e' :=
  jit_expression_rel Env.Straight Env.Straight.straight_same (fun _ _ _ h1 h2 => h1.straight_then h2)
    jit_integer_straight jit_function_def_straight jit_identifier_straight
    jit_index_straight jit_call_straight jit_binary_straight

theorem Env.Straight.scoped {e e' : Env} (h : e.Straight e') : e.Scoped e' := by
  obtain ⟨n, a, s⟩ := h
  refine ⟨n, a, ?_, ?_, ?_⟩
  · intro f hf
    have := s _ hf
    simp [Inst.straight] at this
  · intro hf
    have := s _ hf
    simp [Inst.straight] at this
  · intro l hl
    have := s _ hl
    simp [Inst.straight] at this

theorem Env.Scoped.scoped_same (e : Env) : e.Scoped e := (Env.Straight.straight_same e).scoped

theorem Env.Scoped.scoped_then {e1 e2 e3 : Env} (h12 : e1.Scoped e2) (h23 : e2.Scoped e3) :
    e1.Scoped e3 := by
  obtain ⟨n1, a1, f1, c1, b1⟩ := h12
  obtain ⟨n2, a2, f2, c2, b2⟩ := h23
  refine ⟨n1 ++ n2, a1.adds_then a2, ?_, ?_, ?_⟩
  · intro f hf
    rcases List.mem_append.mp hf with h | h
    · exact f1 f h
    · exact f2 f h
  · intro hf
    rcases List.mem_append.mp hf with h | h
    · exact c1 h
    · exact c2 h
  · intro l hl
    have l1 := a1.labels_le
    have l2 := a2.labels_le
    rcases List.mem_append.mp hl with h | h
    · have := b1 l h
      omega
    · have := b2 l h
      omega

/-- The layout of the code of an `if` node, given the code `c`, `t` and `el` of its parts. -/
theorem if_layout (e : Env) (reg : X86Gp) (e1 e2 e3 : Env) (c t el : List Inst)
    (hc : e.newLabel.2.newLabel.2.Adds e1 c)
    (ht : ((e1.emit (.cmp_ri reg 0)).emit (.je e.newLabel.1)).Adds e2 t)
    (hel : ((e2.emit (.jmp e.newLabel.2.newLabel.1)).emit (.bind e.newLabel.1)).Adds e3 el) :
    e.Adds (e3.emit (.bind e.newLabel.2.newLabel.1))
      (c ++ [.cmp_ri reg 0, .je e.a.labels] ++ t ++
        [.jmp (e.a.labels + 1), .bind e.a.labels] ++ el ++ [.bind (e.a.labels + 1)]) ∧
    e.a.labels + 2 ≤ e1.a.labels ∧ e1.a.labels ≤ e2.a.labels ∧ e2.a.labels ≤ e3.a.labels := by
  have h0 : e.Adds e.newLabel.2.newLabel.2 [] :=
    (Env.Adds.adds_of_newLabel e).adds_then (Env.Adds.adds_of_newLabel _)
  have h1 := h0.adds_then hc
  have h2 := (h1.adds_then ((Env.Adds.adds_of_emit e1 (.cmp_ri reg 0)).adds_then
    (Env.Adds.adds_of_emit _ (.je e.newLabel.1)))).adds_then ht
  have h3 := (h2.adds_then ((Env.Adds.adds_of_emit e2 (.jmp e.newLabel.2.newLabel.1)).adds_then
    (Env.Adds.adds_of_emit _ (.bind e.newLabel.1)))).adds_then hel
  have h4 := h3.adds_then (Env.Adds.adds_of_emit e3 (.bind e.newLabel.2.newLabel.1))
  refine ⟨⟨?_, h4.labels_le⟩, ?_, ?_, ?_⟩
  · rw [h4.code_eq]
    simp [Env.newLabel, X86Compiler.newLabel]
  · have := hc.labels_le
    simp only [Env.newLabel, X86Compiler.newLabel] at this
    exact this
  · exact ht.labels_le
  · exact hel.labels_le

theorem if_scoped (e : Env) (reg : X86Gp) (e1 e2 e3 : Env)
    (hc : e.newLabel.2.newLabel.2.Scoped e1)
    (ht : ((e1.emit (.cmp_ri reg 0)).emit (.je e.newLabel.1)).Scoped e2)
    (hel : ((e2.emit (.jmp e.newLabel.2.newLabel.1)).emit (.bind e.newLabel.1)).Scoped e3) :
    e.Scoped (e3.emit (.bind e.newLabel.2.newLabel.1)) := by
  obtain ⟨c, ac, fc, cc, bc⟩ := hc
  obtain ⟨t, at_, ft, ct, bt⟩ := ht
  obtain ⟨el, ae, fe, ce, be⟩ := hel
  obtain ⟨hl, l1, l2, l3⟩ := if_layout e reg e1 e2 e3 c t el ac at_ ae
  refine ⟨_, hl, ?_, ?_, ?_⟩
  · intro f hf
    simp only [List.mem_append, List.mem_cons, List.mem_singleton, List.mem_nil_iff,
      reduceCtorEq, or_false, false_or] at hf
    rcases hf with (h | h) | h
    · exact fc f h
    · exact ft f h
    · exact fe f h
  · intro hf
    simp only [List.mem_append, List.mem_cons, List.mem_singleton, List.mem_nil_iff,
      reduceCtorEq, or_false, false_or] at hf
    rcases hf with (h | h) | h
    · exact cc h
    · exact ct h
    · exact ce h
  · intro l hb
    have e1l : (e.newLabel.2.newLabel.2).a.labels = e.a.labels + 2 := rfl
    have e2l : ((e1.emit (.cmp_ri reg 0)).emit (.je e.newLabel.1)).a.labels = e1.a.labels :=
      rfl
    have e3l : ((e2.emit (.jmp e.newLabel.2.newLabel.1)).emit (.bind e.newLabel.1)).a.labels =
      e2.a.labels := rfl
    have e4l : (e3.emit (.bind e.newLabel.2.newLabel.1)).a.labels = e3.a.labels := rfl
    simp only [List.mem_append, List.mem_cons, List.mem_singleton, List.mem_nil_iff,
      reduceCtorEq, or_false, false_or, Inst.bind.injEq] at hb
    rw [e4l]
    rcases hb with (((h | h) | h) | h) | h
    · have := bc l h
      omega
    · have := bt l h
      omega
    · omega
    · have := be l h
      omega
    · omega

theorem while_scoped (e : Env) (reg : X86Gp) (e1 e2 : Env)
    (hc : (e.newLabel.2.newLabel.2.emit (.bind e.newLabel.1)).Scoped e1)
    (hb : ((e1.emit (.cmp_ri reg 0)).emit (.je e.newLabel.2.newLabel.1)).Scoped e2) :
    e.Scoped ((e2.emit (.jmp e.newLabel.1)).emit (.bind e.newLabel.2.newLabel.1)) := by
  obtain ⟨c, ac, fc, cc, bc⟩ := hc
  obtain ⟨t, at_, ft, ct, bt⟩ := hb
  have h0 : e.Adds (e.newLabel.2.newLabel.2.emit (.bind e.newLabel.1)) [.bind e.a.labels] :=
    ((Env.Adds.adds_of_newLabel e).adds_then (Env.Adds.adds_of_newLabel _)).adds_then (Env.Adds.adds_of_emit _ _)
  have h1 := h0.adds_then ac
  have h2 := (h1.adds_then ((Env.Adds.adds_of_emit e1 (.cmp_ri reg 0)).adds_then
    (Env.Adds.adds_of_emit _ (.je e.newLabel.2.newLabel.1)))).adds_then at_
  have h3 := h2.adds_then ((Env.Adds.adds_of_emit e2 (.jmp e.newLabel.1)).adds_then
    (Env.Adds.adds_of_emit _ (.bind e.newLabel.2.newLabel.1)))
  have l1 := ac.labels_le
  have l2 := at_.labels_le
  have e1l : (e.newLabel.2.newLabel.2.emit (.bind e.newLabel.1)).a.labels = e.a.labels + 2 :=
    rfl
  have e2l : ((e1.emit (.cmp_ri reg 0)).emit (.je e.newLabel.2.newLabel.1)).a.labels =
    e1.a.labels := rfl
  have e4l : ((e2.emit (.jmp e.newLabel.1)).emit (.bind e.newLabel.2.newLabel.1)).a.labels =
    e2.a.labels := rfl
  have n1 : e.newLabel.1 = e.a.labels := rfl
  have n2 : e.newLabel.2.newLabel.1 = e.a.labels + 1 := rfl
  refine ⟨_, h3, ?_, ?_, ?_⟩
  · intro f hf
    simp only [List.mem_append, List.mem_cons, List.mem_singleton, List.mem_nil_iff,
      reduceCtorEq, or_false, false_or, List.append_assoc] at hf
    rcases hf with h | h
    · exact fc f h
    · exact ft f h
  · intro hf
    simp only [List.mem_append, List.mem_cons, List.mem_singleton, List.mem_nil_iff,
      reduceCtorEq, or_false, false_or, List.append_assoc] at hf
    rcases hf with h | h
    · exact cc h
    · exact ct h
  · intro l hb
    simp only [List.mem_append, List.mem_cons, List.mem_singleton, List.mem_nil_iff,
      reduceCtorEq, or_false, false_or, Inst.bind.injEq, List.append_assoc, n1, n2] at hb
    rw [e4l]
    rcases hb with h | h | h | h
    · omega
    · have := bc l h
      omega
    · have := bt l h
      omega
    · omega

/-- The code of a statement opens or closes no function and binds only labels created
while the statement is compiled. -/
theorem jit_statement_scoped : ∀ (s : ProgramData) (e e' : Env),
    jit_statement s e = .ok e' → e.Scoped e' :=
  jit_statement_rel Env.Scoped Env.Scoped.scoped_same (fun _ _ _ h1 h2 => h1.scoped_then h2)
    (fun x e r e' h => (jit_expression_straight x e r e' h).scoped)
    (fun exp var e => (jit_assignment_straight exp var e).scoped)
    (fun e reg => (Env.Straight.straight_of_emit e _ (by rfl)).scoped)
    if_scoped while_scoped


theorem Env.Scoped.labels_below {e e' : Env} (h : e.Scoped e') (hb : e.LabelsBelow) :
    e'.LabelsBelow := by
  obtain ⟨n, a, _, _, b⟩ := h
  intro l hl
  rw [a.code_eq] at hl
  rcases List.mem_append.mp hl with h1 | h1
  · have := hb l h1
    have := a.labels_le
    omega
  · exact (b l h1).2

theorem count_bind_zero (code : List Inst) (l : Nat) (h : Inst.bind l ∉ code) :
    code.count (.bind l) = 0 := List.count_eq_zero.mpr h

/-- C22: the code of an `if` node that compiles.  After the two labels `L1` and `L2` of
the node were created (the next two label numbers), the code added is the code of the
condition, `cmp reg, 0`, `je L1`, the code of the first block, `jmp L2`, the binding of
`L1`, the code of the third child when it is not the empty pointer (nothing when it is),
and the binding of `L2`.  The node creates no other label: its parts are compiled from
label counters that no other step moves, and they bind only labels they create.  When the
code before the node binds only labels created before it, the whole code binds `L1` once
and `L2` once. -/
theorem if_node_code (vec : List ProgramData) (e e' : Env) (hbelow : e.LabelsBelow)
    (h : jit_statement (.children TYPE_IF vec) e = .ok e') :
    ∃ cond thenb elseb rest exp e1 e2 e3 c t el,
      vec = cond :: thenb :: elseb :: rest ∧
      jit_expression cond e.newLabel.2.newLabel.2 = .ok (exp, e1) ∧
      e.newLabel.2.newLabel.2.Adds e1 c ∧
      jit_statement thenb ((e1.emit (.cmp_ri exp.reg 0)).emit (.je e.a.labels)) = .ok e2 ∧
      ((e1.emit (.cmp_ri exp.reg 0)).emit (.je e.a.labels)).Adds e2 t ∧
      ((elseb = .nullptr ∧ el = [] ∧
          e3 = (e2.emit (.jmp (e.a.labels + 1))).emit (.bind e.a.labels)) ∨
        (elseb ≠ .nullptr ∧
          jit_statement elseb
            ((e2.emit (.jmp (e.a.labels + 1))).emit (.bind e.a.labels)) = .ok e3 ∧
          ((e2.emit (.jmp (e.a.labels + 1))).emit (.bind e.a.labels)).Adds e3 el)) ∧
      e' = e3.emit (.bind (e.a.labels + 1)) ∧
      e'.a.code = e.a.code ++ c ++ [.cmp_ri exp.reg 0, .je e.a.labels] ++ t ++
        [.jmp (e.a.labels + 1), .bind e.a.labels] ++ el ++ [.bind (e.a.labels + 1)] ∧
      e.newLabel.2.newLabel.2.a.labels = e.a.labels + 2 ∧
      ((e1.emit (.cmp_ri exp.reg 0)).emit (.je e.a.labels)).a.labels = e1.a.labels ∧
      ((e2.emit (.jmp (e.a.labels + 1))).emit (.bind e.a.labels)).a.labels = e2.a.labels ∧
      e'.a.labels = e3.a.labels ∧
      (∀ l, Inst.bind l ∈ c ++ t ++ el → e.a.labels + 2 ≤ l ∧ l < e'.a.labels) ∧
      e'.a.code.count (.bind e.a.labels) = 1 ∧
      e'.a.code.count (.bind (e.a.labels + 1)) = 1 ∧
      e'.LabelsBelow := by
  obtain ⟨cond, thenb, elseb, rest, exp, e1, e2, e3, hv, hx, hthen, helse, he⟩ :=
    jit_statement_if_ok vec e e' h
  obtain ⟨c, ac, _, _, bc⟩ := (jit_expression_straight cond _ exp e1 hx).scoped
  obtain ⟨t, at_, _, _, bt⟩ := jit_statement_scoped thenb _ e2 hthen
  have hel : ∃ el, ((e2.emit (.jmp (e.a.labels + 1))).emit (.bind e.a.labels)).Adds e3 el ∧
      (elseb = .nullptr → el = []) ∧
      ∀ l, Inst.bind l ∈ el → e2.a.labels ≤ l ∧ l < e3.a.labels := by
    rcases helse with ⟨_, h3⟩ | ⟨hne, h3⟩
    · rw [h3]
      exact ⟨[], Env.Adds.adds_same _, fun _ => rfl, by simp⟩
    · obtain ⟨el, ae, _, _, be⟩ := jit_statement_scoped elseb _ e3 h3
      exact ⟨el, ae, fun hc => absurd hc hne, be⟩
  obtain ⟨el, ae, hnil, be⟩ := hel
  obtain ⟨hl, l1, l2, l3⟩ := if_layout e exp.reg e1 e2 e3 c t el ac at_ ae
  have hcode : e'.a.code = e.a.code ++ c ++ [.cmp_ri exp.reg 0, .je e.a.labels] ++ t ++
      [.jmp (e.a.labels + 1), .bind e.a.labels] ++ el ++ [.bind (e.a.labels + 1)] := by
    rw [he, hl.code_eq]
    simp
  have hlab : e'.a.labels = e3.a.labels := by rw [he]; rfl
  have hparts : ∀ l, Inst.bind l ∈ c ++ t ++ el → e.a.labels + 2 ≤ l ∧ l < e'.a.labels := by
    intro l hm
    have e1l : (e.newLabel.2.newLabel.2).a.labels = e.a.labels + 2 := rfl
    have e2l : ((e1.emit (.cmp_ri exp.reg 0)).emit (.je e.newLabel.1)).a.labels =
      e1.a.labels := rfl
    rw [hlab]
    simp only [List.mem_append] at hm
    rcases hm with (h1 | h1) | h1
    · have := bc l h1
      omega
    · have := bt l h1
      omega
    · have := be l h1
      omega
  have hno : ∀ l, l = e.a.labels ∨ l = e.a.labels + 1 →
      Inst.bind l ∉ e.a.code ∧ Inst.bind l ∉ c ∧ Inst.bind l ∉ t ∧ Inst.bind l ∉ el := by
    intro l hl2
    refine ⟨?_, ?_, ?_, ?_⟩
    · intro hm
      have := hbelow l hm
      omega
    · intro hm
      have := (hparts l (by simp [hm])).1
      omega
    · intro hm
      have := (hparts l (by simp [hm])).1
      omega
    · intro hm
      have := (hparts l (by simp [hm])).1
      omega
  have hscoped : e.Scoped e' := jit_statement_scoped _ e e' h
  refine ⟨cond, thenb, elseb, rest, exp, e1, e2, e3, c, t, el, hv, hx, ac, hthen, at_, ?_, he,
    hcode, rfl, rfl, rfl, hlab, hparts, ?_, ?_, hscoped.labels_below hbelow⟩
  · rcases helse with ⟨hn, h3⟩ | ⟨hne, h3⟩
    · exact Or.inl ⟨hn, hnil hn, h3⟩
    · exact Or.inr ⟨hne, h3, ae⟩
  · obtain ⟨n1, n2, n3, n4⟩ := hno e.a.labels (Or.inl rfl)
    rw [hcode]
    simp only [List.count_append, count_bind_zero _ _ n1, count_bind_zero _ _ n2,
      count_bind_zero _ _ n3, count_bind_zero _ _ n4]
    simp [List.count_cons]
  · obtain ⟨n1, n2, n3, n4⟩ := hno (e.a.labels + 1) (Or.inr rfl)
    rw [hcode]
    simp only [List.count_append, count_bind_zero _ _ n1, count_bind_zero _ _ n2,
      count_bind_zero _ _ n3, count_bind_zero _ _ n4]
    simp [List.count_cons]


/-- The node of `if (1 < 2) { print(1) } else { print(2) }` compiled in `demo_env`, where
one label exists: the labels of the node are 1 and 2, each bound once. -/
theorem if_node_code_witness :
    ∃ e' : Env, jit_statement if_else_node demo_env = .ok e' ∧
      e'.a.code = demo_env.a.code ++
        [.mov_rm (.virt 1) (.const .kConstScopeLocal 1),
         .mov_rm (.virt 2) (.const .kConstScopeLocal 2),
         .sub (.virt 1) (.virt 2), .setl (.virt 1),
         .cmp_ri (.virt 1) 0, .je 1,
         .mov_rm (.virt 3) (.const .kConstScopeGlobal 1003),
         .mov_rm (.virt 4) (.const .kConstScopeLocal 1),
         .call { target := .virt 3, signature := 2, args := [.virt 4, .invalid],
                 ret := .virt 5 },
         .jmp 2, .bind 1,
         .mov_rm (.virt 6) (.const .kConstScopeGlobal 1003),
         .mov_rm (.virt 7) (.const .kConstScopeLocal 2),
         .call { target := .virt 6, signature := 2, args := [.virt 7, .invalid],
                 ret := .virt 8 },
         .bind 2] ∧
      e'.a.labels = 3 ∧
      e'.a.code.count (.bind 1) = 1 ∧ e'.a.code.count (.bind 2) = 1 := by
  refine ⟨_, rfl, rfl, rfl, ?_⟩
  obtain ⟨_, _, _, _, _, _, _, _, _, _, _, _, _, _, _, _, _, _, _, _, _, _, _, _, h1, h2, _⟩ :=
    if_node_code if_else_parts demo_env _ (by intro l hl; simp [demo_env] at hl) rfl
  exact ⟨h1, h2⟩


/-! ## The static type of function values -/

theorem untyped_memoized {fp : NativeFunctions} {e : Env} (h : e.Registered fp) :
    get_return_type e.g none = (some 2, e.g) ∧
    ∃ t, e.g.deref (some 2) = some t ∧ t.return_type = none := by
  obtain ⟨e0, h0, hg, _⟩ := h
  obtain ⟨e0', h0', _, _, _, _, _, hm⟩ := main_init_state fp
  rw [h0] at h0'
  injection h0' with h0'
  subst h0'
  have hk := (Env.Registered.known (⟨e0, h0, hg, by assumption⟩ : e.Registered fp)).2.2.2.2
  exact ⟨get_return_type_hit e.g none (some 2) (by rw [hg]; exact hm), hk⟩

theorem jit_function_def_type (body : ProgramData) (e : Env) :
    (jit_function_def body e).1.type = (get_return_type e.g none).1 ∧
    (jit_function_def body e).2.g = (get_return_type e.g none).2 := ⟨rfl, rfl⟩

theorem jit_call_type (exp : Expression) (regs : List X86Gp) (size : Nat) (e : Env)
    (r : Expression) (e' : Env) (h : jit_call exp regs size e = .ok (r, e')) :
    ∃ t, e.g.deref exp.type = some t ∧ r.type = t.return_type := by
  unfold jit_call at h
  simp only at h
  split at h
  · cases h
  · split at h
    · cases h
    · rename_i t ht
      simp only [Except.ok.injEq, Prod.mk.injEq] at h
      exact ⟨t, ht, by rw [← h.1]; rfl⟩

/-- A call whose callee has the static type of function values has the untyped static
type, and a property access on it stops the compilation. -/
theorem call_of_function_value (fp : NativeFunctions) (e : Env) (hreg : e.Registered fp)
    (callee : ProgramData) (args : List ProgramData) (exp : Expression) (e1 : Env)
    (hc : jit_expression callee e = .ok (exp, e1))
    (ht : exp.type = (get_return_type e.g none).1) :
    (∀ r e3, jit_expression (call callee args) e = .ok (r, e3) →
      r.type = none ∧
      ∀ property, jit_expression (index (call callee args) property) e =
        .error (.thrown "TYPE WAS NULL")) ∧
    (∀ regs e2, jit_arguments args e1 = .ok (regs, e2) →
      args.length + 1 + (if exp.is_method then 1 else 0) ≤ 4 →
      ∃ r e3, jit_expression (call callee args) e = .ok (r, e3)) := by
  obtain ⟨hget, t2, hd2, hr2⟩ := untyped_memoized hreg
  rw [hget] at ht
  constructor
  · intro r e3 h
    have hcases := jit_expression_children_ok TYPE_FUNCTION (callee :: args) e r e3 h
    rcases hcases with ⟨hc1, _⟩ | ⟨hc1, _⟩ | ⟨_, c, rest, exp', e1', regs, e2, hv, hc', ha, hcall⟩ |
        ⟨hc1, _⟩
    · cases hc1
    · cases hc1
    · injection hv with hv1 hv2
      subst hv1
      subst hv2
      rw [hc] at hc'
      injection hc' with hc'
      injection hc' with hx1 hx2
      subst hx1
      subst hx2
      obtain ⟨t, hd, hrt⟩ := jit_call_type _ _ _ _ _ _ hcall
      have hreg2 : e2.Registered fp := by
        have f1 := jit_expression_frame callee e exp e1 hc
        have f2 := (jit_arguments_frame args
          (fun x _ e r e' hx => jit_expression_frame x e r e' hx) e1 regs e2 ha).1
        exact hreg.keep (f1.trans f2)
      have hg2 : e2.g = e.g := by
        obtain ⟨e0, h0, hg, _⟩ := hreg
        obtain ⟨e0', h0', hg', _⟩ := hreg2
        rw [h0] at h0'
        injection h0' with h0'
        subst h0'
        rw [hg, hg']
      rw [hg2, ht, hd2] at hd
      injection hd with hd
      subst hd
      have hnone : r.type = none := by rw [hrt, hr2]
      refine ⟨hnone, ?_⟩
      intro property
      exact (jit_index_cases (call callee args) TYPE_IDENTIFIER property e e3 r h).1.mpr hnone
    · simp [is_binary] at hc1
  · intro regs e2 ha hs
    have hreg2 : e2.Registered fp := by
      have f1 := jit_expression_frame callee e exp e1 hc
      have f2 := (jit_arguments_frame args
        (fun x _ e r e' hx => jit_expression_frame x e r e' hx) e1 regs e2 ha).1
      exact hreg.keep (f1.trans f2)
    have hg2 : e2.g = e.g := by
      obtain ⟨e0, h0, hg, _⟩ := hreg
      obtain ⟨e0', h0', hg', _⟩ := hreg2
      rw [h0] at h0'
      injection h0' with h0'
      subst h0'
      rw [hg, hg']
    obtain ⟨node, e3, h3, _⟩ := call_typed callee args e e1 e2 exp regs t2
      hc ha (by rw [hg2, ht]; exact hd2) hs
    exact ⟨_, _, h3⟩

/-- C21: in a state that has the registrations of `main`, a function-definition
expression compiles, whatever its body is, to a value whose static type is
`get_return_type(nullptr)`, the type "function returning untyped", whose `return_type`
is the empty pointer.  A new local that is assigned a function definition is recorded
with that type.  A call whose callee has that static type has, when it compiles, the
empty static type, and it does compile when its arguments compile and are at most three;
a property access on such a call stops the compilation with `TYPE WAS NULL`. -/
theorem function_values_untyped (fp : NativeFunctions) (e : Env) (hreg : e.Registered fp) :
    (∀ body rest, ∃ r e', jit_expression (.children TYPE_FUNCTION_DEF (body :: rest)) e =
        .ok (r, e') ∧
      r.type = (get_return_type e.g none).1 ∧ e'.g = e.g ∧
      ∃ t, e.g.deref r.type = some t ∧ t.return_type = none) ∧
    (∀ name body e1, umap_find e.state.vars name = none →
      jit_statement (assign name (fundef body)) e = .ok e1 →
      ∃ r e2, jit_expression (ident name) e1 = .ok (r, e2) ∧
        r.type = (get_return_type e.g none).1) ∧
    (∀ callee args exp e1, jit_expression callee e = .ok (exp, e1) →
      exp.type = (get_return_type e.g none).1 →
      (∀ r e3, jit_expression (call callee args) e = .ok (r, e3) →
        r.type = none ∧
        ∀ property, jit_expression (index (call callee args) property) e =
          .error (.thrown "TYPE WAS NULL")) ∧
      (∀ regs e2, jit_arguments args e1 = .ok (regs, e2) →
        args.length + 1 + (if exp.is_method then 1 else 0) ≤ 4 →
        ∃ r e3, jit_expression (call callee args) e = .ok (r, e3))) := by
  obtain ⟨hget, t2, hd2, hr2⟩ := untyped_memoized hreg
  refine ⟨?_, ?_, ?_⟩
  · intro body rest
    refine ⟨(jit_function_def body e).1, (jit_function_def body e).2, by
      simp only [jit_expression], rfl, ?_, ?_⟩
    · rw [(jit_function_def_type body e).2, hget]
    · rw [(jit_function_def_type body e).1, hget]
      exact ⟨t2, hd2, hr2⟩
  · intro name body e1 hnew h
    obtain ⟨ty, var, rhs, rest, exp, e', hv, hx, he⟩ := jit_statement_assignment_ok _ e e1 h
    simp only [ident, fundef, List.cons.injEq, ProgramData.str.injEq, and_true] at hv
    obtain ⟨⟨_, hv1⟩, hv2, _⟩ := hv
    subst hv1
    subst hv2
    have hx2 : jit_function_def body e = (exp, e') := by
      simpa only [jit_expression, Except.ok.injEq] using hx
    have hty : exp.type = (get_return_type e.g none).1 := by
      rw [← (jit_function_def_type body e).1, hx2]
    have hsame := (jit_expression_same_locals _ e exp e' hx).1
    obtain ⟨c1, _⟩ := jit_assignment_cases exp name e'
    have hf := (c1 (by rw [hsame]; exact hnew)).1
    rw [← he] at hf
    exact ⟨_, _, ((jit_identifier_cases name e1).1 _ hf).1, hty⟩
  · intro callee args exp e1 hc ht
    exact call_of_function_value fp e hreg callee args exp e1 hc ht


/-- In `demo_env`: a function definition whose body returns `make_list()` has the type
"function returning untyped" (type 2); and the whole program
`f = function() { return make_list() }` followed by `f().add` stops with
`TYPE WAS NULL`. -/
theorem function_values_untyped_witness :
    (∃ r e', jit_expression (.children TYPE_FUNCTION_DEF
        [.children TYPE_BLOCK [.children TYPE_RETURN [call (ident "make_list") []]]])
        demo_env = .ok (r, e') ∧
      r.type = (get_return_type demo_env.g none).1 ∧ e'.g = demo_env.g ∧
      ∃ t, demo_env.g.deref r.type = some t ∧ t.return_type = none) ∧
    (get_return_type demo_env.g none).1 = some 2 ∧
    (∀ property, jit_expression (index (call (ident "print") [.integer 1]) property)
      demo_env = .error (.thrown "TYPE WAS NULL")) ∧
    main demo_natives false 30
      "f = function() \x7b return make_list() \x7d\nf().add".toList =
        .thrown "TYPE WAS NULL" :=
  ⟨(function_values_untyped demo_natives demo_env ⟨demo_env, main_init_demo, rfl, rfl⟩).1
      (.children TYPE_BLOCK [.children TYPE_RETURN [call (ident "make_list") []]]) [],
   rfl,
   (((function_values_untyped demo_natives demo_env
      ⟨demo_env, main_init_demo, rfl, rfl⟩).2.2 (ident "print") [.integer 1] _ _ rfl rfl).1
        _ _ rfl).2,
   by decide⟩


/-! ## Every function definition is compiled once -/

theorem pending_append (xs ys : List FunctionRemainder) :
    pending (xs ++ ys) = pending xs + pending ys := by
  induction xs with
  | nil => simp [pending]
  | cons x xs ih =>
    show pending (x :: (xs ++ ys)) = pending (x :: xs) + pending ys
    simp only [pending, ih]
    omega

theorem Env.DefersAll.defers_same {e e' : Env} (h : e'.state.remainders = e.state.remainders) :
    e.DefersAll e' 0 :=
  ⟨[], by simp [Env.Defers, h], rfl, by simp⟩

theorem Env.DefersAll.defers_then {e1 e2 e3 : Env} {n m : Nat} (h12 : e1.DefersAll e2 n)
    (h23 : e2.DefersAll e3 m) : e1.DefersAll e3 (n + m) := by
  obtain ⟨x, dx, px, sx⟩ := h12
  obtain ⟨y, dy, py, sy⟩ := h23
  refine ⟨x ++ y, ?_, by rw [pending_append, px, py], ?_⟩
  · unfold Env.Defers at *
    rw [dy, dx, List.append_assoc]
  · intro r hr
    rcases List.mem_append.mp hr with h | h
    · exact sx r h
    · exact sy r h

theorem Env.DefersAll.cast {e e' : Env} {n m : Nat} (h : e.DefersAll e' n) (hnm : n = m) :
    e.DefersAll e' m := hnm ▸ h

theorem jit_index_remainders (exp : Expression) (property : String) (e : Env)
    (r : Expression) (e' : Env) (h : jit_index exp property e = .ok (r, e')) :
    e'.state.remainders = e.state.remainders := by
  unfold jit_index at h
  split at h
  · cases h
  · split at h
    · cases h
    · split at h
      · cases h
      · simp only [Except.ok.injEq, Prod.mk.injEq] at h
        rw [← h.2]
        rfl

theorem jit_identifier_remainders (str : String) (e : Env) (r : Expression) (e' : Env)
    (h : jit_identifier str e = .ok (r, e')) :
    e'.state.remainders = e.state.remainders := by
  unfold jit_identifier at h
  split at h
  · simp only [Except.ok.injEq, Prod.mk.injEq] at h
    rw [← h.2]
    rfl
  · split at h
    · simp only [Except.ok.injEq, Prod.mk.injEq] at h
      rw [← h.2]
      rfl
    · cases h

theorem jit_call_remainders (exp : Expression) (regs : List X86Gp) (size : Nat) (e : Env)
    (r : Expression) (e' : Env) (h : jit_call exp regs size e = .ok (r, e')) :
    e'.state.remainders = e.state.remainders := by
  unfold jit_call at h
  simp only at h
  split at h
  · cases h
  · split at h
    · cases h
    · simp only [Except.ok.injEq, Prod.mk.injEq] at h
      rw [← h.2]
      rfl

theorem jit_binary_remainders (type : ProgramType) (reg_a reg_b : X86Gp) (e e' : Env)
    (h : jit_binary type reg_a reg_b e = some e') :
    e'.state.remainders = e.state.remainders := by
  cases type <;> simp only [jit_binary] at h <;> cases h <;> rfl

theorem jit_assignment_remainders (exp : Expression) (var : String) (e : Env) :
    (jit_assignment exp var e).state.remainders = e.state.remainders := by
  cases h : umap_find e.state.vars var <;> simp [jit_assignment, h, Env.emit]

theorem parser_shaped_children (type : ProgramType) (vec : List ProgramData)
    (h : parser_shaped (.children type vec) = true) :
    parser_arity type vec.length = true ∧ parser_shaped_list vec = true := by
  simpa [parser_shaped] using h

theorem jit_arguments_defers (vec : List ProgramData)
    (ih : ∀ x, x ∈ vec → ∀ (e : Env) (r : Expression) (e' : Env),
      jit_expression x e = .ok (r, e') → parser_shaped x = true →
      e.DefersAll e' (definitions x)) :
    ∀ (e : Env) (regs : List X86Gp) (e' : Env),
      jit_arguments vec e = .ok (regs, e') → parser_shaped_list vec = true →
      e.DefersAll e' (definitions_list vec) := by
  induction vec with
  | nil =>
    intro e regs e' h _
    simp only [jit_arguments, Except.ok.injEq, Prod.mk.injEq] at h
    rw [← h.2]
    exact Env.DefersAll.defers_same rfl
  | cons x rest ihl =>
    intro e regs e' h hs
    simp only [parser_shaped_list, Bool.and_eq_true] at hs
    simp only [jit_arguments] at h
    cases hx : jit_expression x e with
    | error err => simp [hx] at h
    | ok p =>
      obtain ⟨exp, e1⟩ := p
      simp only [hx] at h
      cases hr : jit_arguments rest e1 with
      | error err => simp [hr] at h
      | ok q =>
        obtain ⟨regs1, e2⟩ := q
        simp only [hr, Except.ok.injEq, Prod.mk.injEq] at h
        rw [← h.2]
        exact (ih x (List.mem_cons_self _ _) e exp e1 hx hs.1).defers_then
          (ihl (fun y hy => ih y (List.mem_cons_of_mem _ hy)) e1 regs1 e2 hr hs.2)

/-- Compiling an expression of the parser's shape puts every function definition of the
expression on the worklist or leaves it inside the body of one that is put there. -/
theorem jit_expression_defers : ∀ (x : ProgramData) (e : Env) (r : Expression) (e' : Env),
    jit_expression x e = .ok (r, e') → parser_shaped x = true →
    e.DefersAll e' (definitions x) := by
  intro x
  induction x using ProgramData.induct_children with
  | hnull =>
    intro e r e' h
    simp [jit_expression] at h
  | hint v =>
    intro e r e' h _
    simp only [jit_expression, Except.ok.injEq] at h
    rw [← show (jit_integer v e).2 = e' from congrArg Prod.snd h]
    exact Env.DefersAll.defers_same rfl
  | hstr t s =>
    intro e r e' h _
    cases t <;> simp only [jit_expression] at h <;> try cases h
    exact Env.DefersAll.defers_same (jit_identifier_remainders _ _ _ _ h)
  | hch t vec ih =>
    intro e r e' h hs
    obtain ⟨har, hsl⟩ := parser_shaped_children t vec hs
    rcases jit_expression_children_ok t vec e r e' h with
      ⟨ht, body, rest, hv, hd⟩ | ⟨ht, x, ty, property, rest, exp, e1, hv, hx, hi⟩ |
      ⟨ht, callee, rest, exp, e1, regs, e2, hv, hc, ha, hcall⟩ |
      ⟨ht, x, y, rest, exp_a, e1, exp_b, e2, hv, hx, hy, hb, _⟩
    · subst ht
      subst hv
      have hrest : rest = [] := by
        simp only [parser_arity, List.length_cons, beq_iff_eq] at har
        exact List.length_eq_zero.mp (by omega)
      subst hrest
      simp only [parser_shaped_list, Bool.and_true] at hsl
      have hrem : e'.state.remainders = e.state.remainders ++ [⟨e.a.labels, body⟩] := by
        rw [← show (jit_function_def body e).2 = e' from congrArg Prod.snd hd]
        rfl
      refine ⟨[⟨e.a.labels, body⟩], hrem, ?_, ?_⟩
      · simp [pending, definitions, definitions_list]
      · intro r hr
        simp only [List.mem_singleton] at hr
        rw [hr]
        exact hsl
    · subst ht
      subst hv
      have hrest : rest = [] := by
        simp only [parser_arity, List.length_cons, beq_iff_eq] at har
        exact List.length_eq_zero.mp (by omega)
      subst hrest
      simp only [parser_shaped_list, Bool.and_eq_true] at hsl
      refine ((ih x (by simp) e exp e1 hx hsl.1).defers_then
        (Env.DefersAll.defers_same (jit_index_remainders _ _ _ _ _ hi))).cast ?_
      simp [definitions, definitions_list]
    · subst ht
      subst hv
      simp only [parser_shaped_list, Bool.and_eq_true] at hsl
      refine (((ih callee (by simp) e exp e1 hc hsl.1).defers_then
        (jit_arguments_defers rest (fun y hy => ih y (by simp [hy])) e1 regs e2 ha hsl.2)).defers_then
        (Env.DefersAll.defers_same (jit_call_remainders _ _ _ _ _ _ hcall))).cast ?_
      simp [definitions, definitions_list]
    · subst hv
      have hrest : rest = [] := by
        cases t <;> simp [is_binary] at ht <;>
          simp only [parser_arity, List.length_cons, beq_iff_eq] at har <;>
          exact List.length_eq_zero.mp (by omega)
      subst hrest
      simp only [parser_shaped_list, Bool.and_eq_true] at hsl
      have hne : t ≠ TYPE_FUNCTION_DEF := by
        intro hc
        subst hc
        simp [is_binary] at ht
      refine (((ih x (by simp) e exp_a e1 hx hsl.1).defers_then
        (ih y (by simp) e1 exp_b e2 hy hsl.2.1)).defers_then
        (Env.DefersAll.defers_same (jit_binary_remainders _ _ _ _ _ hb))).cast ?_
      simp [definitions, definitions_list, hne]


/-- Compiling a statement of the parser's shape puts every function definition of the
statement on the worklist or leaves it inside the body of one that is put there. -/
theorem jit_statement_defers : ∀ (s : ProgramData) (e e' : Env),
    jit_statement s e = .ok e' → parser_shaped s = true →
    e.DefersAll e' (definitions s) := by
  intro s
  induction s using ProgramData.induct_children with
  | hnull =>
    intro e e' h hs
    obtain ⟨r, hr⟩ := jit_statement_leaf _ e e' (by intro t vec ht; cases ht) h
    exact jit_expression_defers _ _ _ _ hr hs
  | hint v =>
    intro e e' h hs
    obtain ⟨r, hr⟩ := jit_statement_leaf _ e e' (by intro t vec ht; cases ht) h
    exact jit_expression_defers _ _ _ _ hr hs
  | hstr t s =>
    intro e e' h hs
    obtain ⟨r, hr⟩ := jit_statement_leaf _ e e' (by intro t vec ht; cases ht) h
    exact jit_expression_defers _ _ _ _ hr hs
  | hch t vec ih =>
    intro e e' h hs
    obtain ⟨har, hsl⟩ := parser_shaped_children t vec hs
    by_cases ht : t = TYPE_ASSIGNMENT ∨ t = TYPE_RETURN ∨ t = TYPE_BLOCK ∨ t = TYPE_IF ∨
        t = TYPE_WHILE
    · rcases ht with rfl | rfl | rfl | rfl | rfl
      · obtain ⟨ty, var, rhs, rest, exp, e1, hv, hx, he⟩ :=
          jit_statement_assignment_ok vec e e' h
        subst hv
        have hrest : rest = [] := by
          simp only [parser_arity, List.length_cons, beq_iff_eq] at har
          exact List.length_eq_zero.mp (by omega)
        subst hrest
        simp only [parser_shaped_list, Bool.and_eq_true] at hsl
        rw [he]
        refine ((jit_expression_defers rhs e exp e1 hx hsl.2.1).defers_then
          (Env.DefersAll.defers_same (jit_assignment_remainders exp var e1))).cast ?_
        simp [definitions, definitions_list]
      · obtain ⟨x, rest, exp, e1, hv, hx, he⟩ := jit_statement_return_ok vec e e' h
        subst hv
        have hrest : rest = [] := by
          simp only [parser_arity, List.length_cons, beq_iff_eq] at har
          exact List.length_eq_zero.mp (by omega)
        subst hrest
        simp only [parser_shaped_list, Bool.and_eq_true] at hsl
        rw [he]
        refine ((jit_expression_defers x e exp e1 hx hsl.1).defers_then
          (Env.DefersAll.defers_same rfl)).cast ?_
        simp [definitions, definitions_list]
      · simp only [jit_statement] at h
        have hd : definitions (.children TYPE_BLOCK vec) = definitions_list vec := by
          simp [definitions]
        rw [hd]
        clear hs har hd
        induction vec generalizing e with
        | nil =>
          simp only [jit_block, Except.ok.injEq] at h
          rw [← h]
          exact Env.DefersAll.defers_same rfl
        | cons x rest ihl =>
          obtain ⟨e1, hx, hr⟩ := jit_block_cons_ok x rest e e' h
          simp only [parser_shaped_list, Bool.and_eq_true] at hsl
          exact (ih x (by simp) e e1 hx hsl.1).defers_then
            (ihl (fun y hy => ih y (by simp [hy])) e1 hsl.2 hr)
      · obtain ⟨cond, thenb, elseb, rest, exp, e1, e2, e3, hv, hx, hthen, helse, he⟩ :=
          jit_statement_if_ok vec e e' h
        subst hv
        have hrest : rest = [] := by
          simp only [parser_arity, List.length_cons, beq_iff_eq] at har
          exact List.length_eq_zero.mp (by omega)
        subst hrest
        simp only [parser_shaped_list, Bool.and_eq_true] at hsl
        have h1 : e.DefersAll e1 (definitions cond) :=
          ((Env.DefersAll.defers_same rfl : e.DefersAll e.newLabel.2.newLabel.2 0).defers_then
            (jit_expression_defers cond _ exp e1 hx hsl.1)).cast (by omega)
        have h2 : e1.DefersAll e2 (definitions thenb) :=
          ((Env.DefersAll.defers_same rfl : e1.DefersAll
            ((e1.emit (.cmp_ri exp.reg 0)).emit (.je e.newLabel.1)) 0).defers_then
            (ih thenb (by simp) _ e2 hthen hsl.2.1)).cast (by omega)
        have h3 : e2.DefersAll e3 (definitions elseb) := by
          rcases helse with ⟨hn, h3⟩ | ⟨_, h3⟩
          · rw [h3, hn]
            exact Env.DefersAll.defers_same rfl
          · exact ((Env.DefersAll.defers_same rfl : e2.DefersAll
              ((e2.emit (.jmp e.newLabel.2.newLabel.1)).emit (.bind e.newLabel.1)) 0).defers_then
              (ih elseb (by simp) _ e3 h3 hsl.2.2.1)).cast (by omega)
        rw [he]
        refine (((h1.defers_then h2).defers_then h3).defers_then (Env.DefersAll.defers_same rfl)).cast ?_
        simp [definitions, definitions_list]
        omega
      · obtain ⟨cond, body, rest, exp, e1, e2, hv, hx, hb, he⟩ :=
          jit_statement_while_ok vec e e' h
        subst hv
        have hrest : rest = [] := by
          simp only [parser_arity, List.length_cons, beq_iff_eq] at har
          exact List.length_eq_zero.mp (by omega)
        subst hrest
        simp only [parser_shaped_list, Bool.and_eq_true] at hsl
        have h1 : e.DefersAll e1 (definitions cond) :=
          ((Env.DefersAll.defers_same rfl : e.DefersAll
            (e.newLabel.2.newLabel.2.emit (.bind e.newLabel.1)) 0).defers_then
            (jit_expression_defers cond _ exp e1 hx hsl.1)).cast (by omega)
        have h2 : e1.DefersAll e2 (definitions body) :=
          ((Env.DefersAll.defers_same rfl : e1.DefersAll
            ((e1.emit (.cmp_ri exp.reg 0)).emit (.je e.newLabel.2.newLabel.1)) 0).defers_then
            (ih body (by simp) _ e2 hb hsl.2.1)).cast (by omega)
        rw [he]
        refine ((h1.defers_then h2).defers_then (Env.DefersAll.defers_same rfl)).cast ?_
        simp [definitions, definitions_list]
    · obtain ⟨r, hr⟩ := jit_statement_leaf _ e e'
        (by
          intro t2 vec2 heq
          injection heq with h1 h2
          subst h1
          refine ⟨?_, ?_, ?_, ?_, ?_⟩ <;> intro hc <;> simp [hc] at ht) h
      exact jit_expression_defers _ _ _ _ hr hs

theorem compile_statements_defers (program : List ProgramData) :
    ∀ (e e' : Env), compile_statements program e = .ok e' →
      parser_shaped_list program = true → e.DefersAll e' (definitions_list program) := by
  induction program with
  | nil =>
    intro e e' h _
    simp only [compile_statements, Except.ok.injEq] at h
    rw [← h]
    exact Env.DefersAll.defers_same rfl
  | cons s rest ih =>
    intro e e' h hs
    simp only [parser_shaped_list, Bool.and_eq_true] at hs
    simp only [compile_statements] at h
    cases hx : jit_statement s e with
    | error err => simp [hx] at h
    | ok e1 =>
      simp only [hx] at h
      exact (jit_statement_defers s e e1 hx hs.1).defers_then (ih e1 e' h hs.2)

theorem compile_statements_scoped (program : List ProgramData) :
    ∀ (e e' : Env), compile_statements program e = .ok e' → e.Scoped e' := by
  induction program with
  | nil =>
    intro e e' h
    simp only [compile_statements, Except.ok.injEq] at h
    rw [← h]
    exact Env.Scoped.scoped_same e
  | cons s rest ih =>
    intro e e' h
    simp only [compile_statements] at h
    cases hx : jit_statement s e with
    | error err => simp [hx] at h
    | ok e1 =>
      simp only [hx] at h
      exact (jit_statement_scoped s e e1 hx).scoped_then (ih e1 e' h)

theorem Env.Scoped.counts {e e' : Env} (h : e.Scoped e') :
    e'.a.code.countP Inst.opens = e.a.code.countP Inst.opens ∧
    e'.a.code.countP Inst.closes = e.a.code.countP Inst.closes := by
  obtain ⟨n, a, hf, hc, _⟩ := h
  rw [a.code_eq, List.countP_append, List.countP_append]
  have h1 : n.countP Inst.opens = 0 := by
    rw [List.countP_eq_zero]
    intro i hi ho
    cases i <;> simp [Inst.opens] at ho
    exact hf _ hi
  have h2 : n.countP Inst.closes = 0 := by
    rw [List.countP_eq_zero]
    intro i hi ho
    cases i <;> simp [Inst.closes] at ho
    exact hc hi
  omega

/-- One turn of the second loop of `main`: one function is opened and closed, and the
functions still to be compiled are one fewer. -/
theorem drain_step_pending (e e' : Env) (frem : FunctionRemainder)
    (rest : List FunctionRemainder) (hrem : e.state.remainders = frem :: rest)
    (hs : ∀ r, r ∈ e.state.remainders → parser_shaped r.data = true)
    (h : drain_step e = .ok e') :
    pending e'.state.remainders + 1 = pending e.state.remainders ∧
    (∀ r, r ∈ e'.state.remainders → parser_shaped r.data = true) ∧
    e'.a.code.countP Inst.opens = e.a.code.countP Inst.opens + 1 ∧
    e'.a.code.countP Inst.closes = e.a.code.countP Inst.closes + 1 := by
  rw [drain_step_eq e frem rest hrem] at h
  cases hb : jit_statement frem.data (body_env e frem rest) with
  | error err => simp [hb] at h
  | ok e1 =>
    simp only [hb, Except.ok.injEq] at h
    have hsf : parser_shaped frem.data = true := hs frem (by rw [hrem]; simp)
    obtain ⟨new, hd, hp, hsn⟩ := jit_statement_defers frem.data _ e1 hb hsf
    have hr1 : e1.state.remainders = rest ++ new := hd
    have hr' : e'.state.remainders = rest ++ new := by rw [← h]; exact hr1
    obtain ⟨c1, c2⟩ := (jit_statement_scoped frem.data _ e1 hb).counts
    have hcode : e'.a.code = e1.a.code ++
        [.mov_ri e1.newGpq.1 0, .ret e1.newGpq.1, .endFunc] := by
      rw [← h]
      simp [Env.emit, Env.newGpq, X86Compiler.emit, X86Compiler.newGpq]
    have hbody : (body_env e frem rest).a.code = e.a.code ++ [.func frem.func] := by
      simp [body_env, X86Compiler.emit, X86Compiler.newGpq, X86Compiler.newStack]
    refine ⟨?_, ?_, ?_, ?_⟩
    · rw [hr', hrem, pending_append, hp]
      simp only [pending]
      omega
    · intro r hr
      rw [hr'] at hr
      rcases List.mem_append.mp hr with h1 | h1
      · exact hs r (by rw [hrem]; exact List.mem_cons_of_mem _ h1)
      · exact hsn r h1
    · rw [hcode, List.countP_append, c1, hbody, List.countP_append]
      simp [List.countP_cons, Inst.opens]
    · rw [hcode, List.countP_append, c2, hbody, List.countP_append]
      simp [List.countP_cons, Inst.closes]

/-- When the second loop of `main` ends without a `throw`, every function still to be
compiled was opened and closed once. -/
theorem drain_counts (fuel : Nat) :
    ∀ (e e' : Env), (∀ r, r ∈ e.state.remainders → parser_shaped r.data = true) →
      drain fuel e = .ok (some e') →
      e'.state.remainders = [] ∧
      e'.a.code.countP Inst.opens =
        e.a.code.countP Inst.opens + pending e.state.remainders ∧
      e'.a.code.countP Inst.closes =
        e.a.code.countP Inst.closes + pending e.state.remainders := by
  induction fuel with
  | zero =>
    intro e e' hs he
    cases hrem : e.state.remainders with
    | nil =>
      rw [drain_nil 0 e hrem] at he
      simp only [Except.ok.injEq, Option.some.injEq] at he
      rw [← he, hrem]
      simp [pending]
    | cons frem rest =>
      rw [drain_zero_cons e frem rest hrem] at he
      simp at he
  | succ fuel ih =>
    intro e e' hs he
    cases hrem : e.state.remainders with
    | nil =>
      rw [drain_nil _ e hrem] at he
      simp only [Except.ok.injEq, Option.some.injEq] at he
      rw [← he, hrem]
      simp [pending]
    | cons frem rest =>
      rw [drain_succ_cons fuel e frem rest hrem] at he
      cases hd : drain_step e with
      | error err => simp [hd] at he
      | ok e1 =>
        simp only [hd] at he
        obtain ⟨p1, p2, p3, p4⟩ := drain_step_pending e e1 frem rest hrem hs hd
        obtain ⟨j1, j2, j3⟩ := ih e1 e' p2 he
        rw [← hrem]
        exact ⟨j1, by omega, by omega⟩

/-- The second loop of `main` ends when the fuel is at least the number of functions still
to be compiled. -/
theorem drain_ends (fuel : Nat) :
    ∀ (e : Env), (∀ r, r ∈ e.state.remainders → parser_shaped r.data = true) →
      pending e.state.remainders ≤ fuel → drain fuel e ≠ .ok none := by
  induction fuel with
  | zero =>
    intro e hs hp
    cases hrem : e.state.remainders with
    | nil =>
      rw [drain_nil 0 e hrem]
      simp
    | cons frem rest =>
      rw [hrem] at hp
      simp only [pending] at hp
      omega
  | succ fuel ih =>
    intro e hs hp
    cases hrem : e.state.remainders with
    | nil =>
      rw [drain_nil _ e hrem]
      simp
    | cons frem rest =>
      rw [drain_succ_cons fuel e frem rest hrem]
      cases hd : drain_step e with
      | error err => simp
      | ok e1 =>
        simp only
        obtain ⟨p1, p2, _, _⟩ := drain_step_pending e e1 frem rest hrem hs hd
        exact ih e1 p2 (by omega)


/-! ## What the parsers consume -/

theorem eat_whitespace_suffix (p : List Char) : eat_whitespace p <:+ p := by
  induction p with
  | nil => exact List.suffix_refl _
  | cons c p ih =>
    simp only [eat_whitespace]
    split
    · exact ih.trans (List.suffix_cons c p)
    · exact List.suffix_refl _

theorem ProperSuffix.of_suffix {r q p : List Char} (h1 : r <:+ q) (h2 : ProperSuffix q p) :
    ProperSuffix r p :=
  ⟨h1.trans h2.1, lt_of_le_of_lt h1.length_le h2.2⟩

theorem ProperSuffix.then_suffix {r q p : List Char} (h1 : ProperSuffix r q) (h2 : q <:+ p) :
    ProperSuffix r p :=
  ⟨h1.1.trans h2, lt_of_lt_of_le h1.2 h2.length_le⟩

theorem ProperSuffix.eat {q p : List Char} (h : ProperSuffix q p) :
    ProperSuffix (eat_whitespace q) p :=
  ProperSuffix.of_suffix (eat_whitespace_suffix q) h

theorem starts_with_length (p m : List Char) (h : starts_with p m = true) :
    m.length ≤ p.length := by
  induction m generalizing p with
  | nil => simp
  | cons c m ih =>
    cases p with
    | nil => simp [starts_with] at h
    | cons d p =>
      simp only [starts_with, Bool.and_eq_true] at h
      have := ih p h.2
      simp only [List.length_cons]
      omega

/-- A `match` of a token that is not empty consumes it. -/
theorem match_token_consumed (s : String) (hs : 0 < s.length) (p : List Char) :
    Consumed p (match_token s p) := by
  intro h
  unfold match_token at h ⊢
  split
  · rename_i hst
    have hlen := starts_with_length p s.toList hst
    have hl : s.toList.length = s.length := rfl
    refine ⟨ProperSuffix.eat ⟨List.drop_suffix _ _, ?_⟩, rfl⟩
    simp only [List.length_drop]
    omega
  · rename_i hst
    rw [if_neg hst] at h
    cases h

theorem match_token_suffix (s : String) (p : List Char) :
    (match_token s p).remainder <:+ p := by
  unfold match_token
  split
  · exact (eat_whitespace_suffix _).trans (List.drop_suffix _ _)
  · exact List.nil_suffix

theorem number_digits_split (p : List Char) :
    (number_digits p).2 <:+ p ∧
    (number_digits p).1.length + (number_digits p).2.length = p.length := by
  induction p with
  | nil => simp [number_digits]
  | cons c p ih =>
    simp only [number_digits]
    split
    · refine ⟨ih.1.trans (List.suffix_cons c p), ?_⟩
      simp only [List.length_cons]
      omega
    · simp

/-- The result of `number` after its first step: `sign` is the `-` read or nothing, `q` the
program after it. -/
theorem number_eq (p : List Char) :
    ∃ sign q, q <:+ p ∧ sign.length + q.length = p.length ∧
      number p =
        (if (sign ++ (number_digits q).1).isEmpty || (sign ++ (number_digits q).1) == ['-']
          then failure
          else success (number_digits q).2
            (.integer (atoi (sign ++ (number_digits q).1)))) := by
  cases p with
  | nil => exact ⟨[], [], List.suffix_refl _, rfl, rfl⟩
  | cons c p =>
    by_cases hc : c = '-'
    · subst hc
      exact ⟨['-'], p, List.suffix_cons _ _, by simp; omega, rfl⟩
    · refine ⟨[], c :: p, List.suffix_refl _, by simp, ?_⟩
      unfold number
      split
      rename_i heq
      split at heq
      · rename_i hm
        injection hm with h1 _
        exact absurd h1 hc
      · injection heq with h1 h2
        subst h1
        subst h2
        rfl

theorem number_consumed (p : List Char) : Consumed p (number p) := by
  intro h
  obtain ⟨sign, q, hq, hlen, heq⟩ := number_eq p
  rw [heq] at h ⊢
  obtain ⟨d1, d2⟩ := number_digits_split q
  split at h
  · cases h
  · rename_i hne
    rw [if_neg hne]
    refine ⟨ProperSuffix.eat ⟨d1.trans hq, ?_⟩, rfl⟩
    have hne2 : ¬ (sign ++ (number_digits q).1).isEmpty = true := by
      intro hc
      exact hne (by simp [hc])
    have hpos : 0 < (sign ++ (number_digits q).1).length := by
      cases hx : sign ++ (number_digits q).1 with
      | nil => simp [hx] at hne2
      | cons a b => simp
    simp only [List.length_append] at hpos
    omega

theorem identifier_loop_split (p : List Char) :
    ∀ id : List Char, (identifier_loop id p).2 <:+ p ∧
      (identifier_loop id p).1.length + (identifier_loop id p).2.length =
        id.length + p.length := by
  induction p with
  | nil => intro id; simp [identifier_loop]
  | cons c p ih =>
    intro id
    simp only [identifier_loop]
    split
    · obtain ⟨h1, h2⟩ := ih (id ++ [c])
      refine ⟨h1.trans (List.suffix_cons c p), ?_⟩
      rw [h2]
      simp only [List.length_append, List.length_cons, List.length_nil]
      omega
    · simp

theorem any_success (ps : List (List Char → Option ParserResult)) (p : List Char)
    (r : ParserResult) (h : any ps p = some r) (hs : r.success = true) :
    ∃ q, q ∈ ps ∧ q p = some r := by
  induction ps with
  | nil =>
    simp only [any, Option.some.injEq] at h
    rw [← h] at hs
    cases hs
  | cons q ps ih =>
    simp only [any] at h
    cases hq : q p with
    | none => simp [hq] at h
    | some x =>
      simp only [hq, Option.some_bind] at h
      split at h
      · injection h with h
        subst h
        exact ⟨q, by simp, hq⟩
      · obtain ⟨q', hq', hr⟩ := ih h
        exact ⟨q', by simp [hq'], hr⟩

/-- The results of `seq`, when there are some: every parser of the vector succeeded, on a
suffix of the program; so when every success of these parsers leaves a suffix of its
input, and a proper one for the first parser, every result leaves a proper suffix of the
program. -/
theorem seq_consumed (ps : List (List Char → Option ParserResult))
    (hall : ∀ q, q ∈ ps → ∀ inp r, q inp = some r → r.success = true →
      r.remainder <:+ inp ∧ parser_shaped r.data = true) :
    ∀ (p : List Char) (results : List ParserResult), seq ps p = some results →
      ∀ r, r ∈ results → r.remainder <:+ p ∧ parser_shaped r.data = true := by
  induction ps with
  | nil =>
    intro p results h r hr
    simp only [seq, Option.some.injEq] at h
    rw [← h] at hr
    cases hr
  | cons q ps ih =>
    intro p results h r hr
    simp only [seq] at h
    cases hq : q p with
    | none => simp [hq] at h
    | some x =>
      simp only [hq, Option.some_bind] at h
      split at h
      · injection h with h
        rw [← h] at hr
        cases hr
      · rename_i hx
        have hxs : x.success = true := by simpa using hx
        have hx2 := hall q (by simp) p x hq hxs
        split at h
        · injection h with h
          rw [← h] at hr
          simp only [List.mem_singleton] at hr
          rw [hr]
          exact hx2
        · cases hrest : seq ps x.remainder with
          | none => simp [hrest] at h
          | some rs =>
            simp only [hrest, Option.some_bind] at h
            split at h
            · injection h with h
              rw [← h] at hr
              cases hr
            · injection h with h
              rw [← h] at hr
              rcases List.mem_cons.mp hr with h1 | h1
              · rw [h1]
                exact hx2
              · have := ih (fun q' hq' => hall q' (by simp [hq'])) x.remainder rs hrest r h1
                exact ⟨this.1.trans hx2.1, this.2⟩

theorem seq_nonempty_head (q : List Char → Option ParserResult)
    (ps : List (List Char → Option ParserResult)) (p : List Char)
    (results : List ParserResult) (h : seq (q :: ps) p = some results)
    (hne : results.isEmpty = false) :
    ∃ x, q p = some x ∧ x.success = true := by
  simp only [seq] at h
  cases hq : q p with
  | none => simp [hq] at h
  | some x =>
    simp only [hq, Option.some_bind] at h
    split at h
    · injection h with h
      rw [← h] at hne
      cases hne
    · rename_i hx
      exact ⟨x, rfl, by simpa using hx⟩


theorem parser_shaped_list_append (xs ys : List ProgramData) :
    parser_shaped_list (xs ++ ys) = (parser_shaped_list xs && parser_shaped_list ys) := by
  induction xs with
  | nil => simp [parser_shaped_list]
  | cons x xs ih =>
    show parser_shaped_list (x :: (xs ++ ys)) = _
    simp only [parser_shaped_list, ih, Bool.and_assoc]

theorem getD_failure (results : List ParserResult) (i : Nat) :
    results.getD i failure = failure ∨ results.getD i failure ∈ results := by
  induction results generalizing i with
  | nil => left; rfl
  | cons x xs ih =>
    cases i with
    | zero => right; simp
    | succ i =>
      rcases ih i with h | h
      · left; simpa using h
      · right
        simp only [List.getD_cons_succ]
        exact List.mem_cons_of_mem _ h

theorem getLastD_failure (results : List ParserResult) :
    results.getLastD failure = failure ∨ results.getLastD failure ∈ results := by
  cases results with
  | nil => left; rfl
  | cons x xs =>
    right
    rw [List.getLastD_cons]
    induction xs generalizing x with
    | nil => simp
    | cons y ys ih =>
      rw [List.getLastD_cons]
      exact List.mem_cons_of_mem _ (ih y)

/-- The results of a `seq` whose first parser consumes and whose other parsers leave a
suffix of their input: every result that the callers read, by its index or as the last
one, leaves a proper suffix of the program and has a tree of the parser's shape. -/
theorem seq_results (q : List Char → Option ParserResult)
    (ps : List (List Char → Option ParserResult)) (p : List Char)
    (results : List ParserResult) (h : seq (q :: ps) p = some results)
    (hne : results.isEmpty = false)
    (hq : ∀ inp r, q inp = some r → Consumed inp r)
    (hall : ∀ q', q' ∈ ps → ∀ inp r, q' inp = some r → r.success = true →
      r.remainder <:+ inp ∧ parser_shaped r.data = true) :
    (∀ i, ProperSuffix (results.getD i failure).remainder p ∧
      parser_shaped (results.getD i failure).data = true) ∧
    ProperSuffix (results.getLastD failure).remainder p ∧
    parser_shaped (results.getLastD failure).data = true := by
  obtain ⟨x, hx, hxs⟩ := seq_nonempty_head q ps p results h hne
  obtain ⟨hx1, hx2⟩ := hq p x hx hxs
  have hpos : 0 < p.length := by
    have := hx1.2
    omega
  have hmem : ∀ r, r ∈ results → ProperSuffix r.remainder p ∧ parser_shaped r.data = true := by
    intro r hr
    simp only [seq, hx, Option.some_bind, hxs, Bool.not_true, Bool.false_eq_true,
      if_false] at h
    split at h
    · injection h with h
      rw [← h] at hr
      simp only [List.mem_singleton] at hr
      rw [hr]
      exact ⟨hx1, hx2⟩
    · cases hrest : seq ps x.remainder with
      | none => simp [hrest] at h
      | some rs =>
        simp only [hrest, Option.some_bind] at h
        split at h
        · injection h with h
          rw [← h] at hne
          cases hne
        · injection h with h
          rw [← h] at hr
          rcases List.mem_cons.mp hr with h1 | h1
          · rw [h1]
            exact ⟨hx1, hx2⟩
          · have := seq_consumed ps hall x.remainder rs hrest r h1
            exact ⟨ProperSuffix.of_suffix this.1 hx1, this.2⟩
  have hfail : ProperSuffix failure.remainder p ∧ parser_shaped failure.data = true :=
    ⟨⟨List.nil_suffix, hpos⟩, rfl⟩
  refine ⟨?_, ?_⟩
  · intro i
    rcases getD_failure results i with h1 | h1
    · rw [h1]
      exact hfail
    · exact hmem _ h1
  · rcases getLastD_failure results with h1 | h1
    · rw [h1]
      exact hfail
    · exact hmem _ h1

theorem Consumed.suffix {p : List Char} {r : ParserResult} (h : Consumed p r)
    (hs : r.success = true) : r.remainder <:+ p ∧ parser_shaped r.data = true :=
  ⟨(h hs).1.1, (h hs).2⟩

theorem lift_match_consumed (s : String) (hs : 0 < s.length) :
    ∀ inp r, lift (match_token s) inp = some r → Consumed inp r := by
  intro inp r h
  simp only [lift, Option.some.injEq] at h
  rw [← h]
  exact match_token_consumed s hs inp

theorem progress_zero : Progress 0 where
  identifier := fun _ _ h => by cases h
  index_ := fun _ _ _ h => by cases h
  function := fun _ _ _ h => by cases h
  function_arguments := fun _ _ _ _ h => by cases h
  atom := fun _ _ h => by cases h
  atom_calls := fun _ _ h => by cases h
  term := fun _ _ h => by cases h
  term_loop := fun _ _ h => by cases h
  addop := fun _ _ h => by cases h
  addop_loop := fun _ _ h => by cases h
  noncompare_expression := fun _ _ h => by cases h
  equality := fun _ _ h => by cases h
  expression := fun _ _ h => by cases h
  assignment := fun _ _ h => by cases h
  function_definition := fun _ _ h => by cases h
  if_statement := fun _ _ h => by cases h
  while_loop := fun _ _ h => by cases h
  return_statement := fun _ _ h => by cases h
  statement := fun _ _ h => by cases h
  block := fun _ _ h => by cases h
  block_loop := fun _ _ _ h => by cases h


theorem progress_identifier (n : Nat) (ih : Progress n) (p : List Char) (r : ParserResult)
    (h : identifier (n + 1) p = some r) : Consumed p r := by
  rw [identifier_succ] at h
  split at h
  · injection h with h
    rw [← h]
    intro hs
    cases hs
  · rename_i hne
    obtain ⟨h1, h2⟩ := identifier_loop_split p []
    have hpos : 0 < (identifier_loop [] p).1.length := by
      cases hx : (identifier_loop [] p).1 with
      | nil => simp [hx] at hne
      | cons a b => simp
    have hprop : ProperSuffix (success (identifier_loop [] p).2
        (.str TYPE_IDENTIFIER (String.mk (identifier_loop [] p).1))).remainder p :=
      ProperSuffix.eat ⟨h1, by simp only [List.length_nil] at h2; omega⟩
    intro hs
    rcases ih.index_ _ _ _ h with he | ⟨_, he2, he3⟩
    · rw [he]
      exact ⟨hprop, rfl⟩
    · exact ⟨he2.then_suffix hprop.1, he3 rfl⟩

theorem progress_index (n : Nat) (ih : Progress n) (p : List Char) (c r : ParserResult)
    (h : index_ (n + 1) p c = some r) : Extended p c r := by
  cases p with
  | nil =>
    simp only [index_, Option.some.injEq] at h
    exact Or.inl h.symm
  | cons c0 p =>
    simp only [index_] at h
    split at h
    · injection h with h
      exact Or.inl h.symm
    · obtain ⟨iden, hi, hk⟩ := Option.bind_eq_some.mp h
      split at hk
      · injection hk with hk
        exact Or.inl hk.symm
      · rename_i hsucc
        have hs : iden.success = true := by simpa using hsucc
        obtain ⟨i1, i2⟩ := ih.identifier p iden hi hs
        injection hk with hk
        right
        rw [← hk]
        refine ⟨rfl, ProperSuffix.eat (i1.then_suffix (List.suffix_cons _ _)), ?_⟩
        intro hc
        simp [success, parser_shaped, parser_shaped_list, parser_arity, hc, i2]

theorem progress_function_arguments (n : Nat) (ih : Progress n) (ch : List ProgramData)
    (p : List Char) (res : ParserResult) (out : List ProgramData × List Char)
    (h : function_arguments (n + 1) ch p res = some out)
    (hres : res.success = true → res.remainder <:+ p ∧ parser_shaped res.data = true)
    (hch : parser_shaped_list ch = true) :
    out.2 <:+ p ∧ parser_shaped_list out.1 = true := by
  simp only [function_arguments] at h
  split at h
  · injection h with h
    rw [← h]
    exact ⟨List.suffix_refl _, hch⟩
  · rename_i hsucc
    have hs : res.success = true := by simpa using hsucc
    obtain ⟨r1, r2⟩ := hres hs
    have hch2 : parser_shaped_list (ch ++ [res.data]) = true := by
      rw [parser_shaped_list_append]
      simp [parser_shaped_list, hch, r2]
    split at h
    · injection h with h
      rw [← h]
      exact ⟨r1, hch2⟩
    · obtain ⟨result, hx, hk⟩ := Option.bind_eq_some.mp h
      have hpre : result.success = true →
          result.remainder <:+ res.remainder ∧ parser_shaped result.data = true := by
        intro hrs
        obtain ⟨x1, x2⟩ := ih.expression _ _ hx hrs
        exact ⟨x1.1.trans (match_token_suffix _ _), x2⟩
      obtain ⟨o1, o2⟩ := ih.function_arguments _ _ _ _ hk hpre hch2
      exact ⟨o1.trans r1, o2⟩

theorem progress_function (n : Nat) (ih : Progress n) (p : List Char) (c r : ParserResult)
    (h : function (n + 1) p c = some r) : Extended p c r := by
  simp only [function] at h
  split at h
  · injection h with h
    exact Or.inl h.symm
  · rename_i hsucc
    have hs : (match_token "(" p).success = true := by simpa using hsucc
    obtain ⟨m1, _⟩ := match_token_consumed "(" (by decide) p hs
    obtain ⟨result, hx, hk⟩ := Option.bind_eq_some.mp h
    obtain ⟨out, ho, hk2⟩ := Option.bind_eq_some.mp hk
    have hpre : result.success = true →
        result.remainder <:+ (match_token "(" p).remainder ∧
          parser_shaped result.data = true := by
      intro hrs
      exact (ih.expression _ _ hx).suffix hrs
    obtain ⟨o1, o2⟩ := ih.function_arguments _ _ _ _ ho hpre rfl
    split at hk2
    · injection hk2 with hk2
      exact Or.inl hk2.symm
    · rename_i hsucc2
      have hs2 : (match_token ")" out.2).success = true := by simpa using hsucc2
      obtain ⟨m2, _⟩ := match_token_consumed ")" (by decide) out.2 hs2
      have hprop : ProperSuffix (success (match_token ")" out.2).remainder
          (.children TYPE_FUNCTION (c.data :: out.1))).remainder p :=
        ProperSuffix.eat ((m2.then_suffix o1).then_suffix m1.1)
      have hshape : parser_shaped c.data = true →
          parser_shaped (success (match_token ")" out.2).remainder
            (.children TYPE_FUNCTION (c.data :: out.1))).data = true := by
        intro hc
        simp [success, parser_shaped, parser_shaped_list, parser_arity, hc, o2]
      right
      rcases ih.index_ _ _ _ hk2 with he | ⟨he1, he2, he3⟩
      · rw [he]
        exact ⟨rfl, hprop, hshape⟩
      · exact ⟨he1, he2.then_suffix hprop.1, fun hc => he3 (hshape hc)⟩


theorem any_two_suffix (s1 s2 : String) (p : List Char) :
    ∃ op, any [lift (match_token s1), lift (match_token s2)] p = some op ∧
      op.remainder <:+ p := by
  refine ⟨_, any_two s1 s2 p, ?_⟩
  split
  · exact match_token_suffix _ _
  · split
    · exact match_token_suffix _ _
    · exact List.nil_suffix

theorem progress_atom_calls (n : Nat) (ih : Progress n) (res r : ParserResult)
    (h : atom_calls (n + 1) res = some r) : Continued res r := by
  simp only [atom_calls] at h
  obtain ⟨next, hf, hk⟩ := Option.bind_eq_some.mp h
  have hnext : next.remainder <:+ res.remainder ∧
      (parser_shaped res.data = true → parser_shaped next.data = true) := by
    rcases ih.function _ _ _ hf with he | ⟨_, he2, he3⟩
    · rw [he]
      exact ⟨List.suffix_refl _, fun hc => hc⟩
    · exact ⟨he2.1, he3⟩
  split at hk
  · injection hk with hk
    rw [← hk]
    intro _
    exact hnext
  · intro hs
    obtain ⟨c1, c2⟩ := ih.atom_calls _ _ hk hs
    exact ⟨c1.trans hnext.1, fun hc => c2 (hnext.2 hc)⟩

theorem progress_atom (n : Nat) (ih : Progress n) (p : List Char) (r : ParserResult)
    (h : atom (n + 1) p = some r) : Consumed p r := by
  simp only [atom] at h
  obtain ⟨result, ha, hk⟩ := Option.bind_eq_some.mp h
  split at hk
  · rename_i hsucc
    obtain ⟨q, hq, hqr⟩ := any_success _ _ _ ha hsucc
    have hcons : Consumed p result := by
      simp only [List.mem_cons, List.mem_singleton, List.mem_nil_iff, or_false] at hq
      rcases hq with hq | hq
      · rw [hq] at hqr
        simp only [lift, Option.some.injEq] at hqr
        rw [← hqr]
        exact number_consumed p
      · rw [hq] at hqr
        exact ih.identifier _ _ hqr
    obtain ⟨r1, r2⟩ := hcons hsucc
    intro hs
    obtain ⟨c1, c2⟩ := ih.atom_calls _ _ hk hs
    exact ⟨ProperSuffix.of_suffix c1 r1, c2 r2⟩
  · obtain ⟨results, hseq, hk2⟩ := Option.bind_eq_some.mp hk
    split at hk2
    · injection hk2 with hk2
      rw [← hk2]
      intro hs
      cases hs
    · rename_i hne
      have hne2 : results.isEmpty = false := by simpa using hne
      obtain ⟨hget, _⟩ := seq_results _ _ p results hseq hne2
        (lift_match_consumed "(" (by decide))
        (by
          intro q' hq' inp x hx hxs
          simp only [List.mem_cons, List.mem_singleton, List.mem_nil_iff, or_false] at hq'
          rcases hq' with hq' | hq'
          · rw [hq'] at hx
            exact (ih.addop _ _ hx).suffix hxs
          · rw [hq'] at hx
            exact (lift_match_consumed ")" (by decide) _ _ hx).suffix hxs)
      intro hs
      rcases ih.function _ _ _ hk2 with he | ⟨_, he2, he3⟩
      · rw [he]
        exact ⟨(hget 2).1, (hget 1).2⟩
      · exact ⟨he2.then_suffix (hget 2).1.1, he3 (hget 1).2⟩

theorem progress_term_loop (n : Nat) (ih : Progress n) (res r : ParserResult)
    (h : term_loop (n + 1) res = some r) : Continued res r := by
  obtain ⟨op, hop, hopsuf⟩ := any_two_suffix "*" "/" res.remainder
  simp only [term_loop, hop, Option.some_bind] at h
  split at h
  · injection h with h
    rw [← h]
    intro _
    exact ⟨List.suffix_refl _, fun hc => hc⟩
  · obtain ⟨rh, ha, hk⟩ := Option.bind_eq_some.mp h
    split at hk
    · injection hk with hk
      rw [← hk]
      intro hs
      cases hs
    · rename_i hrs
      have hrs2 : rh.success = true := by simpa using hrs
      obtain ⟨a1, a2⟩ := ih.atom _ _ ha hrs2
      intro hs
      obtain ⟨c1, c2⟩ := ih.term_loop _ _ hk hs
      refine ⟨c1.trans ((eat_whitespace_suffix _).trans (a1.1.trans hopsuf)), ?_⟩
      intro hc
      apply c2
      simp only [success, parser_shaped, parser_shaped_list, hc, a2, Bool.and_true]
      split <;> rfl

theorem progress_term (n : Nat) (ih : Progress n) (p : List Char) (r : ParserResult)
    (h : term (n + 1) p = some r) : Consumed p r := by
  simp only [term] at h
  obtain ⟨result, ha, hk⟩ := Option.bind_eq_some.mp h
  split at hk
  · injection hk with hk
    rw [← hk]
    intro hs
    cases hs
  · rename_i hrs
    have hrs2 : result.success = true := by simpa using hrs
    obtain ⟨a1, a2⟩ := ih.atom _ _ ha hrs2
    intro hs
    obtain ⟨c1, c2⟩ := ih.term_loop _ _ hk hs
    exact ⟨ProperSuffix.of_suffix c1 a1, c2 a2⟩

theorem progress_addop_loop (n : Nat) (ih : Progress n) (res r : ParserResult)
    (h : addop_loop (n + 1) res = some r) : Continued res r := by
  obtain ⟨op, hop, hopsuf⟩ := any_two_suffix "+" "-" res.remainder
  simp only [addop_loop, hop, Option.some_bind] at h
  split at h
  · injection h with h
    rw [← h]
    intro _
    exact ⟨List.suffix_refl _, fun hc => hc⟩
  · obtain ⟨rh, ha, hk⟩ := Option.bind_eq_some.mp h
    split at hk
    · injection hk with hk
      rw [← hk]
      intro hs
      cases hs
    · rename_i hrs
      have hrs2 : rh.success = true := by simpa using hrs
      obtain ⟨a1, a2⟩ := ih.term _ _ ha hrs2
      intro hs
      obtain ⟨c1, c2⟩ := ih.addop_loop _ _ hk hs
      refine ⟨c1.trans ((eat_whitespace_suffix _).trans (a1.1.trans hopsuf)), ?_⟩
      intro hc
      apply c2
      simp only [success, parser_shaped, parser_shaped_list, hc, a2, Bool.and_true]
      split <;> rfl

theorem progress_addop (n : Nat) (ih : Progress n) (p : List Char) (r : ParserResult)
    (h : addop (n + 1) p = some r) : Consumed p r := by
  simp only [addop] at h
  obtain ⟨result, ha, hk⟩ := Option.bind_eq_some.mp h
  split at hk
  · injection hk with hk
    rw [← hk]
    intro hs
    cases hs
  · rename_i hrs
    have hrs2 : result.success = true := by simpa using hrs
    obtain ⟨a1, a2⟩ := ih.term _ _ ha hrs2
    intro hs
    obtain ⟨c1, c2⟩ := ih.addop_loop _ _ hk hs
    exact ⟨ProperSuffix.of_suffix c1 a1, c2 a2⟩

theorem progress_noncompare (n : Nat) (ih : Progress n) (p : List Char) (r : ParserResult)
    (h : noncompare_expression (n + 1) p = some r) : Consumed p r := by
  simp only [noncompare_expression] at h
  intro hs
  obtain ⟨q, hq, hqr⟩ := any_success _ _ _ h hs
  simp only [List.mem_singleton] at hq
  rw [hq] at hqr
  exact ih.addop _ _ hqr hs


theorem any_consumed (ps : List (List Char → Option ParserResult))
    (hall : ∀ q, q ∈ ps → ∀ inp r, q inp = some r → Consumed inp r) :
    ∀ inp r, any ps inp = some r → Consumed inp r := by
  intro inp r h hs
  obtain ⟨q, hq, hqr⟩ := any_success ps inp r h hs
  exact hall q hq inp r hqr hs

theorem shrinks_of_consumed (q : List Char → Option ParserResult)
    (h : ∀ inp r, q inp = some r → Consumed inp r) : Shrinks q :=
  fun inp r hq hs => (h inp r hq).suffix hs

theorem shrinks_token (s : String) (hs : 0 < s.length) : Shrinks (lift (match_token s)) :=
  shrinks_of_consumed _ (lift_match_consumed s hs)

theorem shrinks_block (n : Nat) (ih : Progress n) : Shrinks (block n) :=
  fun inp r hq _ => (ih.block inp r hq).2

theorem shrinks_list (ps : List (List Char → Option ParserResult))
    (h : List.Forall Shrinks ps) :
    ∀ q, q ∈ ps → ∀ inp r, q inp = some r → r.success = true →
      r.remainder <:+ inp ∧ parser_shaped r.data = true := by
  intro q hq
  exact (List.forall_iff_forall_mem.mp h) q hq

theorem progress_expression (n : Nat) (ih : Progress n) (p : List Char) (r : ParserResult)
    (h : expression (n + 1) p = some r) : Consumed p r := by
  simp only [expression] at h
  refine any_consumed _ ?_ p r h
  intro q hq
  simp only [List.mem_cons, List.mem_singleton, List.mem_nil_iff, or_false] at hq
  rcases hq with hq | hq | hq <;> rw [hq]
  · exact ih.function_definition
  · exact ih.equality
  · exact ih.noncompare_expression

theorem progress_statement (n : Nat) (ih : Progress n) (p : List Char) (r : ParserResult)
    (h : statement (n + 1) p = some r) : Consumed p r := by
  simp only [statement] at h
  refine any_consumed _ ?_ p r h
  intro q hq
  simp only [List.mem_cons, List.mem_singleton, List.mem_nil_iff, or_false] at hq
  rcases hq with hq | hq | hq | hq | hq <;> rw [hq]
  · exact ih.return_statement
  · exact ih.assignment
  · exact ih.if_statement
  · exact ih.while_loop
  · exact ih.expression

theorem progress_equality (n : Nat) (ih : Progress n) (p : List Char) (r : ParserResult)
    (h : equality (n + 1) p = some r) : Consumed p r := by
  simp only [equality] at h
  obtain ⟨results, hseq, hk⟩ := Option.bind_eq_some.mp h
  split at hk
  · injection hk with hk
    rw [← hk]
    intro hs
    cases hs
  · rename_i hne
    have hne2 : results.isEmpty = false := by simpa using hne
    obtain ⟨hget, _⟩ := seq_results _ _ p results hseq hne2 ih.noncompare_expression
      (shrinks_list _ (by
        refine ⟨shrinks_of_consumed _ (any_consumed _ ?_), ?_⟩
        · intro q hq
          simp only [List.mem_cons, List.mem_singleton, List.mem_nil_iff, or_false] at hq
          rcases hq with hq | hq | hq <;> rw [hq]
          · exact lift_match_consumed _ (by decide)
          · exact lift_match_consumed _ (by decide)
          · exact lift_match_consumed _ (by decide)
        · exact shrinks_of_consumed _ ih.noncompare_expression))
    injection hk with hk
    rw [← hk]
    intro _
    refine ⟨ProperSuffix.eat (hget 2).1, ?_⟩
    simp only [success, parser_shaped, parser_shaped_list, (hget 0).2, (hget 2).2,
      Bool.and_true]
    split
    · rfl
    · split <;> rfl

theorem progress_assignment (n : Nat) (ih : Progress n) (p : List Char) (r : ParserResult)
    (h : assignment (n + 1) p = some r) : Consumed p r := by
  simp only [assignment] at h
  obtain ⟨results, hseq, hk⟩ := Option.bind_eq_some.mp h
  split at hk
  · injection hk with hk
    rw [← hk]
    intro hs
    cases hs
  · rename_i hne
    have hne2 : results.isEmpty = false := by simpa using hne
    obtain ⟨hget, _⟩ := seq_results _ _ p results hseq hne2 ih.identifier
      (shrinks_list _
        ⟨shrinks_token _ (by decide), shrinks_of_consumed _ ih.expression⟩)
    injection hk with hk
    rw [← hk]
    intro _
    refine ⟨ProperSuffix.eat (hget 2).1, ?_⟩
    simp only [success, parser_shaped, parser_shaped_list, (hget 0).2, (hget 2).2,
      Bool.and_true]
    rfl

theorem progress_function_definition (n : Nat) (ih : Progress n) (p : List Char)
    (r : ParserResult) (h : function_definition (n + 1) p = some r) : Consumed p r := by
  simp only [function_definition] at h
  obtain ⟨results, hseq, hk⟩ := Option.bind_eq_some.mp h
  split at hk
  · injection hk with hk
    rw [← hk]
    intro hs
    cases hs
  · rename_i hne
    have hne2 : results.isEmpty = false := by simpa using hne
    obtain ⟨hget, hlast, _⟩ := seq_results _ _ p results hseq hne2
      (lift_match_consumed _ (by decide))
      (shrinks_list _
        ⟨shrinks_token _ (by decide), shrinks_token _ (by decide),
          shrinks_token _ (by decide), shrinks_block n ih, shrinks_token _ (by decide)⟩)
    injection hk with hk
    rw [← hk]
    intro _
    refine ⟨ProperSuffix.eat hlast, ?_⟩
    simp only [success, parser_shaped, parser_shaped_list, (hget 4).2, Bool.and_true]
    rfl

theorem progress_while_loop (n : Nat) (ih : Progress n) (p : List Char)
    (r : ParserResult) (h : while_loop (n + 1) p = some r) : Consumed p r := by
  simp only [while_loop] at h
  obtain ⟨results, hseq, hk⟩ := Option.bind_eq_some.mp h
  split at hk
  · injection hk with hk
    rw [← hk]
    intro hs
    cases hs
  · rename_i hne
    have hne2 : results.isEmpty = false := by simpa using hne
    obtain ⟨hget, hlast, _⟩ := seq_results _ _ p results hseq hne2
      (lift_match_consumed _ (by decide))
      (shrinks_list _
        ⟨shrinks_token _ (by decide), shrinks_of_consumed _ ih.expression,
          shrinks_token _ (by decide), shrinks_token _ (by decide), shrinks_block n ih,
          shrinks_token _ (by decide)⟩)
    injection hk with hk
    rw [← hk]
    intro _
    refine ⟨ProperSuffix.eat hlast, ?_⟩
    simp only [success, parser_shaped, parser_shaped_list, (hget 2).2, (hget 5).2,
      Bool.and_true]
    rfl

theorem progress_return_statement (n : Nat) (ih : Progress n) (p : List Char)
    (r : ParserResult) (h : return_statement (n + 1) p = some r) : Consumed p r := by
  simp only [return_statement] at h
  obtain ⟨results, hseq, hk⟩ := Option.bind_eq_some.mp h
  split at hk
  · injection hk with hk
    rw [← hk]
    intro hs
    cases hs
  · rename_i hne
    have hne2 : results.isEmpty = false := by simpa using hne
    obtain ⟨hget, hlast, _⟩ := seq_results _ _ p results hseq hne2
      (lift_match_consumed _ (by decide))
      (shrinks_list [expression n] (shrinks_of_consumed _ ih.expression))
    injection hk with hk
    rw [← hk]
    intro _
    refine ⟨ProperSuffix.eat hlast, ?_⟩
    simp only [success, parser_shaped, parser_shaped_list, (hget 1).2, Bool.and_true]
    rfl

theorem progress_if_statement (n : Nat) (ih : Progress n) (p : List Char)
    (r : ParserResult) (h : if_statement (n + 1) p = some r) : Consumed p r := by
  simp only [if_statement] at h
  obtain ⟨results, hseq, hk⟩ := Option.bind_eq_some.mp h
  split at hk
  · injection hk with hk
    rw [← hk]
    intro hs
    cases hs
  · rename_i hne
    have hne2 : results.isEmpty = false := by simpa using hne
    obtain ⟨hget, hlast, _⟩ := seq_results _ _ p results hseq hne2
      (lift_match_consumed _ (by decide))
      (shrinks_list _
        ⟨shrinks_token _ (by decide), shrinks_of_consumed _ ih.expression,
          shrinks_token _ (by decide), shrinks_token _ (by decide), shrinks_block n ih,
          shrinks_token _ (by decide)⟩)
    have hshape : ∀ x, parser_shaped x = true →
        parser_shaped (.children TYPE_IF
          [(results.getD 2 failure).data, (results.getD 5 failure).data, x]) = true := by
      intro x hx
      simp only [parser_shaped, parser_shaped_list, (hget 2).2, (hget 5).2, hx,
        Bool.and_true]
      rfl
    split at hk
    · have helse := ProperSuffix.of_suffix
        (match_token_suffix "else" (results.getLastD failure).remainder) hlast
      split at hk
      · obtain ⟨eb, hb, hk2⟩ := Option.bind_eq_some.mp hk
        split at hk2
        · injection hk2 with hk2
          rw [← hk2]
          intro hs
          cases hs
        · obtain ⟨_, b2, b3⟩ := ih.block _ _ hb
          split at hk2
          · injection hk2 with hk2
            rw [← hk2]
            intro hs
            cases hs
          · injection hk2 with hk2
            rw [← hk2]
            intro _
            refine ⟨ProperSuffix.eat ?_, hshape _ b3⟩
            exact ProperSuffix.of_suffix
              ((match_token_suffix _ _).trans (b2.trans (match_token_suffix _ _))) helse
      · obtain ⟨res, hb, hk2⟩ := Option.bind_eq_some.mp hk
        split at hk2
        · injection hk2 with hk2
          rw [← hk2]
          intro hs
          cases hs
        · rename_i hrs
          have hrs2 : res.success = true := by simpa using hrs
          obtain ⟨b1, b2⟩ := ih.if_statement _ _ hb hrs2
          injection hk2 with hk2
          rw [← hk2]
          intro _
          exact ⟨ProperSuffix.eat (ProperSuffix.of_suffix b1.1 helse), hshape _ b2⟩
    · injection hk with hk
      rw [← hk]
      intro _
      exact ⟨ProperSuffix.eat hlast, hshape _ rfl⟩

theorem progress_block_loop (n : Nat) (ih : Progress n) (ch : List ProgramData)
    (p : List Char) (r : ParserResult) (h : block_loop (n + 1) ch p = some r)
    (hch : parser_shaped_list ch = true) :
    r.success = true ∧ r.remainder <:+ p ∧ parser_shaped r.data = true := by
  simp only [block_loop] at h
  obtain ⟨result, hst, hk⟩ := Option.bind_eq_some.mp h
  split at hk
  · injection hk with hk
    rw [← hk]
    refine ⟨rfl, eat_whitespace_suffix _, ?_⟩
    simp only [success, parser_shaped, hch, Bool.and_true]
    rfl
  · rename_i hrs
    have hrs2 : result.success = true := by simpa using hrs
    obtain ⟨s1, s2⟩ := ih.statement _ _ hst hrs2
    obtain ⟨b1, b2, b3⟩ := ih.block_loop _ _ _ hk (by
      rw [parser_shaped_list_append, hch]
      simp only [parser_shaped_list, s2, Bool.and_true])
    exact ⟨b1, b2.trans s1.1, b3⟩

theorem progress_block (n : Nat) (ih : Progress n) (p : List Char) (r : ParserResult)
    (h : block (n + 1) p = some r) :
    r.success = true ∧ r.remainder <:+ p ∧ parser_shaped r.data = true := by
  simp only [block] at h
  exact ih.block_loop _ _ _ h rfl

/-- Every parser, at every fuel: what it returns leaves a suffix of its input, a proper
one where the parser succeeds on a statement or an expression. -/
theorem progress : ∀ n, Progress n
  | 0 => progress_zero
  | n + 1 =>
    have ih := progress n
    { identifier := progress_identifier n ih
      index_ := progress_index n ih
      function := progress_function n ih
      function_arguments := progress_function_arguments n ih
      atom := progress_atom n ih
      atom_calls := progress_atom_calls n ih
      term := progress_term n ih
      term_loop := progress_term_loop n ih
      addop := progress_addop n ih
      addop_loop := progress_addop_loop n ih
      noncompare_expression := progress_noncompare n ih
      equality := progress_equality n ih
      expression := progress_expression n ih
      assignment := progress_assignment n ih
      function_definition := progress_function_definition n ih
      if_statement := progress_if_statement n ih
      while_loop := progress_while_loop n ih
      return_statement := progress_return_statement n ih
      statement := progress_statement n ih
      block := progress_block n ih
      block_loop := progress_block_loop n ih }


theorem any_returns (ps : List (List Char → Option ParserResult)) (p : List Char)
    (h : ∀ q, q ∈ ps → ∃ r, q p = some r) : ∃ r, any ps p = some r := by
  induction ps with
  | nil => exact ⟨_, rfl⟩
  | cons q ps ih =>
    obtain ⟨x, hx⟩ := h q (List.mem_cons_self _ _)
    simp only [any, hx, Option.some_bind]
    split
    · exact ⟨_, rfl⟩
    · exact ih (fun q' hq' => h q' (List.mem_cons_of_mem _ hq'))

theorem seq_returns_below (bound : Nat) (ps : List (List Char → Option ParserResult))
    (hall : ∀ q, q ∈ ps → Shrinks q ∧ Returns q bound) :
    ∀ p : List Char, p.length < bound → ∃ rs, seq ps p = some rs := by
  induction ps with
  | nil => intro p _; exact ⟨_, rfl⟩
  | cons q ps ih =>
    intro p hp
    obtain ⟨hs, hr⟩ := hall q (List.mem_cons_self _ _)
    obtain ⟨x, hx⟩ := hr p hp
    simp only [seq, hx, Option.some_bind]
    split
    · exact ⟨_, rfl⟩
    · rename_i hsucc
      have hxs : x.success = true := by simpa using hsucc
      split
      · exact ⟨_, rfl⟩
      · obtain ⟨rs, hrs⟩ := ih (fun q' hq' => hall q' (List.mem_cons_of_mem _ hq'))
          x.remainder (lt_of_le_of_lt (hs p x hx hxs).1.length_le hp)
        rw [hrs]
        simp only [Option.some_bind]
        split <;> exact ⟨_, rfl⟩

theorem seq_returns (q : List Char → Option ParserResult)
    (ps : List (List Char → Option ParserResult)) (p : List Char)
    (hq : ∃ r, q p = some r) (hc : ∀ inp r, q inp = some r → Consumed inp r)
    (hall : ∀ q', q' ∈ ps → Shrinks q' ∧ Returns q' p.length) :
    ∃ rs, seq (q :: ps) p = some rs := by
  obtain ⟨x, hx⟩ := hq
  simp only [seq, hx, Option.some_bind]
  split
  · exact ⟨_, rfl⟩
  · rename_i hsucc
    have hxs : x.success = true := by simpa using hsucc
    split
    · exact ⟨_, rfl⟩
    · obtain ⟨rs, hrs⟩ := seq_returns_below p.length ps hall x.remainder (hc p x hx hxs).1.2
      rw [hrs]
      simp only [Option.some_bind]
      split <;> exact ⟨_, rfl⟩

theorem returns_token (s : String) (bound : Nat) : Returns (lift (match_token s)) bound :=
  fun _ _ => ⟨_, rfl⟩

theorem parts_list (bound : Nat) (ps : List (List Char → Option ParserResult))
    (h : List.Forall (fun q => Shrinks q ∧ Returns q bound) ps) :
    ∀ q, q ∈ ps → Shrinks q ∧ Returns q bound :=
  fun q hq => (List.forall_iff_forall_mem.mp h) q hq

theorem part_token (s : String) (hs : 0 < s.length) (bound : Nat) :
    Shrinks (lift (match_token s)) ∧ Returns (lift (match_token s)) bound :=
  ⟨shrinks_token s hs, returns_token s bound⟩

theorem halts_zero : Halts 0 where
  identifier := fun _ h => by omega
  index_ := fun _ _ h => by omega
  function := fun _ _ h => by omega
  function_arguments := fun _ _ _ h => by omega
  atom := fun _ h => by omega
  atom_calls := fun _ h => by omega
  term := fun _ h => by omega
  term_loop := fun _ h => by omega
  addop := fun _ h => by omega
  addop_loop := fun _ h => by omega
  noncompare_expression := fun _ h => by omega
  equality := fun _ h => by omega
  expression := fun _ h => by omega
  assignment := fun _ h => by omega
  function_definition := fun _ h => by omega
  if_statement := fun _ h => by omega
  while_loop := fun _ h => by omega
  return_statement := fun _ h => by omega
  statement := fun _ h => by omega
  block := fun _ h => by omega
  block_loop := fun _ _ h => by omega

theorem halts_identifier (m : Nat) (ih : Halts m) (p : List Char)
    (hm : 12 * p.length < m + 1) : ∃ r, identifier (m + 1) p = some r := by
  rw [identifier_succ]
  split
  · exact ⟨_, rfl⟩
  · rename_i hne
    obtain ⟨h1, h2⟩ := identifier_loop_split p []
    have hpos : 0 < (identifier_loop [] p).1.length := by
      cases hx : (identifier_loop [] p).1 with
      | nil => simp [hx] at hne
      | cons a b => simp
    have hprop : ProperSuffix (success (identifier_loop [] p).2
        (.str TYPE_IDENTIFIER (String.mk (identifier_loop [] p).1))).remainder p :=
      ProperSuffix.eat ⟨h1, by simp only [List.length_nil] at h2; omega⟩
    have := hprop.2
    exact ih.index_ _ _ (by omega)

theorem halts_index (m : Nat) (ih : Halts m) (p : List Char) (c : ParserResult)
    (hm : 12 * p.length < m + 1) : ∃ r, index_ (m + 1) p c = some r := by
  cases p with
  | nil => exact ⟨_, rfl⟩
  | cons c0 p =>
    simp only [index_]
    split
    · exact ⟨_, rfl⟩
    · obtain ⟨x, hx⟩ := ih.identifier p (by simp only [List.length_cons] at hm; omega)
      rw [hx]
      simp only [Option.some_bind]
      split <;> exact ⟨_, rfl⟩

theorem halts_function_arguments (m : Nat) (ih : Halts m) (ch : List ProgramData)
    (p : List Char) (res : ParserResult)
    (hm : res.success = true → 12 * res.remainder.length < m + 1) :
    ∃ out, function_arguments (m + 1) ch p res = some out := by
  simp only [function_arguments]
  split
  · exact ⟨_, rfl⟩
  · rename_i hsucc
    have hs : res.success = true := by simpa using hsucc
    have hm2 := hm hs
    split
    · exact ⟨_, rfl⟩
    · rename_i hcomma
      have hc : (match_token "," res.remainder).success = true := by simpa using hcomma
      have hlt := (match_token_consumed "," (by decide) res.remainder hc).1.2
      obtain ⟨x, hx⟩ := ih.expression (match_token "," res.remainder).remainder (by omega)
      rw [hx]
      simp only [Option.some_bind]
      refine ih.function_arguments _ _ _ (by omega) ?_
      intro hxs
      have := (progress m).expression _ _ hx hxs
      have := this.1.2
      omega

theorem halts_function (m : Nat) (ih : Halts m) (p : List Char) (c : ParserResult)
    (hm : 12 * p.length + 1 < m + 1) : ∃ r, function (m + 1) p c = some r := by
  simp only [function]
  split
  · exact ⟨_, rfl⟩
  · rename_i hsucc
    have hs : (match_token "(" p).success = true := by simpa using hsucc
    obtain ⟨m1, _⟩ := match_token_consumed "(" (by decide) p hs
    have hlt := m1.2
    obtain ⟨x, hx⟩ := ih.expression (match_token "(" p).remainder (by omega)
    rw [hx]
    simp only [Option.some_bind]
    have hpre : x.success = true →
        x.remainder <:+ (match_token "(" p).remainder ∧ parser_shaped x.data = true :=
      fun hxs => ((progress m).expression _ _ hx).suffix hxs
    obtain ⟨out, ho⟩ := ih.function_arguments [] (match_token "(" p).remainder x (by omega)
      (by
        intro hxs
        have := (hpre hxs).1.length_le
        omega)
    rw [ho]
    simp only [Option.some_bind]
    obtain ⟨o1, _⟩ := (progress m).function_arguments _ _ _ _ ho hpre rfl
    split
    · exact ⟨_, rfl⟩
    · refine ih.index_ _ _ ?_
      have h1 := (eat_whitespace_suffix (match_token ")" out.2).remainder).length_le
      have h2 := (match_token_suffix ")" out.2).length_le
      have h3 := o1.length_le
      simp only [success]
      omega


theorem halts_atom_calls (m : Nat) (ih : Halts m) (res : ParserResult)
    (hm : 12 * res.remainder.length + 2 < m + 1) :
    ∃ r, atom_calls (m + 1) res = some r := by
  simp only [atom_calls]
  obtain ⟨next, hf⟩ := ih.function res.remainder res (by omega)
  rw [hf]
  simp only [Option.some_bind]
  split
  · exact ⟨_, rfl⟩
  · rename_i hne
    have hne2 : res.remainder.length ≠ next.remainder.length := by simpa using hne
    have hle : next.remainder.length ≤ res.remainder.length := by
      rcases (progress m).function _ _ _ hf with he | ⟨_, he2, _⟩
      · rw [he]
      · exact he2.1.length_le
    exact ih.atom_calls next (by omega)

theorem halts_atom (m : Nat) (ih : Halts m) (p : List Char)
    (hm : 12 * p.length + 3 < m + 1) : ∃ r, atom (m + 1) p = some r := by
  simp only [atom]
  obtain ⟨result, ha⟩ := any_returns [lift number, identifier m] p (by
    intro q hq
    simp only [List.mem_cons, List.mem_singleton, List.mem_nil_iff, or_false] at hq
    rcases hq with hq | hq <;> rw [hq]
    · exact ⟨_, rfl⟩
    · exact ih.identifier p (by omega))
  rw [ha]
  simp only [Option.some_bind]
  split
  · rename_i hsucc
    obtain ⟨q, hq, hqr⟩ := any_success _ _ _ ha hsucc
    have hcons : Consumed p result := by
      simp only [List.mem_cons, List.mem_singleton, List.mem_nil_iff, or_false] at hq
      rcases hq with hq | hq
      · rw [hq] at hqr
        simp only [lift, Option.some.injEq] at hqr
        rw [← hqr]
        exact number_consumed p
      · rw [hq] at hqr
        exact (progress m).identifier _ _ hqr
    have := (hcons hsucc).1.2
    exact ih.atom_calls result (by omega)
  · have hparts : ∀ q', q' ∈ [addop m, lift (match_token ")")] →
        Shrinks q' ∧ Returns q' p.length :=
      parts_list _ _
        ⟨⟨shrinks_of_consumed _ (progress m).addop, fun inp hi => ih.addop inp (by omega)⟩,
          part_token _ (by decide) _⟩
    obtain ⟨results, hseq⟩ := seq_returns (lift (match_token "(")) _ p ⟨_, rfl⟩
      (lift_match_consumed "(" (by decide)) hparts
    rw [hseq]
    simp only [Option.some_bind]
    split
    · exact ⟨_, rfl⟩
    · rename_i hne
      have hne2 : results.isEmpty = false := by simpa using hne
      obtain ⟨hget, _⟩ := seq_results _ _ p results hseq hne2
        (lift_match_consumed "(" (by decide)) (fun q' hq' => (hparts q' hq').1)
      have := (hget 2).1.2
      exact ih.function _ _ (by omega)

theorem any_two_shorter (s1 s2 : String) (h1 : 0 < s1.length) (h2 : 0 < s2.length)
    (p : List Char) :
    ∃ op, any [lift (match_token s1), lift (match_token s2)] p = some op ∧
      (op.success = true → op.remainder.length < p.length) := by
  refine ⟨_, any_two s1 s2 p, ?_⟩
  split
  · exact fun hs => (match_token_consumed s1 h1 p hs).1.2
  · split
    · exact fun hs => (match_token_consumed s2 h2 p hs).1.2
    · intro hs
      cases hs

theorem halts_term_loop (m : Nat) (ih : Halts m) (res : ParserResult)
    (hm : 12 * res.remainder.length < m + 1) : ∃ r, term_loop (m + 1) res = some r := by
  obtain ⟨op, hop, hlt⟩ := any_two_shorter "*" "/" (by decide) (by decide) res.remainder
  simp only [term_loop, hop, Option.some_bind]
  split
  · exact ⟨_, rfl⟩
  · rename_i hops
    have hlt2 := hlt (by simpa using hops)
    obtain ⟨rh, ha⟩ := ih.atom op.remainder (by omega)
    rw [ha]
    simp only [Option.some_bind]
    split
    · exact ⟨_, rfl⟩
    · rename_i hrs
      have hrs2 : rh.success = true := by simpa using hrs
      have h1 := ((progress m).atom _ _ ha hrs2).1.2
      refine ih.term_loop _ ?_
      have h2 := (eat_whitespace_suffix rh.remainder).length_le
      simp only [success]
      omega

theorem halts_term (m : Nat) (ih : Halts m) (p : List Char)
    (hm : 12 * p.length + 4 < m + 1) : ∃ r, term (m + 1) p = some r := by
  simp only [term]
  obtain ⟨result, ha⟩ := ih.atom p (by omega)
  rw [ha]
  simp only [Option.some_bind]
  split
  · exact ⟨_, rfl⟩
  · rename_i hrs
    have hrs2 : result.success = true := by simpa using hrs
    have h1 := ((progress m).atom _ _ ha hrs2).1.2
    exact ih.term_loop _ (by omega)

theorem halts_addop_loop (m : Nat) (ih : Halts m) (res : ParserResult)
    (hm : 12 * res.remainder.length < m + 1) : ∃ r, addop_loop (m + 1) res = some r := by
  obtain ⟨op, hop, hlt⟩ := any_two_shorter "+" "-" (by decide) (by decide) res.remainder
  simp only [addop_loop, hop, Option.some_bind]
  split
  · exact ⟨_, rfl⟩
  · rename_i hops
    have hlt2 := hlt (by simpa using hops)
    obtain ⟨rh, ha⟩ := ih.term op.remainder (by omega)
    rw [ha]
    simp only [Option.some_bind]
    split
    · exact ⟨_, rfl⟩
    · rename_i hrs
      have hrs2 : rh.success = true := by simpa using hrs
      have h1 := ((progress m).term _ _ ha hrs2).1.2
      refine ih.addop_loop _ ?_
      have h2 := (eat_whitespace_suffix rh.remainder).length_le
      simp only [success]
      omega

theorem halts_addop (m : Nat) (ih : Halts m) (p : List Char)
    (hm : 12 * p.length + 5 < m + 1) : ∃ r, addop (m + 1) p = some r := by
  simp only [addop]
  obtain ⟨result, ha⟩ := ih.term p (by omega)
  rw [ha]
  simp only [Option.some_bind]
  split
  · exact ⟨_, rfl⟩
  · rename_i hrs
    have hrs2 : result.success = true := by simpa using hrs
    have h1 := ((progress m).term _ _ ha hrs2).1.2
    exact ih.addop_loop _ (by omega)

theorem halts_noncompare (m : Nat) (ih : Halts m) (p : List Char)
    (hm : 12 * p.length + 6 < m + 1) : ∃ r, noncompare_expression (m + 1) p = some r := by
  simp only [noncompare_expression]
  refine any_returns _ p ?_
  intro q hq
  simp only [List.mem_singleton] at hq
  rw [hq]
  exact ih.addop p (by omega)


theorem part_expression (m : Nat) (ih : Halts m) (bound : Nat) (hb : 12 * bound ≤ m + 3) :
    Shrinks (expression m) ∧ Returns (expression m) bound :=
  ⟨shrinks_of_consumed _ (progress m).expression, fun inp hi => ih.expression inp (by omega)⟩

theorem part_block (m : Nat) (ih : Halts m) (bound : Nat) (hb : 12 * bound ≤ m) :
    Shrinks (block m) ∧ Returns (block m) bound :=
  ⟨shrinks_block m (progress m), fun inp hi => ih.block inp (by omega)⟩

theorem halts_equality (m : Nat) (ih : Halts m) (p : List Char)
    (hm : 12 * p.length + 7 < m + 1) : ∃ r, equality (m + 1) p = some r := by
  simp only [equality]
  obtain ⟨results, hseq⟩ := seq_returns (noncompare_expression m)
    [any [lift (match_token "=="), lift (match_token "!="), lift (match_token "<")],
      noncompare_expression m] p
    (ih.noncompare_expression p (by omega)) (progress m).noncompare_expression
    (parts_list _ _
      ⟨⟨shrinks_of_consumed _ (any_consumed _ (by
          intro q hq
          simp only [List.mem_cons, List.mem_singleton, List.mem_nil_iff, or_false] at hq
          rcases hq with hq | hq | hq <;> rw [hq]
          · exact lift_match_consumed _ (by decide)
          · exact lift_match_consumed _ (by decide)
          · exact lift_match_consumed _ (by decide))),
        fun inp _ => any_returns _ inp (by
          intro q hq
          simp only [List.mem_cons, List.mem_singleton, List.mem_nil_iff, or_false] at hq
          rcases hq with hq | hq | hq <;> rw [hq] <;> exact ⟨_, rfl⟩)⟩,
        ⟨shrinks_of_consumed _ (progress m).noncompare_expression,
          fun inp hi => ih.noncompare_expression inp (by omega)⟩⟩)
  rw [hseq]
  simp only [Option.some_bind]
  split <;> exact ⟨_, rfl⟩

theorem halts_expression (m : Nat) (ih : Halts m) (p : List Char)
    (hm : 12 * p.length + 8 < m + 1) : ∃ r, expression (m + 1) p = some r := by
  simp only [expression]
  refine any_returns _ p ?_
  intro q hq
  simp only [List.mem_cons, List.mem_singleton, List.mem_nil_iff, or_false] at hq
  rcases hq with hq | hq | hq <;> rw [hq]
  · exact ih.function_definition p (by omega)
  · exact ih.equality p (by omega)
  · exact ih.noncompare_expression p (by omega)

theorem halts_statement (m : Nat) (ih : Halts m) (p : List Char)
    (hm : 12 * p.length + 9 < m + 1) : ∃ r, statement (m + 1) p = some r := by
  simp only [statement]
  refine any_returns _ p ?_
  intro q hq
  simp only [List.mem_cons, List.mem_singleton, List.mem_nil_iff, or_false] at hq
  rcases hq with hq | hq | hq | hq | hq <;> rw [hq]
  · exact ih.return_statement p (by omega)
  · exact ih.assignment p (by omega)
  · exact ih.if_statement p (by omega)
  · exact ih.while_loop p (by omega)
  · exact ih.expression p (by omega)

theorem halts_assignment (m : Nat) (ih : Halts m) (p : List Char)
    (hm : 12 * p.length + 1 < m + 1) : ∃ r, assignment (m + 1) p = some r := by
  simp only [assignment]
  obtain ⟨results, hseq⟩ := seq_returns (identifier m)
    [lift (match_token "="), expression m] p
    (ih.identifier p (by omega)) (progress m).identifier
    (parts_list _ _ ⟨part_token _ (by decide) _, part_expression m ih _ (by omega)⟩)
  rw [hseq]
  simp only [Option.some_bind]
  split <;> exact ⟨_, rfl⟩

theorem halts_function_definition (m : Nat) (ih : Halts m) (p : List Char)
    (hm : 12 * p.length < m + 1) : ∃ r, function_definition (m + 1) p = some r := by
  simp only [function_definition]
  obtain ⟨results, hseq⟩ := seq_returns (lift (match_token "function"))
    [lift (match_token "("), lift (match_token ")"), lift (match_token "\x7b"), block m,
      lift (match_token "\x7d")] p ⟨_, rfl⟩ (lift_match_consumed _ (by decide))
    (parts_list _ _ ⟨part_token _ (by decide) _, part_token _ (by decide) _,
      part_token _ (by decide) _, part_block m ih _ (by omega), part_token _ (by decide) _⟩)
  rw [hseq]
  simp only [Option.some_bind]
  split <;> exact ⟨_, rfl⟩

theorem halts_while_loop (m : Nat) (ih : Halts m) (p : List Char)
    (hm : 12 * p.length < m + 1) : ∃ r, while_loop (m + 1) p = some r := by
  simp only [while_loop]
  obtain ⟨results, hseq⟩ := seq_returns (lift (match_token "while"))
    [lift (match_token "("), expression m, lift (match_token ")"),
      lift (match_token "\x7b"), block m, lift (match_token "\x7d")] p ⟨_, rfl⟩
    (lift_match_consumed _ (by decide))
    (parts_list _ _ ⟨part_token _ (by decide) _, part_expression m ih _ (by omega),
      part_token _ (by decide) _, part_token _ (by decide) _,
      part_block m ih _ (by omega), part_token _ (by decide) _⟩)
  rw [hseq]
  simp only [Option.some_bind]
  split <;> exact ⟨_, rfl⟩

theorem halts_return_statement (m : Nat) (ih : Halts m) (p : List Char)
    (hm : 12 * p.length < m + 1) : ∃ r, return_statement (m + 1) p = some r := by
  simp only [return_statement]
  obtain ⟨results, hseq⟩ := seq_returns (lift (match_token "return")) [expression m] p
    ⟨_, rfl⟩ (lift_match_consumed _ (by decide))
    (parts_list _ [expression m] (part_expression m ih _ (by omega)))
  rw [hseq]
  simp only [Option.some_bind]
  split <;> exact ⟨_, rfl⟩

theorem halts_if_statement (m : Nat) (ih : Halts m) (p : List Char)
    (hm : 12 * p.length < m + 1) : ∃ r, if_statement (m + 1) p = some r := by
  simp only [if_statement]
  have hparts : ∀ q', q' ∈ [lift (match_token "("), expression m, lift (match_token ")"),
      lift (match_token "\x7b"), block m, lift (match_token "\x7d")] →
      Shrinks q' ∧ Returns q' p.length :=
    parts_list _ _ ⟨part_token _ (by decide) _, part_expression m ih _ (by omega),
      part_token _ (by decide) _, part_token _ (by decide) _,
      part_block m ih _ (by omega), part_token _ (by decide) _⟩
  obtain ⟨results, hseq⟩ := seq_returns (lift (match_token "if")) _ p ⟨_, rfl⟩
    (lift_match_consumed _ (by decide)) hparts
  rw [hseq]
  simp only [Option.some_bind]
  split
  · exact ⟨_, rfl⟩
  · rename_i hne
    have hne2 : results.isEmpty = false := by simpa using hne
    obtain ⟨_, hlast, _⟩ := seq_results _ _ p results hseq hne2
      (lift_match_consumed _ (by decide)) (fun q' hq' => (hparts q' hq').1)
    have h0 := hlast.2
    have h1 := (match_token_suffix "else" (results.getLastD failure).remainder).length_le
    split
    · split
      · have h2 := (match_token_suffix "\x7b"
          (match_token "else" (results.getLastD failure).remainder).remainder).length_le
        obtain ⟨eb, hb⟩ := ih.block (match_token "\x7b"
          (match_token "else" (results.getLastD failure).remainder).remainder).remainder
          (by omega)
        rw [hb]
        simp only [Option.some_bind]
        split
        · exact ⟨_, rfl⟩
        · split <;> exact ⟨_, rfl⟩
      · obtain ⟨res, hb⟩ := ih.if_statement
          (match_token "else" (results.getLastD failure).remainder).remainder (by omega)
        rw [hb]
        simp only [Option.some_bind]
        split <;> exact ⟨_, rfl⟩
    · exact ⟨_, rfl⟩

theorem halts_block_loop (m : Nat) (ih : Halts m) (ch : List ProgramData) (p : List Char)
    (hm : 12 * p.length + 10 < m + 1) : ∃ r, block_loop (m + 1) ch p = some r := by
  simp only [block_loop]
  obtain ⟨result, hst⟩ := ih.statement p (by omega)
  rw [hst]
  simp only [Option.some_bind]
  split
  · exact ⟨_, rfl⟩
  · rename_i hrs
    have hrs2 : result.success = true := by simpa using hrs
    have h1 := ((progress m).statement _ _ hst hrs2).1.2
    exact ih.block_loop _ _ (by omega)

theorem halts_block (m : Nat) (ih : Halts m) (p : List Char)
    (hm : 12 * p.length + 11 < m + 1) : ∃ r, block (m + 1) p = some r := by
  simp only [block]
  exact ih.block_loop _ _ (by omega)

/-- Every parser returns once its fuel exceeds its measure on the input. -/
theorem halts : ∀ m, Halts m
  | 0 => halts_zero
  | m + 1 =>
    have ih := halts m
    { identifier := halts_identifier m ih
      index_ := halts_index m ih
      function := halts_function m ih
      function_arguments := fun ch p res _ => halts_function_arguments m ih ch p res
      atom := halts_atom m ih
      atom_calls := halts_atom_calls m ih
      term := halts_term m ih
      term_loop := halts_term_loop m ih
      addop := halts_addop m ih
      addop_loop := halts_addop_loop m ih
      noncompare_expression := halts_noncompare m ih
      equality := halts_equality m ih
      expression := halts_expression m ih
      assignment := halts_assignment m ih
      function_definition := halts_function_definition m ih
      if_statement := halts_if_statement m ih
      while_loop := halts_while_loop m ih
      return_statement := halts_return_statement m ih
      statement := halts_statement m ih
      block := halts_block m ih
      block_loop := halts_block_loop m ih }


theorem main_statements_halts (fuel : Nat) :
    ∀ (program : List Char) (e : Env), 12 * program.length + 10 < fuel →
      main_statements fuel program e ≠ .error .out_of_fuel := by
  induction fuel with
  | zero => intro program e h; omega
  | succ fuel ih =>
    intro program e hf
    cases program with
    | nil => simp [main_statements]
    | cons c p =>
      obtain ⟨res, hs⟩ := (halts fuel).statement (c :: p) (by omega)
      simp only [main_statements, hs]
      split
      · simp
      · rename_i hrs
        have hrs2 : res.success = true := by simpa using hrs
        have hlt := ((progress fuel).statement _ _ hs hrs2).1.2
        cases hj : jit_statement res.data e with
        | error a =>
          cases a with
          | thrown err => simp
          | undefined => simp
        | ok e1 => exact ih _ _ (by omega)

theorem parse_program_halts (fuel : Nat) :
    ∀ program : List Char, 12 * program.length + 10 < fuel →
      parse_program fuel program ≠ none := by
  induction fuel with
  | zero => intro program h; omega
  | succ fuel ih =>
    intro program hf
    cases program with
    | nil => simp [parse_program]
    | cons c p =>
      obtain ⟨res, hs⟩ := (halts fuel).statement (c :: p) (by omega)
      simp only [parse_program, hs]
      split
      · simp
      · rename_i hrs
        have hrs2 : res.success = true := by simpa using hrs
        have hlt := ((progress fuel).statement _ _ hs hrs2).1.2
        have := ih res.remainder (by omega)
        cases hp : parse_program fuel res.remainder with
        | none => exact absurd hp this
        | some o => cases o <;> simp

/-- The statements read from a text have the shape the parser gives to its trees. -/
theorem parse_program_shaped (fuel : Nat) :
    ∀ (text : List Char) (program : List ProgramData),
      parse_program fuel text = some (some program) → parser_shaped_list program = true := by
  induction fuel with
  | zero =>
    intro text program h
    cases text with
    | nil =>
      simp only [parse_program, Option.some.injEq] at h
      rw [← h]
      rfl
    | cons c p => simp [parse_program] at h
  | succ fuel ih =>
    intro text program h
    cases text with
    | nil =>
      simp only [parse_program, Option.some.injEq] at h
      rw [← h]
      rfl
    | cons c p =>
      simp only [parse_program] at h
      cases hs : statement fuel (c :: p) with
      | none => simp [hs] at h
      | some res =>
        simp only [hs] at h
        split at h
        · simp at h
        · rename_i hrs
          have hrs2 : res.success = true := by simpa using hrs
          have hshape := ((progress fuel).statement _ _ hs hrs2).2
          cases hp : parse_program fuel res.remainder with
          | none => simp [hp] at h
          | some o =>
            cases o with
            | none => simp [hp] at h
            | some rest =>
              simp only [hp, Option.some.injEq] at h
              rw [← h]
              simp only [parser_shaped_list, hshape, ih _ _ hp, Bool.and_true]

/-- C23: whenever the statement parser succeeds on a text, whatever the fuel it ran with,
the remainder it returns is a suffix of the text and is shorter than the text.  With a
fuel above twelve times the length of the text plus eleven, no loop of the parser stops
for lack of fuel: `statement` returns, the loop of `block` returns from any vector of
children read so far, `block` returns a success and a suffix of the text, and the first loop of
`main`, which parses and compiles the statements one after the other, comes to its end:
it never answers that the fuel ran out. -/
theorem statement_consumes_input (program : List Char) (e : Env) (fuel : Nat)
    (hf : 12 * program.length + 11 < fuel) :
    (∀ n r, statement n program = some r → r.success = true →
      r.remainder <:+ program ∧ r.remainder.length < program.length) ∧
    (∃ r, statement fuel program = some r) ∧
    (∀ children, ∃ r, block_loop fuel children program = some r) ∧
    (∃ r, block fuel program = some r ∧ r.success = true ∧ r.remainder <:+ program) ∧
    parse_program fuel program ≠ none ∧
    main_statements fuel program e ≠ .error .out_of_fuel := by
  refine ⟨?_, ?_, ?_, ?_, ?_, ?_⟩
  · intro n r h hs
    exact ((progress n).statement program r h hs).1
  · exact (halts fuel).statement program (by omega)
  · intro children
    exact (halts fuel).block_loop children program (by omega)
  · obtain ⟨r, hr⟩ := (halts fuel).block program (by omega)
    obtain ⟨b1, b2, _⟩ := (progress fuel).block program r hr
    exact ⟨r, hr, b1, b2⟩
  · exact parse_program_halts fuel program (by omega)
  · exact main_statements_halts fuel program e (by omega)

/-- The text of two assignments: the statement parser reads the first and leaves the
second, and the loops come to their end with a fuel of 200. -/
theorem statement_consumes_input_witness :
    12 * "x = 1\ny = 2".toList.length + 11 < 200 ∧
    statement 200 "x = 1\ny = 2".toList =
      some (success "y = 2".toList (assign "x" (.integer 1))) ∧
    "y = 2".toList.length < "x = 1\ny = 2".toList.length ∧
    parse_program 200 "x = 1\ny = 2".toList =
      some (some [assign "x" (.integer 1), assign "y" (.integer 2)]) ∧
    main_statements 200 "x = 1\ny = 2".toList demo_env ≠ .error .out_of_fuel :=
  ⟨by decide, by decide,
    ((statement_consumes_input "x = 1\ny = 2".toList demo_env 200 (by decide)).1 200
      (success "y = 2".toList (assign "x" (.integer 1))) (by decide) rfl).2,
    by decide,
    (statement_consumes_input "x = 1\ny = 2".toList demo_env 200 (by decide)).2.2.2.2.2⟩


/-- C24: for a text that parses to the statements `program`, and whose statements compile
without a `throw` from the state `main` has built, the functions still to be compiled
after the top level are as many as the program has function-definition nodes, however
deeply nested; the second loop of `main` ends within that many turns (it never runs out
of a fuel at least that large), and when it ends without a `throw` the worklist is empty
and the code opens exactly one function more than the program has function-definition
nodes, and closes as many.  So a run of `main` that reaches the generated code has opened
and closed one function for the top level and one for each function definition, and a
run of `main` whose fuel was enough to parse the text and is at least the number of
function definitions never stops for lack of fuel. -/
theorem every_definition_compiled_once (fp : NativeFunctions) (text : List Char)
    (program : List ProgramData) (e0 e1 : Env) (n fuel : Nat)
    (h0 : main_init fp = some e0)
    (hparse : parse_program n text = some (some program))
    (hc : compile_statements program e0 = .ok e1)
    (hf : definitions_list program ≤ fuel) :
    pending e1.state.remainders = definitions_list program ∧
    main_compile fp program fuel = drain fuel (e1.emit .endFunc) ∧
    drain fuel (e1.emit .endFunc) ≠ .ok none ∧
    (∀ e2, drain fuel (e1.emit .endFunc) = .ok (some e2) →
      e2.state.remainders = [] ∧
      e2.a.code.countP Inst.opens = 1 + definitions_list program ∧
      e2.a.code.countP Inst.closes = 1 + definitions_list program) ∧
    (∀ a : X86Compiler, main fp false n text = .running a →
      a.code.countP Inst.opens = 1 + definitions_list program ∧
      a.code.countP Inst.closes = 1 + definitions_list program) ∧
    (definitions_list program ≤ n → ∀ rt_add_error,
      main fp rt_add_error n text ≠ .out_of_fuel) := by
  have hs : parser_shaped_list program = true := parse_program_shaped n text program hparse
  obtain ⟨e0', h0', _, _, hrem0, hcode0, _, _⟩ := main_init_state fp
  rw [h0] at h0'
  injection h0' with h0'
  subst h0'
  obtain ⟨new, hd, hp, hsn⟩ := compile_statements_defers program e0 e1 hc hs
  have hr1 : e1.state.remainders = new := by
    have : e1.state.remainders = e0.state.remainders ++ new := hd
    rw [this, hrem0]
    rfl
  obtain ⟨c1, c2⟩ := (compile_statements_scoped program e0 e1 hc).counts
  have hshaped : ∀ r, r ∈ (e1.emit .endFunc).state.remainders →
      parser_shaped r.data = true := by
    intro r hr
    have hr' : r ∈ e1.state.remainders := hr
    rw [hr1] at hr'
    exact hsn r hr'
  have hpend : pending (e1.emit .endFunc).state.remainders = definitions_list program := by
    show pending e1.state.remainders = _
    rw [hr1, hp]
  have hopen : (e1.emit .endFunc).a.code.countP Inst.opens = 1 := by
    show (e1.a.code ++ [Inst.endFunc]).countP Inst.opens = 1
    rw [List.countP_append, c1, hcode0]
    rfl
  have hclose : (e1.emit .endFunc).a.code.countP Inst.closes = 1 := by
    show (e1.a.code ++ [Inst.endFunc]).countP Inst.closes = 1
    rw [List.countP_append, c2, hcode0]
    rfl
  have hcounts : ∀ (k : Nat) (e2 : Env), drain k (e1.emit .endFunc) = .ok (some e2) →
      e2.state.remainders = [] ∧
      e2.a.code.countP Inst.opens = 1 + definitions_list program ∧
      e2.a.code.countP Inst.closes = 1 + definitions_list program := by
    intro k e2 he
    obtain ⟨j1, j2, j3⟩ := drain_counts k (e1.emit .endFunc) e2 hshaped he
    rw [hopen, hpend] at j2
    rw [hclose, hpend] at j3
    exact ⟨j1, j2, j3⟩
  refine ⟨by rw [hr1, hp], by simp only [main_compile, h0, hc], ?_, ?_, ?_, ?_⟩
  · exact drain_ends fuel (e1.emit .endFunc) hshaped (by rw [hpend]; exact hf)
  · intro e2 he
    exact hcounts fuel e2 he
  · intro a hrun
    obtain ⟨_, stmts, e0', e1', e2, i0, i1, i2, i3, i4⟩ := (main_running fp false n text a).mp hrun
    rw [h0] at i0
    injection i0 with i0
    subst i0
    rw [hparse] at i1
    injection i1 with i1
    injection i1 with i1
    subst i1
    rw [hc] at i2
    injection i2 with i2
    subst i2
    rw [i4]
    exact (hcounts n e2 i3).2
  · intro hn rt_add_error
    have hms : main_statements n text e0 = .ok e1 :=
      (main_statements_ok n text e0 e1).mpr ⟨program, hparse, hc⟩
    have hd := drain_ends n (e1.emit .endFunc) hshaped (by rw [hpend]; exact hn)
    simp only [main, h0, hms]
    cases hdr : drain n (e1.emit .endFunc) with
    | error a =>
      cases a with
      | thrown err => simp
      | undefined => simp
    | ok o =>
      cases o with
      | none => exact absurd hdr hd
      | some e2 =>
        simp only
        split <;> simp

set_option maxRecDepth 100000 in
theorem nested_text_parses : parse_program 40 nested_text = some (some nested_program) := by
  decide

/-- The text `f = function() { g = function() { return 1 } return 2 }` has two
function definitions: three functions are opened and closed. -/
theorem every_definition_compiled_once_witness :
    parse_program 40 nested_text = some (some nested_program) ∧
    definitions_list nested_program = 2 ∧
    ∃ e1 e2, compile_statements nested_program demo_env = .ok e1 ∧
      pending e1.state.remainders = 2 ∧
      drain 2 (e1.emit .endFunc) = .ok (some e2) ∧
      e2.state.remainders = [] ∧
      e2.a.code.countP Inst.opens = 3 ∧ e2.a.code.countP Inst.closes = 3 :=
  ⟨nested_text_parses, by decide, _, _, rfl,
    (every_definition_compiled_once demo_natives nested_text nested_program demo_env _ 40 2
      main_init_demo nested_text_parses rfl (by decide)).1,
    rfl,
    ((every_definition_compiled_once demo_natives nested_text nested_program demo_env _ 40 2
      main_init_demo nested_text_parses rfl (by decide)).2.2.2.1 _ rfl)⟩


end JitLang
